import Mathlib

/-!
Verification development for the dx-clan genealogy pipeline.

The definitions below are a shallow embedding of the Python sources:
  * backend/scripts/smart_parser.py  (parsing, registry building, merging, sharing)
  * scripts/clean_ocr_punctuation.py (OCR line normalizer)
  * backend/scripts/deduplicate.py   (storage-side canonical merge)

Strings are embedded as `List Char`.  Python dictionaries (which preserve
insertion order and update values in place) are embedded as association
lists with first-occurrence lookup, in-place value update, and append on
fresh keys.  Python truthiness tests on optional integers (`if x and ...`,
where both `None` and `0` are falsy) are embedded by `pyTruthy`.
-/

namespace DxClan

abbrev Str := List Char

/-- Python `str.lower` restricted to ASCII letters (the data is OCR ASCII). -/
def lowerChar (c : Char) : Char :=
  if 'A' ≤ c ∧ c ≤ 'Z' then Char.ofNat (c.toNat + 32) else c

/-- Python `str.upper` restricted to ASCII letters. -/
def upperChar (c : Char) : Char :=
  if 'a' ≤ c ∧ c ≤ 'z' then Char.ofNat (c.toNat - 32) else c

def lowerStr (s : Str) : Str := s.map lowerChar

/-- Python truthiness of an optional integer: `None` and `0` are falsy. -/
def pyTruthy : Option Nat → Bool
  | none => false
  | some n => n ≠ 0

/-- Python truthiness of an optional string: `None` and `""` are falsy. -/
def pyTruthyStr : Option Str → Bool
  | none => false
  | some s => s ≠ []

/-! ### Association lists embedding Python dicts -/

/-- First-occurrence lookup (Python dict keys are unique; on lists this is
the first binding). -/
def alGet {κ ν : Type} [DecidableEq κ] : List (κ × ν) → κ → Option ν
  | [], _ => none
  | (k, v) :: t, a => if k = a then some v else alGet t a

def alContains {κ ν : Type} [DecidableEq κ] (l : List (κ × ν)) (a : κ) : Bool :=
  (alGet l a).isSome

/-- Update the first binding of `a` in place (no-op when absent). -/
def alUpd {κ ν : Type} [DecidableEq κ] : List (κ × ν) → κ → (ν → ν) → List (κ × ν)
  | [], _, _ => []
  | (k, v) :: t, a, f => if k = a then (k, f v) :: t else (k, v) :: alUpd t a f

/-- Python `d[a] = v`: update in place when present, else append. -/
def alSet {κ ν : Type} [DecidableEq κ] (l : List (κ × ν)) (a : κ) (v : ν) : List (κ × ν) :=
  if alContains l a then alUpd l a (fun _ => v) else l ++ [(a, v)]

/-- Python `del d[a]` for all bindings of `a` (there is at most one). -/
def alDel {κ ν : Type} [DecidableEq κ] (l : List (κ × ν)) (a : κ) : List (κ × ν) :=
  l.filter (fun kv => kv.1 ≠ a)

/-! ### Data model (smart_parser.py dataclasses) -/

/-- `Person` dataclass.  Relationship lists hold person-name references. -/
structure Person where
  name : Str
  birth_year : Option Nat := none
  birth_year_circa : Bool := false
  death_year : Option Nat := none
  death_year_circa : Bool := false
  gender : Option Str := none
  generation : Option Nat := none
  notes : Str := []
  parents : List Str := []
  spouses : List Str := []
  children : List Str := []
  deriving DecidableEq, Repr

/-- `ParsedEntry` dataclass.  `generation` is optional here because the
parser's local variable can be `None` before the final checks. -/
structure ParsedEntry where
  generation : Option Nat
  is_spouse : Bool
  is_relisting : Bool
  name : Str
  birth_year : Option Nat
  birth_year_circa : Bool
  death_year : Option Nat
  death_year_circa : Bool
  deriving DecidableEq, Repr

/-- Person identity key: (lowercased name, birth year or none). -/
abbrev Key := Str × Option Nat

def keyOf (e : ParsedEntry) : Key := (lowerStr e.name, e.birth_year)

abbrev Registry := List (Key × Person)

/-! ### build_persons_dict (smart_parser.py lines 463-542) -/

/-- One element of the `entries` list: `(entry, parent_name)`; the page
number carried by the Python tuple is unused by `build_persons_dict`. -/
abbrev EntryCtx := ParsedEntry × Option Str

structure BuildState where
  persons : Registry
  parentsSet : List Key
  currentPerson : Option Key
  deriving Repr

def initBuildState : BuildState := ⟨[], [], none⟩

/-- `Person(...)` constructed at first appearance of a key. -/
def mkPerson (e : ParsedEntry) : Person :=
  { name := e.name
    birth_year := e.birth_year
    birth_year_circa := e.birth_year_circa
    death_year := e.death_year
    death_year_circa := e.death_year_circa
    generation := if e.is_spouse then none else e.generation }

/-- Fill death year and generation additively (`if entry.x and not person.x`). -/
def fillPerson (e : ParsedEntry) (p : Person) : Person :=
  let p :=
    if pyTruthy e.death_year ∧ ¬ pyTruthy p.death_year then
      { p with death_year := e.death_year, death_year_circa := e.death_year_circa }
    else p
  if pyTruthy e.generation ∧ ¬ pyTruthy p.generation then
    { p with generation := e.generation }
  else p

/-- The spouse branch: symmetric, set-like spouse insertion between the
current person and this entry's person. -/
def spouseUpdate (persons : Registry) (ck : Key) (key : Key) (ename : Str) : Registry :=
  match alGet persons ck with
  | none => persons
  | some curr =>
    let persons1 := alUpd persons ck (fun c =>
      if ename ∈ c.spouses then c else { c with spouses := c.spouses ++ [ename] })
    alUpd persons1 key (fun person =>
      if curr.name ∈ person.spouses then person
      else { person with spouses := person.spouses ++ [curr.name] })

/-- Find the first registry key whose normalized name matches. -/
def findParentKey (persons : Registry) (pn : Str) : Option (Key × Person) :=
  persons.find? (fun kp => kp.1.1 = lowerStr pn)

/-- The guarded first-appearance parent assignment. -/
def parentUpdate (persons : Registry) (key : Key) (ename : Str) (pn : Str) : Registry :=
  match findParentKey persons pn with
  | none => persons
  | some (pk, parent) =>
    let persons1 := alUpd persons pk (fun par =>
      if ename ∈ par.children then par else { par with children := par.children ++ [ename] })
    alUpd persons1 key (fun person =>
      if parent.name ∈ person.parents then person
      else { person with parents := person.parents ++ [parent.name] })

def buildStep (st : BuildState) (ec : EntryCtx) : BuildState :=
  let e := ec.1
  let parentName := ec.2
  let key := keyOf e
  let persons1 :=
    if alContains st.persons key then st.persons else st.persons ++ [(key, mkPerson e)]
  let persons2 := alUpd persons1 key (fillPerson e)
  if e.is_spouse ∧ st.currentPerson.isSome then
    match st.currentPerson with
    | some ck =>
        { st with persons := spouseUpdate persons2 ck key e.name }
    | none => { st with persons := persons2 }
  else
    if pyTruthyStr parentName ∧ key ∉ st.parentsSet then
      let pset := st.parentsSet ++ [key]
      match parentName with
      | some pn =>
          { persons := parentUpdate persons2 key e.name pn
            parentsSet := pset
            currentPerson := some key }
      | none => { persons := persons2, parentsSet := pset, currentPerson := some key }
    else
      { persons := persons2, parentsSet := st.parentsSet, currentPerson := some key }

def buildRun (st : BuildState) (entries : List EntryCtx) : BuildState :=
  entries.foldl buildStep st

def build_persons_dict (entries : List EntryCtx) : Registry :=
  (buildRun initBuildState entries).persons

/-! ### merge_duplicates (smart_parser.py lines 573-638) -/

/-- `defaultdict(list)` grouping by normalized name, preserving first
appearance order of names and in-group insertion order. -/
def addToGroup (acc : List (Str × List (Key × Person))) (kp : Key × Person) :
    List (Str × List (Key × Person)) :=
  if alContains acc kp.1.1 then alUpd acc kp.1.1 (fun g => g ++ [kp])
  else acc ++ [(kp.1.1, [kp])]

def groupByName (persons : Registry) : List (Str × List (Key × Person)) :=
  persons.foldl addToGroup []

/-- Base selection: first member with a birth year, else first member. -/
def pickBase (entries : List (Key × Person)) : Option (Key × Person) :=
  match entries.filter (fun e => e.1.2.isSome) with
  | b :: _ => some b
  | [] => entries.head?

/-- Append the members of `l2` not already present (set-like union). -/
def unionAppend (l1 l2 : List Str) : List Str :=
  l2.foldl (fun acc s => if s ∈ acc then acc else acc ++ [s]) l1

/-- Merge one non-base group member into the base record. -/
def mergeOne (base : Person) (other : Person) : Person :=
  let base :=
    if ¬ pyTruthy base.death_year ∧ pyTruthy other.death_year then
      { base with death_year := other.death_year, death_year_circa := other.death_year_circa }
    else base
  let base :=
    if ¬ pyTruthy base.generation ∧ pyTruthy other.generation then
      { base with generation := other.generation }
    else base
  let base :=
    if base.parents = [] ∧ other.parents ≠ [] then { base with parents := other.parents }
    else base
  let base := { base with spouses := unionAppend base.spouses other.spouses }
  { base with children := unionAppend base.children other.children }

def mergeOthers (baseKey : Key) (base : Person) (entries : List (Key × Person)) : Person :=
  entries.foldl (fun b kp => if kp.1 = baseKey then b else mergeOne b kp.2) base

def mergeGroupInto (merged : Registry) (entries : List (Key × Person)) : Registry :=
  match entries with
  | [kp] => alSet merged kp.1 kp.2
  | _ =>
    match pickBase entries with
    | some (bk, b) => alSet merged bk (mergeOthers bk b entries)
    | none => merged

def merge_duplicates (persons : Registry) : Registry :=
  (groupByName persons).foldl (fun merged g => mergeGroupInto merged g.2) []

/-! ### share_children_between_spouses (smart_parser.py lines 641-684) -/

/-- `by_name[key[0]] = person` keeps, per normalized name, the LAST record
in iteration order; we store the registry key of that record (the Python
object reference is exactly a live view of that slot). -/
def byNameLast (persons : Registry) : List (Str × Key) :=
  persons.foldl (fun acc kp => alSet acc kp.1.1 kp.1) []

def shareStep (byn : List (Str × Key)) (reg : Registry) (key : Key) : Registry :=
  match alGet reg key with
  | none => reg
  | some person =>
    if person.parents.length ≠ 1 then reg
    else
      match person.parents.head? with
      | none => reg
      | some parentName =>
        match alGet byn (lowerStr parentName) with
        | none => reg
        | some pk =>
          match alGet reg pk with
          | none => reg
          | some parent =>
            match parent.spouses.find? (fun s => s ∉ person.parents) with
            | none => reg
            | some spouseName =>
              let reg1 := alUpd reg key (fun p =>
                { p with parents := p.parents ++ [spouseName] })
              match alGet byn (lowerStr spouseName) with
              | none => reg1
              | some sk =>
                alUpd reg1 sk (fun sp =>
                  if person.name ∈ sp.children then sp
                  else { sp with children := sp.children ++ [person.name] })

def share_children_between_spouses (persons : Registry) : Registry :=
  (persons.map (·.1)).foldl (shareStep (byNameLast persons)) persons

/-- The in-memory export pipeline applied to a built registry
(`export_to_json` runs merge then share before serializing). -/
def exportPipeline (entries : List EntryCtx) : Registry :=
  share_children_between_spouses (merge_duplicates (build_persons_dict entries))

/-! ### The generation stack of parse_ocr_pages (smart_parser.py lines 412-456)

For each parsed entry, a non-spouse entry sets `gen_stack[generation] = name`
and then deletes every stack key strictly greater than its generation.  A
spouse entry leaves the stack untouched.  (The `generation = none` branch is
unreachable for entries produced by `parse_line`, which never returns an
entry with an unset generation.) -/

abbrev GenStack := List (Nat × Str)

def genStackStep (st : GenStack) (e : ParsedEntry) : GenStack :=
  if e.is_spouse then st
  else
    match e.generation with
    | some g => (alSet st g e.name).filter (fun kv => ¬ kv.1 > g)
    | none => st

def genStackRun (entries : List ParsedEntry) : GenStack :=
  entries.foldl genStackStep []

/-! ### Storage-side canonical merge (deduplicate.py)

The database is embedded as four relations; each SQL statement issued by the
script becomes a list transformation; the `NOT EXISTS` anti-join of the
conditional `UPDATE`s is evaluated, as in SQL, against the snapshot of the
table at statement start.  `COUNT` queries are pure reads. -/

structure PersonRow where
  id : Nat
  display_name : Str := []
  birth_year : Option Nat := none
  death_year : Option Nat := none
  gender : Option Str := none
  tribal_affiliation : Option Str := none
  notes : Option Str := none
  generation : Option Nat := none
  deriving DecidableEq, Repr

structure DB where
  persons : List PersonRow
  parent_child : List (Nat × Nat)
  marriages : List (Nat × Nat)
  person_aliases : List (Nat × Str)
  deriving DecidableEq, Repr

/-- `merge_relationships(conn, canonical_id, duplicate_id, dry_run)`:
re-points every relationship row of the duplicate to the canonical id,
skipping (then deleting) rows whose re-pointing would duplicate an existing
canonical row.  All `UPDATE`/`DELETE` statements are guarded by
`if count > 0` and `if not dry_run`. -/
def merge_relationships (db : DB) (c d : Nat) (dry_run : Bool) : DB :=
  -- parent_child where duplicate is parent
  let cnt := (db.parent_child.filter (fun r => r.1 = d)).length
  let db :=
    if cnt > 0 ∧ ¬ dry_run then
      let pc0 := db.parent_child
      let pc1 := pc0.map (fun r =>
        if r.1 = d ∧ ¬ pc0.any (fun r2 => r2.1 = c ∧ r2.2 = r.2) then (c, r.2) else r)
      { db with parent_child := pc1.filter (fun r => r.1 ≠ d) }
    else db
  -- parent_child where duplicate is child
  let cnt := (db.parent_child.filter (fun r => r.2 = d)).length
  let db :=
    if cnt > 0 ∧ ¬ dry_run then
      let pc0 := db.parent_child
      let pc1 := pc0.map (fun r =>
        if r.2 = d ∧ ¬ pc0.any (fun r2 => r2.2 = c ∧ r2.1 = r.1) then (r.1, c) else r)
      { db with parent_child := pc1.filter (fun r => r.2 ≠ d) }
    else db
  -- marriages where duplicate is spouse1
  let cnt := (db.marriages.filter (fun r => r.1 = d)).length
  let db :=
    if cnt > 0 ∧ ¬ dry_run then
      let m0 := db.marriages
      let m1 := m0.map (fun r =>
        if r.1 = d ∧ ¬ m0.any (fun r2 => (r2.1 = c ∧ r2.2 = r.2) ∨ (r2.2 = c ∧ r2.1 = r.2)) then
          (c, r.2)
        else r)
      { db with marriages := m1.filter (fun r => r.1 ≠ d) }
    else db
  -- marriages where duplicate is spouse2
  let cnt := (db.marriages.filter (fun r => r.2 = d)).length
  let db :=
    if cnt > 0 ∧ ¬ dry_run then
      let m0 := db.marriages
      let m1 := m0.map (fun r =>
        if r.2 = d ∧ ¬ m0.any (fun r2 => (r2.1 = c ∧ r2.2 = r.1) ∨ (r2.2 = c ∧ r2.1 = r.1)) then
          (r.1, c)
        else r)
      { db with marriages := m1.filter (fun r => r.2 ≠ d) }
    else db
  -- aliases
  let cnt := (db.person_aliases.filter (fun r => r.1 = d)).length
  if cnt > 0 ∧ ¬ dry_run then
    { db with person_aliases := db.person_aliases.map (fun r => if r.1 = d then (c, r.2) else r) }
  else db

/-- Whether `needle` occurs as a contiguous substring (Python `in`). -/
def strInfix (needle hay : Str) : Bool := decide (needle <:+: hay)

def applyOpt {α : Type} (f? : Option α) (x : α) : α := f?.getD x

/-- `merge_person_data(conn, canonical, duplicate, dry_run)`: back-fill
null scalar fields of the canonical row from the duplicate and merge notes;
one `UPDATE` guarded by `if update_fields and not dry_run`. -/
def merge_person_data (db : DB) (canonical duplicate : PersonRow) (dry_run : Bool) : DB :=
  let fBirth := if ¬ pyTruthy canonical.birth_year ∧ pyTruthy duplicate.birth_year then
      some duplicate.birth_year else none
  let fDeath := if ¬ pyTruthy canonical.death_year ∧ pyTruthy duplicate.death_year then
      some duplicate.death_year else none
  let fGender := if ¬ pyTruthyStr canonical.gender ∧ pyTruthyStr duplicate.gender then
      some duplicate.gender else none
  let fTribal := if ¬ pyTruthyStr canonical.tribal_affiliation ∧ pyTruthyStr duplicate.tribal_affiliation
      then some duplicate.tribal_affiliation else none
  let fGen := if ¬ pyTruthy canonical.generation ∧ pyTruthy duplicate.generation then
      some duplicate.generation else none
  let fNotes :=
    match duplicate.notes with
    | none => none
    | some dn =>
      if dn = [] then none
      else
        match canonical.notes with
        | some cn =>
          if cn ≠ [] then
            if ¬ strInfix dn cn then some (some (cn ++ '\n' :: dn)) else none
          else some (some dn)
        | none => some (some dn)
  let anyField := fBirth.isSome ∨ fDeath.isSome ∨ fGender.isSome ∨ fTribal.isSome ∨ fGen.isSome ∨ fNotes.isSome
  if anyField ∧ ¬ dry_run then
    { db with persons := db.persons.map (fun r =>
        if r.id = canonical.id then
          { r with
            birth_year := applyOpt fBirth r.birth_year
            death_year := applyOpt fDeath r.death_year
            gender := applyOpt fGender r.gender
            tribal_affiliation := applyOpt fTribal r.tribal_affiliation
            generation := applyOpt fGen r.generation
            notes := applyOpt fNotes r.notes }
        else r) }
  else db

/-- `delete_duplicate(conn, duplicate_id, dry_run)`. -/
def delete_duplicate (db : DB) (d : Nat) (dry_run : Bool) : DB :=
  if ¬ dry_run then { db with persons := db.persons.filter (fun r => r.id ≠ d) }
  else db

/-! ### A small backtracking regex engine

`smart_parser.py` leans on Python `re`.  The patterns are transcribed into
the `Rx` AST below; `mrun` is a continuation-passing backtracking matcher
with Python priority order (leftmost match, greedy quantifiers, left
alternative first, `$` matching at end or before a final newline).  The
fuel argument only bounds call depth; it is chosen large enough for every
input.  Character classes follow Python `re` on ASCII text (the OCR data
is ASCII). -/

inductive Rx : Type where
  | eps
  | cls (p : Char → Bool)
  | lit (s : Str)
  | seq (a b : Rx)
  | alt (a b : Rx)
  | star (a : Rx)
  | plus (a : Rx)
  | opt (a : Rx)
  | rep (lo hi : Nat) (a : Rx)
  | grp (i : Nat) (a : Rx)
  | bol
  | eol
  | wordB
  | look (a : Rx)

abbrev Groups := List (Nat × (Nat × Nat))

def charAt? (full : Str) (i : Nat) : Option Char := (full.drop i).head?

def isWordChar (c : Char) : Bool := c.isAlphanum || c = '_'

def wordAt (full : Str) (i : Nat) : Bool :=
  match charAt? full i with
  | some c => isWordChar c
  | none => false

def prevWordAt (full : Str) (i : Nat) : Bool :=
  match i with
  | 0 => false
  | j + 1 => wordAt full j

def mrun : Nat → Str → Rx → Nat → Groups →
    (Nat → Groups → Option (Nat × Groups)) → Option (Nat × Groups)
  | 0, _, _, _, _, _ => none
  | fuel + 1, full, r, pos, gs, k =>
    match r with
    | .eps => k pos gs
    | .cls p =>
      match charAt? full pos with
      | some c => if p c then k (pos + 1) gs else none
      | none => none
    | .lit s => if (full.drop pos).take s.length = s then k (pos + s.length) gs else none
    | .seq a b => mrun fuel full a pos gs (fun p2 g2 => mrun fuel full b p2 g2 k)
    | .alt a b =>
      match mrun fuel full a pos gs k with
      | some res => some res
      | none => mrun fuel full b pos gs k
    | .star a =>
      match mrun fuel full a pos gs (fun p2 g2 =>
          if p2 = pos then none else mrun fuel full (.star a) p2 g2 k) with
      | some res => some res
      | none => k pos gs
    | .plus a => mrun fuel full a pos gs (fun p2 g2 => mrun fuel full (.star a) p2 g2 k)
    | .opt a =>
      match mrun fuel full a pos gs k with
      | some res => some res
      | none => k pos gs
    | .rep lo hi a =>
      if hi = 0 then (if lo = 0 then k pos gs else none)
      else
        match mrun fuel full a pos gs (fun p2 g2 =>
            mrun fuel full (.rep (lo - 1) (hi - 1) a) p2 g2 k) with
        | some res => some res
        | none => if lo = 0 then k pos gs else none
    | .grp i a => mrun fuel full a pos gs (fun p2 g2 => k p2 (alSet g2 i (pos, p2)))
    | .bol => if pos = 0 then k pos gs else none
    | .eol =>
      if pos = full.length ∨ (pos + 1 = full.length ∧ charAt? full pos = some '\n') then
        k pos gs
      else none
    | .wordB => if prevWordAt full pos ≠ wordAt full pos then k pos gs else none
    | .look a =>
      match mrun fuel full a pos gs (fun p2 g2 => some (p2, g2)) with
      | some _ => k pos gs
      | none => none

def rxFuel (full : Str) : Nat := (full.length + 2) * 100

/-- `re` match attempt at a fixed position; returns match end and groups. -/
def rxMatchAt (full : Str) (r : Rx) (pos : Nat) : Option (Nat × Groups) :=
  mrun (rxFuel full) full r pos [] (fun p g => some (p, g))

def rxSearchAux (full : Str) (r : Rx) : Nat → Nat → Option (Nat × Nat × Groups)
  | 0, _ => none
  | cnt + 1, pos =>
    match rxMatchAt full r pos with
    | some (e, g) => some (pos, e, g)
    | none => if pos < full.length then rxSearchAux full r cnt (pos + 1) else none

/-- `re.search`: leftmost match, as (start, end, groups). -/
def rxSearch (full : Str) (r : Rx) : Option (Nat × Nat × Groups) :=
  rxSearchAux full r (full.length + 1) 0

def rxFindAllAux (full : Str) (r : Rx) : Nat → Nat → List (Nat × Nat × Groups)
  | 0, _ => []
  | cnt + 1, pos =>
    match rxSearchAux full r (full.length + 1 - pos) pos with
    | none => []
    | some (s, e, g) =>
      (s, e, g) :: (if e > s then rxFindAllAux full r cnt e else rxFindAllAux full r cnt (e + 1))

/-- `re.findall`: non-overlapping leftmost matches. -/
def rxFindAll (full : Str) (r : Rx) : List (Nat × Nat × Groups) :=
  rxFindAllAux full r (full.length + 2) 0

def rxSubAux (full : Str) (r : Rx) (repl : Groups → Str) : Nat → Nat → Str
  | 0, pos => full.drop pos
  | cnt + 1, pos =>
    match rxSearchAux full r (full.length + 1 - pos) pos with
    | none => full.drop pos
    | some (s, e, g) =>
      (full.drop pos).take (s - pos) ++ repl g ++
        (if e > s then rxSubAux full r repl cnt e
         else
           match charAt? full s with
           | some c => c :: rxSubAux full r repl cnt (s + 1)
           | none => [])

/-- `re.sub`: replace every non-overlapping leftmost match. -/
def rxSub (r : Rx) (repl : Groups → Str) (full : Str) : Str :=
  rxSubAux full r repl (full.length + 2) 0

def strToNat (s : Str) : Nat := s.foldl (fun acc c => acc * 10 + (c.toNat - '0'.toNat)) 0

def groupSpan (full : Str) (gs : Groups) (i : Nat) : Option Str :=
  (alGet gs i).map (fun se => (full.drop se.1).take (se.2 - se.1))

def groupNat (full : Str) (gs : Groups) (i : Nat) : Option Nat :=
  (groupSpan full gs i).map strToNat

/-! ### Character classes and pattern helpers -/

def isDigitC (c : Char) : Bool := c.isDigit

def isAlphaC (c : Char) : Bool := ('A' ≤ c ∧ c ≤ 'Z') ∨ ('a' ≤ c ∧ c ≤ 'z')

def isLowerC (c : Char) : Bool := 'a' ≤ c ∧ c ≤ 'z'

def isUpperC (c : Char) : Bool := 'A' ≤ c ∧ c ≤ 'Z'

def isSpaceC (c : Char) : Bool :=
  c = ' ' ∨ c = '\t' ∨ c = '\n' ∨ c = '\r' ∨ c = '\x0b' ∨ c = '\x0c'

def sp0 : Rx := .star (.cls isSpaceC)

def sp1 : Rx := .plus (.cls isSpaceC)

def digitsN (n : Nat) : Rx := .rep n n (.cls isDigitC)

def seqs : List Rx → Rx
  | [] => .eps
  | [a] => a
  | a :: t => .seq a (seqs t)

def alts : List Rx → Rx
  | [] => .cls (fun _ => false)
  | [a] => a
  | a :: t => .alt a (alts t)

/-- Case-insensitive literal (for the `re.IGNORECASE` suffix pattern). -/
def litCI (s : Str) : Rx := seqs (s.map (fun c0 => .cls (fun c => lowerChar c = lowerChar c0)))

def strInfixB (needle hay : Str) : Bool := decide (needle <:+: hay)

def startsWithStr (s pre : Str) : Bool := decide (pre <+: s)

/-! ### extract_years (smart_parser.py lines 55-122) -/

/-- `(\d{4})\s*[-–]\s*(?:[A-Za-z]+\s+\d+,?\s*)?(\d{4})` -/
def rangePattern : Rx :=
  seqs [.grp 1 (digitsN 4), sp0, .cls (fun c => c = '-' ∨ c = '–'), sp0,
    .opt (seqs [.plus (.cls isAlphaC), sp1, .plus (.cls isDigitC),
      .opt (.cls (fun c => c = ',')), sp0]),
    .grp 2 (digitsN 4)]

/-- `([A-Za-z]+)\s+(\d{1,2}),?\s*(\d{4})` -/
def datePattern : Rx :=
  seqs [.grp 1 (.plus (.cls isAlphaC)), sp1, .grp 2 (.rep 1 2 (.cls isDigitC)),
    .opt (.cls (fun c => c = ',')), sp0, .grp 3 (digitsN 4)]

/-- `\b(1[6-9]\d{2}|20[0-2]\d)\b` -/
def yearPattern : Rx :=
  seqs [.wordB,
    .grp 1 (.alt
      (seqs [.lit ['1'], .cls (fun c => '6' ≤ c ∧ c ≤ '9'), .cls isDigitC, .cls isDigitC])
      (seqs [.lit ['2', '0'], .cls (fun c => '0' ≤ c ∧ c ≤ '2'), .cls isDigitC])),
    .wordB]

/-- `c\.?\s*` followed by the decimal digits of the year. -/
def circaPattern (y : Nat) : Rx :=
  seqs [.lit ['c'], .opt (.cls (fun c => c = '.')), sp0, .lit (Nat.toDigits 10 y)]

def searchRange (text : Str) : Option (Nat × Nat) :=
  match rxSearch text rangePattern with
  | none => none
  | some (_, _, gs) =>
    match groupNat text gs 1, groupNat text gs 2 with
    | some y1, some y2 => some (y1, y2)
    | _, _ => none

def findDateYears (text : Str) : List Nat :=
  (rxFindAll text datePattern).filterMap (fun m => groupNat text m.2.2 3)

def findYears (text : Str) : List Nat :=
  (rxFindAll text yearPattern).filterMap (fun m => groupNat text m.2.2 1)

/-- First phase: range pattern, else full dates with the `b.`/`d.`/dash
context rules. -/
def extractYearsRaw (text : Str) : Option Nat × Option Nat :=
  match searchRange text with
  | some (y1, y2) => (some y1, some y2)
  | none =>
    match findDateYears text with
    | y1 :: y2 :: _ => (some y1, some y2)
    | [y] =>
      if strInfixB ['b', '.'] (lowerStr text) ∨ ¬ ('-' ∈ text) then (some y, none)
      else if strInfixB ['d', '.'] (lowerStr text) then (none, some y)
      else (some y, none)
    | [] => (none, none)

/-- Second phase: bare-year fallback when no year was found. -/
def extractYearsFallback (text : Str) (bd : Option Nat × Option Nat) :
    Option Nat × Option Nat :=
  match bd with
  | (none, none) =>
    match findYears text with
    | y1 :: y2 :: _ => (some y1, some y2)
    | [y] => (some y, none)
    | [] => (none, none)
  | _ => bd

/-- `if year and re.search(r'c\.?\s*' + str(year), text)` (note: year `0`
is falsy). -/
def circaFlag (text : Str) : Option Nat → Bool
  | some y => y ≠ 0 ∧ (rxSearch text (circaPattern y)).isSome
  | none => false

/-- `if year and (year < 1650 or year > 2025)` — a falsy year `0` skips
validation. -/
def validateYear : Option Nat → Bool → Option Nat × Bool
  | some y, c => if y ≠ 0 ∧ (y < 1650 ∨ y > 2025) then (none, false) else (some y, c)
  | none, c => (none, c)

/-- `if birth_year and death_year and death_year < birth_year` — again a
falsy year `0` on either side skips the check. -/
def dropDeathBeforeBirth : Option Nat → Option Nat → Bool → Option Nat × Bool
  | some yb, some yd, dc => if yb ≠ 0 ∧ yd ≠ 0 ∧ yd < yb then (none, false) else (some yd, dc)
  | _, d, dc => (d, dc)

def extract_years (text : Str) : Option Nat × Bool × Option Nat × Bool :=
  let bd := extractYearsFallback text (extractYearsRaw text)
  let bc := circaFlag text bd.1
  let dc := circaFlag text bd.2
  let bv := validateYear bd.1 bc
  let dv := validateYear bd.2 dc
  let dd := dropDeathBeforeBirth bv.1 dv.1 dv.2
  (bv.1, bv.2, dd.1, dd.2)

/-! ### clean_name (smart_parser.py lines 125-176)

Each `re.sub` becomes an `Rx` pattern applied through `rxSub`, in source
order; replacements are the empty string or a single space. -/

def noRepl : Groups → Str := fun _ => []

def spaceRepl : Groups → Str := fun _ => [' ']

/-- `[A-Za-z]{3}\s+\d{1,2},?\s*\d{4}` -/
def cnDate1 : Rx :=
  seqs [.rep 3 3 (.cls isAlphaC), sp1, .rep 1 2 (.cls isDigitC),
    .opt (.cls (fun c => c = ',')), sp0, digitsN 4]

/-- `\b\d{4}\b` -/
def cnYear : Rx := seqs [.wordB, digitsN 4, .wordB]

/-- `\s+[A-Za-z]{3}\s+\d+[A-Za-z]?[;:,]?\s*\d*\s*(\([a-z]\))?\s*$` -/
def cnTrail1 : Rx :=
  seqs [sp1, .rep 3 3 (.cls isAlphaC), sp1, .plus (.cls isDigitC), .opt (.cls isAlphaC),
    .opt (.cls (fun c => c = ';' ∨ c = ':' ∨ c = ',')), sp0, .star (.cls isDigitC), sp0,
    .opt (.grp 1 (seqs [.cls (fun c => c = '('), .cls isLowerC, .cls (fun c => c = ')')])),
    sp0, .eol]

/-- `\s*-?\s*[A-Za-z]{3}\s+\d{1,2},?\s*\d+\s*\d*[A-Za-z]?\s*$` -/
def cnTrail2 : Rx :=
  seqs [sp0, .opt (.cls (fun c => c = '-')), sp0, .rep 3 3 (.cls isAlphaC), sp1,
    .rep 1 2 (.cls isDigitC), .opt (.cls (fun c => c = ',')), sp0, .plus (.cls isDigitC),
    sp0, .star (.cls isDigitC), .opt (.cls isAlphaC), sp0, .eol]

/-- `\s+\d+\s*$` -/
def cnTrailNum : Rx := seqs [sp1, .plus (.cls isDigitC), sp0, .eol]

/-- `\s+[a-z]+\s+\d+[,;]?\s*$` -/
def cnGarbage1 : Rx :=
  seqs [sp1, .plus (.cls isLowerC), sp1, .plus (.cls isDigitC),
    .opt (.cls (fun c => c = ',' ∨ c = ';')), sp0, .eol]

/-- `\s+[A-Z]\d+\s*$` -/
def cnGarbage2 : Rx := seqs [sp1, .cls isUpperC, .plus (.cls isDigitC), sp0, .eol]

/-- `\([a-z]+\)\s*` -/
def cnParen : Rx :=
  seqs [.cls (fun c => c = '('), .plus (.cls isLowerC), .cls (fun c => c = ')'), sp0]

/-- `\s*[-–]\s*$` -/
def cnDashEnd : Rx := seqs [sp0, .cls (fun c => c = '-' ∨ c = '–'), sp0, .eol]

/-- `[•†*+\.]+` (replaced by a space) -/
def cnMarkers : Rx :=
  .plus (.cls (fun c => c = '•' ∨ c = '†' ∨ c = '*' ∨ c = '+' ∨ c = '.'))

/-- `[:;]` (replaced by a space) -/
def cnColonSemi : Rx := .cls (fun c => c = ':' ∨ c = ';')

/-- `[—~=|\\@#$%^&*<>]` -/
def cnArtifacts : Rx :=
  .cls (fun c => c = '—' ∨ c = '~' ∨ c = '=' ∨ c = '|' ∨ c = '\\' ∨ c = '@' ∨ c = '#' ∨
    c = '$' ∨ c = '%' ∨ c = '^' ∨ c = '&' ∨ c = '*' ∨ c = '<' ∨ c = '>')

/-- `\s+` (replaced by a space) -/
def cnSpaces : Rx := sp1

/-- `\s+[A-Za-z]{3}\s+\d+[A-Za-z]?[;:,]?\s*\d*\s*$` -/
def cnTrail3 : Rx :=
  seqs [sp1, .rep 3 3 (.cls isAlphaC), sp1, .plus (.cls isDigitC), .opt (.cls isAlphaC),
    .opt (.cls (fun c => c = ';' ∨ c = ':' ∨ c = ',')), sp0, .star (.cls isDigitC), sp0,
    .eol]

/-- `^[,\-\s]+|[,\-\s]+$` -/
def cnEdgePunct : Rx :=
  .alt (seqs [.bol, .plus (.cls (fun c => c = ',' ∨ c = '-' ∨ isSpaceC c))])
    (seqs [.plus (.cls (fun c => c = ',' ∨ c = '-' ∨ isSpaceC c)), .eol])

/-- `^(\d)\s+(?=[A-Z])` -/
def cnLeadGen : Rx := seqs [.bol, .grp 1 (.cls isDigitC), sp1, .look (.cls isUpperC)]

/-- `^[\d\s]+(?=[A-Za-z])` -/
def cnLeadDigits : Rx :=
  seqs [.bol, .plus (.cls (fun c => isDigitC c ∨ isSpaceC c)), .look (.cls isAlphaC)]

/-- Python `str.strip()`. -/
def stripStr (s : Str) : Str :=
  ((s.dropWhile isSpaceC).reverse.dropWhile isSpaceC).reverse

def clean_name (text : Str) : Str :=
  let name := rxSub cnDate1 noRepl text
  let name := rxSub cnYear noRepl name
  let name := rxSub cnTrail1 noRepl name
  let name := rxSub cnTrail2 noRepl name
  let name := rxSub cnTrailNum noRepl name
  let name := rxSub cnGarbage1 noRepl name
  let name := rxSub cnGarbage2 noRepl name
  let name := rxSub cnParen noRepl name
  let name := rxSub cnDashEnd noRepl name
  let name := rxSub cnMarkers spaceRepl name
  let name := rxSub cnColonSemi spaceRepl name
  let name := rxSub cnArtifacts noRepl name
  let name := stripStr (rxSub cnSpaces spaceRepl name)
  let name := rxSub cnTrail3 noRepl name
  let name := rxSub cnEdgePunct noRepl name
  let name := rxSub cnLeadGen noRepl name
  rxSub cnLeadDigits noRepl name

/-! ### is_valid_name (smart_parser.py lines 179-214) -/

/-- `^[\d\s\.\-\,\+]+$` -/
def vnAllPunct : Rx :=
  seqs [.plus (.cls (fun c => isDigitC c ∨ isSpaceC c ∨ c = '.' ∨ c = '-' ∨ c = ',' ∨
    c = '+')), .eol]

/-- `^[A-Za-z]{3,4}\s+\d+$` -/
def vnDateLike : Rx := seqs [.rep 3 4 (.cls isAlphaC), sp1, .plus (.cls isDigitC), .eol]

/-- `^[a-z]+[\s'\d]+$` -/
def vnLowerGarbage : Rx :=
  seqs [.plus (.cls isLowerC),
    .plus (.cls (fun c => isSpaceC c ∨ c = '\'' ∨ isDigitC c)), .eol]

/-- `,?\s*(Jr|Sr|II|III|IV|I)\s*$` with `re.IGNORECASE` -/
def vnSuffix : Rx :=
  seqs [.opt (.cls (fun c => c = ',')), sp0,
    .grp 1 (alts [litCI ("Jr".toList), litCI ("Sr".toList), litCI ("II".toList),
      litCI ("III".toList), litCI ("IV".toList), litCI ("I".toList)]), sp0, .eol]

/-- `\s\d+\s` -/
def vnMidNumber : Rx := seqs [.cls isSpaceC, .plus (.cls isDigitC), .cls isSpaceC]

def is_valid_name (name : Str) : Bool :=
  if name = [] ∨ name.length < 3 then false
  else if ¬ name.any isAlphaC then false
  else if (rxMatchAt name vnAllPunct 0).isSome then false
  else if (rxMatchAt name vnDateLike 0).isSome then false
  else if (rxMatchAt name vnLowerGarbage 0).isSome then false
  else if (rxSearch (rxSub vnSuffix noRepl name) vnMidNumber).isSome then false
  else true

/-! ### parse_line (smart_parser.py lines 217-294) -/

/-- `^\d+$` -/
def pageNumPattern : Rx := seqs [.plus (.cls isDigitC), .eol]

/-- `^[A-Za-z]+,\s*[A-Za-z]+\.+\s*\d+$` -/
def indexLinePattern : Rx :=
  seqs [.plus (.cls isAlphaC), .cls (fun c => c = ','), sp0, .plus (.cls isAlphaC),
    .plus (.cls (fun c => c = '.')), sp0, .plus (.cls isDigitC), .eol]

/-- `^[.*]+\s*` -/
def relistStripPattern : Rx :=
  seqs [.bol, .plus (.cls (fun c => c = '.' ∨ c = '*')), sp0]

def genNoiseClass (c : Char) : Bool :=
  c = '•' ∨ c = '.' ∨ c = '*' ∨ c = '†' ∨ c = '+' ∨ c = ',' ∨ c = ';' ∨ c = ':' ∨
    c = '-' ∨ c = '/' ∨ isSpaceC c

/-- Anchored generation pattern: a run of noise characters (bullet, dot,
star, dagger, plus, comma, semicolon, colon, dash, slash, whitespace),
then a captured digit, then whitespace. -/
def genMatchPattern : Rx := seqs [.star (.cls genNoiseClass), .grp 1 (.cls isDigitC), sp1]

/-- `(?:^|\s)(\d)\s+[A-Z]` -/
def genSearchPattern : Rx :=
  seqs [.alt .bol (.cls isSpaceC), .grp 1 (.cls isDigitC), sp1, .cls isUpperC]

def spouseMarkers : List Str := [['+'], ['†'], ['.', '+'], ['.', '.', '+'], ['.', '.', '.', '+']]

def relistMarkers : List Str := [['*'], ['.', '*'], ['.', '.', '*'], ['.', '.', '.', '*']]

/-- Spouse/relisting detection and the `*`-prefix strip, in source order:
returns (is_spouse, is_relisting, line after any strip). -/
def detectRole (line : Str) : Bool × Bool × Str :=
  if spouseMarkers.any (fun p => startsWithStr line p) then (true, false, line)
  else if relistMarkers.any (fun p => startsWithStr line p) then
    (false, true, rxSub relistStripPattern noRepl line)
  else (false, false, line)

/-- Generation extraction: the anchored `gen_match` (which also consumes
the matched prefix) else the floating `gen_search` (which does not). -/
def extractGenLine (line : Str) : Option Nat × Str :=
  match rxMatchAt line genMatchPattern 0 with
  | some (e, gs) => (groupNat line gs 1, line.drop e)
  | none =>
    match rxSearch line genSearchPattern with
    | some (_, _, gs) => (groupNat line gs 1, line)
    | none => (none, line)

def parse_line (line0 : Str) : Option ParsedEntry :=
  let line := stripStr line0
  if line = [] then none
  else if (rxMatchAt line pageNumPattern 0).isSome then none
  else if strInfixB ("INDEX OF DESCENDANT".toList) (line.map upperChar) then none
  else if (rxMatchAt line indexLinePattern 0).isSome then none
  else
    let rl := detectRole line
    let gl := extractGenLine rl.2.2
    let generation := if rl.1 ∧ gl.1 = none then some 0 else gl.1
    match generation with
    | none => none
    | some g =>
      let ys := extract_years gl.2
      let name := clean_name gl.2
      if is_valid_name name then
        some ⟨some g, rl.1, rl.2.1, name, ys.1, ys.2.1, ys.2.2.1, ys.2.2.2⟩
      else none

/-! ### Projections used by the theorems -/

/-- Normalized view of a list of name references. -/
def normsOf (l : List Str) : List Str := l.map lowerStr

/-- Symmetry of spouse and parent/child references between any two
registry records, with names compared case-insensitively (normalized). -/
def NormSym (reg : Registry) : Prop :=
  ∀ kA ∈ reg, ∀ kB ∈ reg,
    ((lowerStr kB.2.name ∈ normsOf kA.2.spouses) ↔
      (lowerStr kA.2.name ∈ normsOf kB.2.spouses)) ∧
    ((lowerStr kB.2.name ∈ normsOf kA.2.parents) ↔
      (lowerStr kA.2.name ∈ normsOf kB.2.children))

/-- Each normalized name identifies at most one registry record. -/
abbrev UniqueNorms (reg : Registry) : Prop := (reg.map (fun kp => kp.1.1)).Nodup

/-- Every record's name normalizes to its key. -/
def KeyName (reg : Registry) : Prop := ∀ kp ∈ reg, lowerStr kp.2.name = kp.1.1

/-- Registry keys are distinct (always true of a Python dict). -/
def KeysNodup (reg : Registry) : Prop := (reg.map Prod.fst).Nodup

/-- Aggregate reference relation between normalized names, for one of the
three reference lists. -/
def FieldRel (g : Person → List Str) (reg : Registry) (m n : Str) : Prop :=
  ∃ kp ∈ reg, kp.1.1 = m ∧ n ∈ normsOf (g kp.2)

def SpousesRel : Registry → Str → Str → Prop := FieldRel Person.spouses

def ParentsRel : Registry → Str → Str → Prop := FieldRel Person.parents

def ChildrenRel : Registry → Str → Str → Prop := FieldRel Person.children

/-- Aggregate symmetry of the reference relations. -/
def AggSym (reg : Registry) : Prop :=
  ∀ m n, (SpousesRel reg m n ↔ SpousesRel reg n m) ∧
    (ParentsRel reg m n ↔ ChildrenRel reg n m)

/-- The parent/child edge view of a registry (key, parents, children). -/
def edgesOf (ps : Registry) : List (Key × List Str × List Str) :=
  ps.map (fun kp => (kp.1, kp.2.parents, kp.2.children))

/-! ### clean_line (src/scripts/clean_ocr_punctuation.py lines 15-40)

The four `str.replace` glyph fixes fuse into one character map: no
replacement target is a later replacement source.  The three `re.sub`
date repairs and the anchored prefix `re.match` are compiled by hand into
deterministic scanners: every quantifier in the patterns is followed by a
token class disjoint from its own (so maximal munch is forced), except
the day `\d\x7b1,2\x7d`, whose two lengths are tried longest first exactly as
the backtracking engine does.  `subScan` mirrors `re.sub`: leftmost
match, replacement emitted, scanning resumes after the matched text of
the original line, and the character preceding the current position (for
the word-boundary check before the month) is the original one.  `$`
matches at the end of the string or before a terminal newline, and `.`
does not match a newline. -/

def cleanChar (c : Char) : Char :=
  if c = '†' then '+'
  else if c = '•' then '.'
  else if c = '—' then '-'
  else if c = '–' then '-'
  else c

def months : List Str :=
  ["Jan".toList, "Feb".toList, "Mar".toList, "Apr".toList, "May".toList, "Jun".toList,
   "Jul".toList, "Aug".toList, "Sep".toList, "Oct".toList, "Nov".toList, "Dec".toList]

def monthAt : Str → Option (Str × Str)
  | a :: b :: c :: rest => if [a, b, c] ∈ months then some ([a, b, c], rest) else none
  | _ => none

def isWordO : Option Char → Bool
  | none => false
  | some c => isWordChar c

def headWord : Str → Bool
  | [] => false
  | c :: _ => isWordChar c

def optDot : Str → (Str × Str)
  | '.' :: rest => (['.'], rest)
  | s => ([], s)

def tailYear (s : Str) : Option (Str × Str) :=
  match (s.span isSpaceC).2 with
  | ';' :: s2 =>
    match (s2.span isSpaceC).2 with
    | d1 :: d2 :: d3 :: d4 :: rest =>
      if isDigitC d1 && isDigitC d2 && isDigitC d3 && isDigitC d4 then
        some ([d1, d2, d3, d4], rest)
      else none
    | _ => none
  | _ => none

def dayYear (s : Str) : Option (Str × Str × Str) :=
  match s with
  | d1 :: s1 =>
    if isDigitC d1 then
      match s1 with
      | d2 :: s2 =>
        if isDigitC d2 then
          match tailYear s2 with
          | some (yr, rest) => some ([d1, d2], yr, rest)
          | none =>
            match tailYear s1 with
            | some (yr, rest) => some ([d1], yr, rest)
            | none => none
        else
          match tailYear s1 with
          | some (yr, rest) => some ([d1], yr, rest)
          | none => none
      | [] => none
    else none
  | [] => none

def tryP1 (prev : Option Char) (s : Str) : Option (Str × Char × Str) :=
  if isWordO prev then none
  else
    match monthAt s with
    | none => none
    | some (mon, s1) =>
      if headWord s1 then none
      else
        let (dot, s2) := optDot s1
        let (w1, s3) := s2.span isSpaceC
        match dayYear s3 with
        | some (day, yr, rest) =>
          some (mon ++ dot ++ w1 ++ day ++ ',' :: ' ' :: yr, yr.getLastD '0', rest)
        | none => none

def tryP2 (prev : Option Char) (s : Str) : Option (Str × Char × Str) :=
  if isWordO prev then none
  else
    match monthAt s with
    | none => none
    | some (mon, s1) =>
      if headWord s1 then none
      else
        let (dot, s2) := optDot s1
        match tailYear s2 with
        | some (yr, rest) => some (mon ++ dot ++ ' ' :: yr, yr.getLastD '0', rest)
        | none => none

def tailEnd (s : Str) : Bool :=
  match (s.span isSpaceC).2 with
  | ';' :: s2 => s2.all isSpaceC
  | _ => false

def dayEnd (s : Str) : Option Str :=
  match s with
  | d1 :: s1 =>
    if isDigitC d1 then
      match s1 with
      | d2 :: s2 =>
        if isDigitC d2 then
          if tailEnd s2 then some [d1, d2]
          else if tailEnd s1 then some [d1] else none
        else if tailEnd s1 then some [d1] else none
      | [] => none
    else none
  | [] => none

def tryP3 (prev : Option Char) (s : Str) : Option (Str × Char × Str) :=
  if isWordO prev then none
  else
    match monthAt s with
    | none => none
    | some (mon, s1) =>
      if headWord s1 then none
      else
        let (dot, s2) := optDot s1
        let (w1, s3) := s2.span isSpaceC
        match dayEnd s3 with
        | some day => some (mon ++ dot ++ w1 ++ day ++ [','], ',', [])
        | none => none

def subScan (tf : Option Char → Str → Option (Str × Char × Str)) :
    Nat → Option Char → Str → Str
  | 0, _, s => s
  | _ + 1, _, [] => []
  | fuel + 1, prev, c :: rest =>
    match tf prev (c :: rest) with
    | some (repl, lst, rest2) => repl ++ subScan tf fuel (some lst) rest2
    | none => c :: subScan tf fuel (some c) rest

def runSub (tf : Option Char → Str → Option (Str × Char × Str)) (s : Str) : Str :=
  subScan tf s.length none s

def prefixClassC (c : Char) : Bool :=
  c = '.' ∨ isSpaceC c ∨ c = '-' ∨ c = ',' ∨ c = ';' ∨ c = ':'

def dotStarEnd : Str → Option Str
  | [] => some []
  | c :: rest =>
    if c = '\n' then if rest = [] then some [] else none
    else (dotStarEnd rest).map (fun t => c :: t)

def rebuildPrefix (line : Str) : Str :=
  match line.span prefixClassC with
  | (pre, m :: rest2) =>
    if (m = '+' ∨ m = '*') ∧ pre ≠ [] then
      match dotStarEnd rest2 with
      | some content => List.replicate (pre.count '.') '.' ++ m :: content
      | none => line
    else line
  | (_, []) => line

def clean_line (line : Str) : Str :=
  let l1 := line.map cleanChar
  let l2 := runSub tryP1 l1
  let l3 := runSub tryP2 l2
  let l4 := runSub tryP3 l3
  rebuildPrefix l4

/-- The last character before the continuation point of a scan: the last
character of the consumed part, else the inherited previous character. -/
def prevO (prev : Option Char) (a : Str) : Option Char := a.getLast?.or prev

/-- No occurrence of the pattern anywhere in `s` (scanned with initial
previous character `prev`). -/
def PFree (tf : Option Char → Str → Option (Str × Char × Str))
    (prev : Option Char) (s : Str) : Prop :=
  ∀ a b, s = a ++ b → tf (prevO prev a) b = none

/-- The non-letter prefix: everything a month-anchored date pattern can
examine beyond its three month letters. -/
def nlTake (s : Str) : Str := s.takeWhile (fun c => !isAlphaC c)


end DxClan

namespace DxClan

/-! ## Helper lemmas about the association-list dict embedding -/

theorem alUpd_map_fst {κ ν : Type} [DecidableEq κ] (l : List (κ × ν)) (a : κ) (f : ν → ν) :
    (alUpd l a f).map Prod.fst = l.map Prod.fst := by
  induction l with
  | nil => rfl
  | cons h t ih =>
    obtain ⟨k, v⟩ := h
    by_cases hk : k = a <;> simp [alUpd, hk, ih]

theorem alGet_eq_none_of_not_mem {κ ν : Type} [DecidableEq κ] (l : List (κ × ν)) (a : κ)
    (h : a ∉ l.map Prod.fst) : alGet l a = none := by
  induction l with
  | nil => rfl
  | cons hd t ih =>
    obtain ⟨k, v⟩ := hd
    simp only [List.map_cons, List.mem_cons] at h
    push_neg at h
    simp [alGet, Ne.symm h.1, ih h.2]

theorem not_mem_of_alGet_eq_none {κ ν : Type} [DecidableEq κ] (l : List (κ × ν)) (a : κ)
    (h : alGet l a = none) : a ∉ l.map Prod.fst := by
  induction l with
  | nil => simp
  | cons hd t ih =>
    obtain ⟨k, v⟩ := hd
    by_cases hk : k = a
    · simp [alGet, hk] at h
    · simp only [alGet, if_neg hk] at h
      simp [Ne.symm hk, ih h]

theorem alSet_keys_nodup {κ ν : Type} [DecidableEq κ] (l : List (κ × ν)) (a : κ) (v : ν)
    (h : (l.map Prod.fst).Nodup) : ((alSet l a v).map Prod.fst).Nodup := by
  unfold alSet alContains
  by_cases hc : (alGet l a).isSome
  · simpa [hc, alUpd_map_fst]
  · simp only [hc, if_false, Bool.false_eq_true]
    have hnone : alGet l a = none := by
      cases hg : alGet l a
      · rfl
      · simp [hg] at hc
    have hnm := not_mem_of_alGet_eq_none l a hnone
    simp only [List.map_append, List.map_cons, List.map_nil]
    refine List.Nodup.append h (List.nodup_singleton a) ?_
    intro b hb hb2
    simp only [List.mem_singleton] at hb2
    exact hnm (hb2 ▸ hb)

theorem filter_keys_nodup {κ ν : Type} [DecidableEq κ] (l : List (κ × ν)) (p : κ × ν → Bool)
    (h : (l.map Prod.fst).Nodup) : ((l.filter p).map Prod.fst).Nodup :=
  List.Nodup.sublist (List.Sublist.map Prod.fst (@List.filter_sublist _ p l)) h

/-! ## C7: the generation stack -/

theorem genStackStep_keys_nodup (st : GenStack) (e : ParsedEntry)
    (h : (st.map Prod.fst).Nodup) : ((genStackStep st e).map Prod.fst).Nodup := by
  unfold genStackStep
  split
  · exact h
  · split
    · exact filter_keys_nodup _ _ (alSet_keys_nodup _ _ _ h)
    · exact h

theorem genStackRunAux_keys_nodup (entries : List ParsedEntry) (st : GenStack)
    (h : (st.map Prod.fst).Nodup) :
    ((entries.foldl genStackStep st).map Prod.fst).Nodup := by
  induction entries generalizing st with
  | nil => exact h
  | cons e t ih => exact ih _ (genStackStep_keys_nodup st e h)

/-- C7: throughout any run, the generation stack binds each depth at most
once, and immediately after a non-spouse entry of generation `g` has been
processed, the stack holds no key strictly greater than `g`. -/
theorem c7_generation_stack (entries : List ParsedEntry) :
    ((genStackRun entries).map Prod.fst).Nodup ∧
    (∀ pre e g, entries = pre ++ [e] → e.is_spouse = false → e.generation = some g →
      ∀ k ∈ (genStackRun entries).map Prod.fst, k ≤ g) := by
  constructor
  · exact genStackRunAux_keys_nodup entries [] (by simp)
  · intro pre e g hsplit hsp hg k hk
    subst hsplit
    unfold genStackRun at hk
    rw [List.foldl_append] at hk
    simp only [List.foldl_cons, List.foldl_nil] at hk
    unfold genStackStep at hk
    rw [hsp] at hk
    simp only [Bool.false_eq_true, if_false, hg] at hk
    obtain ⟨⟨k', v⟩, hmem, rfl⟩ := List.mem_map.mp hk
    have := List.of_mem_filter hmem
    simpa using this

/-- Witness for C7 at a concrete run: a single non-spouse entry of
generation 2 leaves a stack whose keys are all at most 2. -/
theorem c7_generation_stack_witness :
    ∀ k ∈ (genStackRun [⟨some 2, false, false, ['A', 'n', 'n'], none, false, none, false⟩]).map
        Prod.fst, k ≤ 2 :=
  (c7_generation_stack _).2 [] _ 2 rfl rfl rfl

/-! ## C8: dry-run issues no mutating statement -/

/-- C8: with `dry_run = true` (the default), `merge_relationships`,
`merge_person_data` and `delete_duplicate` leave the database state —
all four relations — entirely unchanged. -/
theorem c8_dry_run_no_mutation (db : DB) (c d : Nat) (canonical duplicate : PersonRow) :
    merge_relationships db c d true = db ∧
    merge_person_data db canonical duplicate true = db ∧
    delete_duplicate db d true = db := by
  refine ⟨?_, ?_, ?_⟩ <;>
    simp [merge_relationships, merge_person_data, delete_duplicate]

end DxClan

namespace DxClan

/-! ## More association-list lemmas -/

theorem alGet_mem {κ ν : Type} [DecidableEq κ] {l : List (κ × ν)} {a : κ} {v : ν}
    (h : alGet l a = some v) : (a, v) ∈ l := by
  induction l with
  | nil => simp [alGet] at h
  | cons hd t ih =>
    obtain ⟨k, w⟩ := hd
    by_cases hk : k = a
    · subst hk
      have hw : w = v := by simpa [alGet] using h
      subst hw
      exact List.mem_cons_self _ _
    · simp only [alGet, if_neg hk] at h
      exact List.mem_cons_of_mem _ (ih h)

theorem mem_alUpd {κ ν : Type} [DecidableEq κ] {l : List (κ × ν)} {a : κ} {f : ν → ν}
    {x : κ × ν} (hx : x ∈ alUpd l a f) :
    x ∈ l ∨ ∃ v, alGet l a = some v ∧ x = (a, f v) := by
  induction l with
  | nil => simp [alUpd] at hx
  | cons hd t ih =>
    obtain ⟨k, w⟩ := hd
    by_cases hk : k = a
    · subst hk
      simp only [alUpd, if_pos rfl] at hx
      rcases List.mem_cons.mp hx with h | h
      · exact Or.inr ⟨w, by simp [alGet], h⟩
      · exact Or.inl (List.mem_cons_of_mem _ h)
    · simp only [alUpd, if_neg hk] at hx
      rcases List.mem_cons.mp hx with h | h
      · subst h
        exact Or.inl (List.mem_cons_self _ _)
      · rcases ih h with h2 | ⟨v, hv, hx2⟩
        · exact Or.inl (List.mem_cons_of_mem _ h2)
        · exact Or.inr ⟨v, by simp [alGet, hk, hv], hx2⟩

theorem mem_alSet {κ ν : Type} [DecidableEq κ] {l : List (κ × ν)} {a : κ} {v : ν}
    {x : κ × ν} (hx : x ∈ alSet l a v) : x ∈ l ∨ x = (a, v) := by
  unfold alSet at hx
  split at hx
  · rcases mem_alUpd hx with h | ⟨w, _, hx2⟩
    · exact Or.inl h
    · exact Or.inr hx2
  · rcases List.mem_append.mp hx with h | h
    · exact Or.inl h
    · right; simpa using h

theorem alGet_alUpd {κ ν : Type} [DecidableEq κ] (l : List (κ × ν)) (b : κ) (f : ν → ν)
    (a : κ) : alGet (alUpd l b f) a = if b = a then (alGet l a).map f else alGet l a := by
  induction l with
  | nil => simp [alUpd, alGet]
  | cons hd t ih =>
    obtain ⟨k, w⟩ := hd
    by_cases hkb : k = b
    · subst hkb
      by_cases hka : k = a
      · subst hka
        simp [alUpd, alGet]
      · simp [alUpd, alGet, hka]
    · by_cases hka : k = a
      · subst hka
        have hbk : ¬ b = k := fun h2 => hkb h2.symm
        simp [alUpd, alGet, hkb, hbk]
      · simp [alUpd, alGet, hkb, hka, ih]

/-! ## Field-preservation lemmas for the registry update functions -/

theorem fillPerson_fields (e : ParsedEntry) (p : Person) :
    (fillPerson e p).parents = p.parents ∧ (fillPerson e p).children = p.children ∧
    (fillPerson e p).spouses = p.spouses ∧ (fillPerson e p).name = p.name := by
  unfold fillPerson
  dsimp only
  split <;> split <;> exact ⟨rfl, rfl, rfl, rfl⟩

theorem mkPerson_fields (e : ParsedEntry) :
    (mkPerson e).parents = [] ∧ (mkPerson e).children = [] ∧ (mkPerson e).spouses = [] ∧
    (mkPerson e).name = e.name :=
  ⟨rfl, rfl, rfl, rfl⟩

/-- Members of an `alUpd` whose update function preserves parents and
children trace back to members of the original list with equal key,
parents and children. -/
theorem mem_alUpd_pc {l : Registry} {a : Key} {f : Person → Person}
    (hf : ∀ v, (f v).parents = v.parents ∧ (f v).children = v.children)
    {x : Key × Person} (hx : x ∈ alUpd l a f) :
    ∃ kq ∈ l, x.1 = kq.1 ∧ x.2.parents = kq.2.parents ∧ x.2.children = kq.2.children := by
  rcases mem_alUpd hx with h | ⟨v, hv, hx2⟩
  · exact ⟨x, h, rfl, rfl, rfl⟩
  · refine ⟨(a, v), alGet_mem hv, ?_, ?_, ?_⟩
    · rw [hx2]
    · rw [hx2]; exact (hf v).1
    · rw [hx2]; exact (hf v).2

/-- Every member of `spouseUpdate ps ck key en` has the key, parents and
children of a member of `ps` (only `spouses` fields are touched). -/
theorem mem_spouseUpdate {ps : Registry} {ck key : Key} {en : Str} {kp : Key × Person}
    (h : kp ∈ spouseUpdate ps ck key en) :
    ∃ kq ∈ ps, kp.1 = kq.1 ∧ kp.2.parents = kq.2.parents ∧ kp.2.children = kq.2.children := by
  unfold spouseUpdate at h
  split at h
  · exact ⟨kp, h, rfl, rfl, rfl⟩
  · have h1 := mem_alUpd_pc (fun v => by split <;> exact ⟨rfl, rfl⟩) h
    obtain ⟨kq, hkq, e1, e2, e3⟩ := h1
    have h2 := mem_alUpd_pc (fun v => by split <;> exact ⟨rfl, rfl⟩) hkq
    obtain ⟨kr, hkr, f1, f2, f3⟩ := h2
    exact ⟨kr, hkr, e1.trans f1, e2.trans f2, e3.trans f3⟩

end DxClan

namespace DxClan

/-- Variant of `mem_alUpd_pc` tracking only the parents field. -/
theorem mem_alUpd_parents {l : Registry} {a : Key} {f : Person → Person}
    (hf : ∀ v, (f v).parents = v.parents)
    {x : Key × Person} (hx : x ∈ alUpd l a f) :
    ∃ kq ∈ l, x.1 = kq.1 ∧ x.2.parents = kq.2.parents := by
  rcases mem_alUpd hx with h | ⟨v, hv, hx2⟩
  · exact ⟨x, h, rfl, rfl⟩
  · exact ⟨(a, v), alGet_mem hv, by rw [hx2], by rw [hx2]; exact hf v⟩

/-! ## C2: parents bound through the pipeline -/

/-- Invariant carried through `build_persons_dict`: every record has at
most one parent, and a record whose key has not yet entered the
`parents_set` has none. -/
def ParentsInv (persons : Registry) (pset : List Key) : Prop :=
  ∀ kp ∈ persons, kp.2.parents.length ≤ 1 ∧ (kp.1 ∉ pset → kp.2.parents = [])

theorem buildStep_parents_bound (st : BuildState) (ec : EntryCtx)
    (h : ParentsInv st.persons st.parentsSet) :
    ParentsInv (buildStep st ec).persons (buildStep st ec).parentsSet := by
  obtain ⟨e, parentName⟩ := ec
  unfold buildStep
  dsimp only
  have h1 : ParentsInv
      (if alContains st.persons (keyOf e) then st.persons
       else st.persons ++ [(keyOf e, mkPerson e)]) st.parentsSet := by
    intro kp hkp
    split at hkp
    · exact h kp hkp
    · rcases List.mem_append.mp hkp with hm | hm
      · exact h kp hm
      · have : kp = (keyOf e, mkPerson e) := by simpa using hm
        subst this
        exact ⟨by simp [(mkPerson_fields e).1], fun _ => (mkPerson_fields e).1⟩
  have h2 : ParentsInv
      (alUpd (if alContains st.persons (keyOf e) then st.persons
              else st.persons ++ [(keyOf e, mkPerson e)]) (keyOf e) (fillPerson e))
      st.parentsSet := by
    intro kp hkp
    obtain ⟨kq, hkq, e1, e2, _⟩ :=
      mem_alUpd_pc (fun v => ⟨(fillPerson_fields e v).1, (fillPerson_fields e v).2.1⟩) hkp
    obtain ⟨b1, b2⟩ := h1 kq hkq
    exact ⟨by rw [e2]; exact b1, fun hn => by rw [e2]; exact b2 (by rw [e1] at hn; exact hn)⟩
  split
  · -- spouse branch
    split
    · intro kp hkp
      obtain ⟨kq, hkq, e1, e2, _⟩ := mem_spouseUpdate hkp
      obtain ⟨b1, b2⟩ := h2 kq hkq
      exact ⟨by rw [e2]; exact b1, fun hn => by rw [e2]; exact b2 (by rw [e1] at hn; exact hn)⟩
    · exact h2
  · -- else branch
    split
    · -- parent context present and key not yet seen
      next hcond =>
      obtain ⟨htr, hnot⟩ := hcond
      split
      · next pn =>
        dsimp only
        unfold parentUpdate
        split
        · -- parent not found: persons unchanged, parents_set grows
          intro kp hkp
          obtain ⟨b1, b2⟩ := h2 kp hkp
          refine ⟨b1, fun hn => b2 fun hmem => hn ?_⟩
          exact List.mem_append.mpr (Or.inl hmem)
        · next pk parent heq =>
          intro kp hkp
          rcases mem_alUpd hkp with hin3 | ⟨v, hv, hkp2⟩
          · obtain ⟨kq, hkq, e1, e2⟩ :=
              mem_alUpd_parents (fun v => by split <;> rfl) hin3
            obtain ⟨b1, b2⟩ := h2 kq hkq
            refine ⟨by rw [e2]; exact b1, fun hn => ?_⟩
            rw [e2]
            refine b2 fun hmem => hn ?_
            rw [e1]
            exact List.mem_append.mpr (Or.inl hmem)
          · -- the guarded parent append at the entry's key
            have hvpar : v.parents = [] := by
              rw [alGet_alUpd] at hv
              by_cases hpk : pk = keyOf e
              · rw [if_pos hpk] at hv
                obtain ⟨w, hw, hvw⟩ : ∃ w,
                    alGet (alUpd (if alContains st.persons (keyOf e) then st.persons
                      else st.persons ++ [(keyOf e, mkPerson e)]) (keyOf e) (fillPerson e))
                      (keyOf e) = some w ∧ v = (fun par =>
                        if e.name ∈ par.children then par
                        else { par with children := par.children ++ [e.name] }) w := by
                  cases hg : alGet (alUpd (if alContains st.persons (keyOf e) then st.persons
                      else st.persons ++ [(keyOf e, mkPerson e)]) (keyOf e) (fillPerson e))
                      (keyOf e) with
                  | none => rw [hg] at hv; simp at hv
                  | some w => rw [hg] at hv; exact ⟨w, rfl, by simpa using hv.symm⟩
                have hwmem := alGet_mem hw
                have hw0 := (h2 _ hwmem).2 hnot
                rw [hvw]
                dsimp only
                split <;> simpa using hw0
              · rw [if_neg hpk] at hv
                have hwmem := alGet_mem hv
                exact (h2 _ hwmem).2 hnot
            subst hkp2
            constructor
            · dsimp only
              split
              · simp [hvpar]
              · simp [hvpar]
            · intro hn
              exact absurd (List.mem_append.mpr (Or.inr (List.mem_singleton.mpr rfl))) hn
      · -- parentName none inside the guarded branch
        intro kp hkp
        obtain ⟨b1, b2⟩ := h2 kp hkp
        refine ⟨b1, fun hn => b2 fun hmem => hn ?_⟩
        exact List.mem_append.mpr (Or.inl hmem)
    · exact h2

theorem buildRun_parents_bound (entries : List EntryCtx) (st : BuildState)
    (h : ParentsInv st.persons st.parentsSet) :
    ParentsInv (buildRun st entries).persons (buildRun st entries).parentsSet := by
  induction entries generalizing st with
  | nil => exact h
  | cons ec t ih => exact ih _ (buildStep_parents_bound st ec h)

theorem build_parents_le_one (entries : List EntryCtx) :
    ∀ kp ∈ build_persons_dict entries, kp.2.parents.length ≤ 1 := by
  intro kp hkp
  exact ((buildRun_parents_bound entries initBuildState (by intro kp h; simp [initBuildState] at h))
    kp hkp).1

end DxClan

namespace DxClan

theorem mergeOne_parents (b o : Person) :
    (mergeOne b o).parents = if b.parents = [] ∧ o.parents ≠ [] then o.parents else b.parents := by
  unfold mergeOne
  dsimp only
  split <;> split <;> split <;> rfl

theorem mergeOne_parents_bound {b o : Person} (hb : b.parents.length ≤ 1)
    (ho : o.parents.length ≤ 1) : (mergeOne b o).parents.length ≤ 1 := by
  rw [mergeOne_parents]
  split <;> assumption

theorem mergeOthers_parents_bound (grp : List (Key × Person)) (bk : Key) (b : Person)
    (hb : b.parents.length ≤ 1) (hg : ∀ kp ∈ grp, kp.2.parents.length ≤ 1) :
    (mergeOthers bk b grp).parents.length ≤ 1 := by
  induction grp generalizing b with
  | nil => exact hb
  | cons hd t ih =>
    unfold mergeOthers
    simp only [List.foldl_cons]
    by_cases hk : hd.1 = bk
    · simp only [hk, if_pos rfl]
      exact ih b hb (fun kp hkp => hg kp (List.mem_cons_of_mem _ hkp))
    · simp only [if_neg hk]
      exact ih _ (mergeOne_parents_bound hb (hg hd (List.mem_cons_self _ _)))
        (fun kp hkp => hg kp (List.mem_cons_of_mem _ hkp))

/-- Generic fold invariant for `groupByName`: any property of records that
holds on the input registry holds on every grouped record. -/
theorem groupByName_mem {Q : Key × Person → Prop} (reg : Registry)
    (acc : List (Str × List (Key × Person)))
    (hacc : ∀ g ∈ acc, ∀ kp ∈ g.2, Q kp) (hreg : ∀ kp ∈ reg, Q kp) :
    ∀ g ∈ reg.foldl addToGroup acc, ∀ kp ∈ g.2, Q kp := by
  induction reg generalizing acc with
  | nil => exact hacc
  | cons hd t ih =>
    simp only [List.foldl_cons]
    refine ih _ ?_ (fun kp hkp => hreg kp (List.mem_cons_of_mem _ hkp))
    intro g hg kp hkp
    unfold addToGroup at hg
    split at hg
    · rcases mem_alUpd hg with hin | ⟨v, hv, hg2⟩
      · exact hacc g hin kp hkp
      · rw [hg2] at hkp
        rcases List.mem_append.mp hkp with hm | hm
        · exact hacc _ (alGet_mem hv) kp hm
        · have : kp = hd := by simpa using hm
          subst this
          exact hreg kp (List.mem_cons_self _ _)
    · rcases List.mem_append.mp hg with hm | hm
      · exact hacc g hm kp hkp
      · have : g = (hd.1.1, [hd]) := by simpa using hm
        subst this
        have : kp = hd := by simpa using hkp
        subst this
        exact hreg kp (List.mem_cons_self _ _)

theorem pickBase_mem {grp : List (Key × Person)} {kb : Key × Person}
    (h : pickBase grp = some kb) : kb ∈ grp := by
  unfold pickBase at h
  split at h
  · next b rest heq =>
    have : kb ∈ grp.filter (fun e => e.1.2.isSome) := by
      rw [heq]
      simp only [Option.some_inj] at h
      exact h ▸ List.mem_cons_self _ _
    exact List.mem_of_mem_filter this
  · exact List.mem_of_mem_head? h

theorem mergeGroupInto_bound (merged : Registry)
    (grp : List (Key × Person))
    (hm : ∀ kp ∈ merged, kp.2.parents.length ≤ 1)
    (hg : ∀ kp ∈ grp, kp.2.parents.length ≤ 1) :
    ∀ kp ∈ mergeGroupInto merged grp, kp.2.parents.length ≤ 1 := by
  intro kp hkp
  unfold mergeGroupInto at hkp
  split at hkp
  · next kq =>
    rcases mem_alSet hkp with h | h
    · exact hm kp h
    · rw [h]
      exact hg kq (List.mem_cons_self _ _)
  · split at hkp
    · next bk b heq =>
      rcases mem_alSet hkp with h | h
      · exact hm kp h
      · rw [h]
        exact mergeOthers_parents_bound grp bk b (hg _ (pickBase_mem heq)) hg
    · exact hm kp hkp

theorem merge_parents_le_one (reg : Registry)
    (h : ∀ kp ∈ reg, kp.2.parents.length ≤ 1) :
    ∀ kp ∈ merge_duplicates reg, kp.2.parents.length ≤ 1 := by
  unfold merge_duplicates
  have hgrp : ∀ g ∈ groupByName reg, ∀ kp ∈ g.2, kp.2.parents.length ≤ 1 :=
    @groupByName_mem (fun kp => kp.2.parents.length ≤ 1) reg []
      (fun g hg => absurd hg (List.not_mem_nil g)) h
  have main : ∀ (gs : List (Str × List (Key × Person))) (acc : Registry),
      (∀ g ∈ gs, ∀ kp ∈ g.2, kp.2.parents.length ≤ 1) →
      (∀ kp ∈ acc, kp.2.parents.length ≤ 1) →
      ∀ kp ∈ gs.foldl (fun merged g => mergeGroupInto merged g.2) acc,
        kp.2.parents.length ≤ 1 := by
    intro gs
    induction gs with
    | nil => intro acc _ hacc; exact hacc
    | cons g t ih =>
      intro acc hgs hacc
      simp only [List.foldl_cons]
      refine ih _ (fun g2 hg2 => hgs g2 (List.mem_cons_of_mem _ hg2)) ?_
      exact mergeGroupInto_bound acc g.2 hacc (hgs g (List.mem_cons_self _ _))
  exact main (groupByName reg) [] hgrp (by simp)

/-! share stage: at most one extra parent is ever appended, and only to a
record that currently has exactly one -/

theorem shareStep_parents_bound (byn : List (Str × Key)) (reg : Registry) (key : Key)
    (h : ∀ kp ∈ reg, kp.2.parents.length ≤ 2) :
    ∀ kp ∈ shareStep byn reg key, kp.2.parents.length ≤ 2 := by
  intro kp hkp
  unfold shareStep at hkp
  split at hkp
  · exact h kp hkp
  · next person hperson =>
    split at hkp
    · exact h kp hkp
    · split at hkp
      · exact h kp hkp
      · split at hkp
        · exact h kp hkp
        · split at hkp
          · exact h kp hkp
          · split at hkp
            · exact h kp hkp
            · next hlen _ _ _ _ spouseName hfind =>
              have hlen1 : person.parents.length = 1 := by omega
              have key_append : ∀ x ∈ alUpd reg key (fun p =>
                  { p with parents := p.parents ++ [spouseName] }), x.2.parents.length ≤ 2 := by
                intro x hx
                rcases mem_alUpd hx with hin | ⟨v, hv, hx2⟩
                · exact h x hin
                · have : v = person := by
                    rw [hperson] at hv
                    simpa using hv.symm
                  subst this
                  rw [hx2]
                  simp [hlen1]
              split at hkp
              · exact key_append kp hkp
              · obtain ⟨kq, hkq, _, e2⟩ :=
                  mem_alUpd_parents (fun v => by split <;> rfl) hkp
                rw [e2]
                exact key_append kq hkq

theorem share_parents_le_two (reg : Registry)
    (h : ∀ kp ∈ reg, kp.2.parents.length ≤ 2) :
    ∀ kp ∈ share_children_between_spouses reg, kp.2.parents.length ≤ 2 := by
  unfold share_children_between_spouses
  have main : ∀ (keys : List Key) (cur : Registry),
      (∀ kp ∈ cur, kp.2.parents.length ≤ 2) →
      ∀ kp ∈ keys.foldl (shareStep (byNameLast reg)) cur, kp.2.parents.length ≤ 2 := by
    intro keys
    induction keys with
    | nil => intro cur hc; exact hc
    | cons k t ih =>
      intro cur hc
      simp only [List.foldl_cons]
      exact ih _ (shareStep_parents_bound _ cur k hc)
  exact main _ reg h

/-- C2: after the full in-memory export pipeline (registry build, then
duplicate merge, then spouse/child sharing), every person record has at
most two parents. -/
theorem c2_at_most_two_parents (entries : List EntryCtx) :
    ∀ kp ∈ exportPipeline entries, kp.2.parents.length ≤ 2 := by
  unfold exportPipeline
  refine share_parents_le_two _ ?_
  intro kp hkp
  have := merge_parents_le_one _ (build_parents_le_one entries) kp hkp
  omega

end DxClan

namespace DxClan

/-- Witness for C2 at a concrete run: Kim, first listed under Ann and then
given Ann's spouse Eve by the sharing pass, ends with exactly two parents. -/
theorem c2_at_most_two_parents_witness :
    ((("kim".toList, (none : Option Nat)),
      ({ name := "Kim".toList, generation := some 2,
         parents := ["Ann".toList, "Eve".toList] } : Person)) :
        Key × Person).2.parents.length ≤ 2 :=
  c2_at_most_two_parents
    [ (⟨some 1, false, false, "Ann".toList, none, false, none, false⟩, none),
      (⟨some 0, true, false, "Eve".toList, none, false, none, false⟩, none),
      (⟨some 2, false, false, "Kim".toList, none, false, none, false⟩, some "Ann".toList),
      (⟨some 2, false, false, "Kim".toList, none, false, none, false⟩, some "Eve".toList) ]
    _ (by decide)

/-! ## C3: first-appearance-wins for parent assignment -/

theorem edgesOf_alUpd {l : Registry} {a : Key} {f : Person → Person}
    (hf : ∀ v, (f v).parents = v.parents ∧ (f v).children = v.children) :
    edgesOf (alUpd l a f) = edgesOf l := by
  induction l with
  | nil => rfl
  | cons hd t ih =>
    obtain ⟨k, w⟩ := hd
    by_cases hk : k = a
    · subst hk
      have hu : alUpd ((k, w) :: t) k f = (k, f w) :: t := by simp [alUpd]
      rw [hu]
      simp only [edgesOf, List.map_cons]
      rw [(hf w).1, (hf w).2]
    · have hu : alUpd ((k, w) :: t) a f = (k, w) :: alUpd t a f := by simp [alUpd, hk]
      rw [hu]
      simp only [edgesOf, List.map_cons]
      simp only [edgesOf] at ih
      rw [ih]

theorem alContains_alUpd {κ ν : Type} [DecidableEq κ] (l : List (κ × ν)) (a : κ) (f : ν → ν)
    (k : κ) : alContains (alUpd l a f) k = alContains l k := by
  unfold alContains
  rw [alGet_alUpd]
  split
  · simp
  · rfl

theorem alContains_append_one {κ ν : Type} [DecidableEq κ] (l : List (κ × ν)) (a : κ) (v : ν) :
    alContains (l ++ [(a, v)]) a = true := by
  induction l with
  | nil => simp [alContains, alGet]
  | cons hd t ih =>
    obtain ⟨k, w⟩ := hd
    by_cases hk : k = a <;> simp [alContains, alGet, hk] at * <;> exact ih

theorem alContains_append_mono {κ ν : Type} [DecidableEq κ] (l l2 : List (κ × ν)) (k : κ)
    (h : alContains l k = true) : alContains (l ++ l2) k = true := by
  induction l with
  | nil => simp [alContains, alGet] at h
  | cons hd t ih =>
    obtain ⟨k0, w⟩ := hd
    by_cases hk : k0 = k <;> simp [alContains, alGet, hk] at * <;> exact ih h

/-- The registry key set only grows across a build step. -/
theorem buildStep_contains_mono (st : BuildState) (ec : EntryCtx) (k : Key)
    (h : alContains st.persons k = true) :
    alContains (buildStep st ec).persons k = true := by
  obtain ⟨e, parentName⟩ := ec
  unfold buildStep
  dsimp only
  have h1 : alContains (if alContains st.persons (keyOf e) then st.persons
      else st.persons ++ [(keyOf e, mkPerson e)]) k = true := by
    split
    · exact h
    · exact alContains_append_mono _ _ _ h
  have h2 : alContains (alUpd (if alContains st.persons (keyOf e) then st.persons
      else st.persons ++ [(keyOf e, mkPerson e)]) (keyOf e) (fillPerson e)) k = true := by
    rw [alContains_alUpd]; exact h1
  split
  · split
    · unfold spouseUpdate
      split
      · exact h2
      · rw [alContains_alUpd, alContains_alUpd]; exact h2
    · exact h2
  · split
    · split
      · dsimp only
        unfold parentUpdate
        split
        · exact h2
        · rw [alContains_alUpd, alContains_alUpd]; exact h2
      · exact h2
    · exact h2

/-- The entry's own key is present after its build step. -/
theorem buildStep_contains_key (st : BuildState) (ec : EntryCtx) :
    alContains (buildStep st ec).persons (keyOf ec.1) = true := by
  obtain ⟨e, parentName⟩ := ec
  unfold buildStep
  dsimp only
  have h1 : alContains (if alContains st.persons (keyOf e) then st.persons
      else st.persons ++ [(keyOf e, mkPerson e)]) (keyOf e) = true := by
    split
    · next hc => exact hc
    · exact alContains_append_one _ _ _
  have h2 : alContains (alUpd (if alContains st.persons (keyOf e) then st.persons
      else st.persons ++ [(keyOf e, mkPerson e)]) (keyOf e) (fillPerson e)) (keyOf e) = true := by
    rw [alContains_alUpd]; exact h1
  split
  · split
    · unfold spouseUpdate
      split
      · exact h2
      · rw [alContains_alUpd, alContains_alUpd]; exact h2
    · exact h2
  · split
    · split
      · dsimp only
        unfold parentUpdate
        split
        · exact h2
        · rw [alContains_alUpd, alContains_alUpd]; exact h2
      · exact h2
    · exact h2

/-- The parents-set only grows across a build step. -/
theorem buildStep_pset_mono (st : BuildState) (ec : EntryCtx) (k : Key)
    (h : k ∈ st.parentsSet) : k ∈ (buildStep st ec).parentsSet := by
  obtain ⟨e, parentName⟩ := ec
  unfold buildStep
  dsimp only
  split
  · split <;> exact h
  · split
    · split <;> exact List.mem_append.mpr (Or.inl h)
    · exact h

/-- A non-spouse entry with a (truthy) parent context marks its key in the
parents-set. -/
theorem buildStep_pset_key (st : BuildState) (ec : EntryCtx)
    (hsp : ec.1.is_spouse = false) (hpn : pyTruthyStr ec.2 = true) :
    keyOf ec.1 ∈ (buildStep st ec).parentsSet := by
  obtain ⟨e, parentName⟩ := ec
  unfold buildStep
  dsimp only at *
  rw [hsp]
  simp only [Bool.false_eq_true, false_and, if_false]
  by_cases hmem : keyOf e ∈ st.parentsSet
  · split
    · split <;> simp [List.mem_append, hmem]
    · exact hmem
  · rw [if_pos ⟨hpn, hmem⟩]
    split <;> simp [List.mem_append]

/-- Parents-set membership implies registry membership (invariant of all
reachable build states). -/
theorem buildStep_pset_sub (st : BuildState) (ec : EntryCtx)
    (h : ∀ k ∈ st.parentsSet, alContains st.persons k = true) :
    ∀ k ∈ (buildStep st ec).parentsSet, alContains (buildStep st ec).persons k = true := by
  intro k hk
  obtain ⟨e, parentName⟩ := ec
  by_cases hkey : k = keyOf e
  · subst hkey
    exact buildStep_contains_key st (e, parentName)
  · refine buildStep_contains_mono st (e, parentName) k (h k ?_)
    revert hk
    unfold buildStep
    dsimp only
    split
    · split <;> exact id
    · split
      · split <;>
          · intro hk
            rcases List.mem_append.mp hk with hm | hm
            · exact hm
            · exact absurd (List.mem_singleton.mp hm) hkey
      · exact id

/-- Once the key is in the parents-set and the registry, a further entry
with that key changes no parents list and no children list of any record. -/
theorem buildStep_edges_eq (st : BuildState) (ec : EntryCtx)
    (hpset : keyOf ec.1 ∈ st.parentsSet)
    (hcont : alContains st.persons (keyOf ec.1) = true) :
    edgesOf (buildStep st ec).persons = edgesOf st.persons := by
  obtain ⟨e, parentName⟩ := ec
  dsimp only at hpset hcont
  unfold buildStep
  dsimp only
  rw [if_pos hcont]
  have h2 : edgesOf (alUpd st.persons (keyOf e) (fillPerson e)) = edgesOf st.persons :=
    edgesOf_alUpd (fun v => ⟨(fillPerson_fields e v).1, (fillPerson_fields e v).2.1⟩)
  split
  · split
    · unfold spouseUpdate
      split
      · exact h2
      · rw [edgesOf_alUpd (fun v => by split <;> exact ⟨rfl, rfl⟩),
            edgesOf_alUpd (fun v => by split <;> exact ⟨rfl, rfl⟩)]
        exact h2
    · exact h2
  · rw [if_neg (fun hc => hc.2 hpset)]
    exact h2

theorem buildRun_pset_mono (entries : List EntryCtx) (st : BuildState) (k : Key)
    (h : k ∈ st.parentsSet) : k ∈ (buildRun st entries).parentsSet := by
  induction entries generalizing st with
  | nil => exact h
  | cons ec t ih => exact ih _ (buildStep_pset_mono st ec k h)

theorem buildRun_pset_sub (entries : List EntryCtx) (st : BuildState)
    (h : ∀ k ∈ st.parentsSet, alContains st.persons k = true) :
    ∀ k ∈ (buildRun st entries).parentsSet,
      alContains (buildRun st entries).persons k = true := by
  induction entries generalizing st with
  | nil => exact h
  | cons ec t ih => exact ih _ (buildStep_pset_sub st ec h)

/-- C3: first-appearance-wins.  Once a non-spouse occurrence of a key with
a resolvable (truthy) parent context has been processed, any later entry
with the same key — whatever its own parent context — leaves the parents
list and the children list of every record unchanged, in both directions. -/
theorem c3_first_appearance_wins (pre mid : List EntryCtx) (e eL : EntryCtx)
    (hkey : keyOf eL.1 = keyOf e.1)
    (hsp : e.1.is_spouse = false)
    (hpn : pyTruthyStr e.2 = true) :
    edgesOf (build_persons_dict (pre ++ e :: mid ++ [eL])) =
    edgesOf (build_persons_dict (pre ++ e :: mid)) := by
  unfold build_persons_dict buildRun
  rw [show pre ++ e :: mid ++ [eL] = (pre ++ e :: mid) ++ [eL] by simp]
  rw [List.foldl_append]
  simp only [List.foldl_cons, List.foldl_nil]
  have hstep : List.foldl buildStep initBuildState (pre ++ e :: mid) =
      buildRun (buildStep (List.foldl buildStep initBuildState pre) e) mid := by
    rw [List.foldl_append]
    rfl
  set st2 := List.foldl buildStep initBuildState (pre ++ e :: mid) with hst2
  have hpset : keyOf eL.1 ∈ st2.parentsSet := by
    rw [hkey, hstep]
    exact buildRun_pset_mono mid _ _
      (buildStep_pset_key (List.foldl buildStep initBuildState pre) e hsp hpn)
  have hcont : alContains st2.persons (keyOf eL.1) = true := by
    have hsub : ∀ k ∈ st2.parentsSet, alContains st2.persons k = true := by
      rw [hst2]
      exact buildRun_pset_sub (pre ++ e :: mid) initBuildState
        (by intro k h; simp [initBuildState] at h)
    exact hsub _ hpset
  exact buildStep_edges_eq st2 eL hpset hcont

/-- Witness for C3: Kim appears under Ann, then again under Eve; the second
occurrence leaves every parents and children list unchanged. -/
theorem c3_first_appearance_wins_witness :
    edgesOf (build_persons_dict
      ([(⟨some 1, false, false, "Ann".toList, none, false, none, false⟩, none)] ++
        (⟨some 2, false, false, "Kim".toList, none, false, none, false⟩,
          some "Ann".toList) :: [] ++
        [(⟨some 2, false, false, "Kim".toList, none, false, none, false⟩,
          some "Eve".toList)])) =
    edgesOf (build_persons_dict
      ([(⟨some 1, false, false, "Ann".toList, none, false, none, false⟩, none)] ++
        (⟨some 2, false, false, "Kim".toList, none, false, none, false⟩,
          some "Ann".toList) :: [])) :=
  c3_first_appearance_wins _ _ _ _ (by decide) rfl (by decide)

end DxClan

namespace DxClan

/-! ## C1: duplicate merge and edge preservation -/

theorem unionAppend_left {l1 l2 : List Str} : ∀ x ∈ l1, x ∈ unionAppend l1 l2 := by
  induction l2 generalizing l1 with
  | nil => intro x hx; exact hx
  | cons s t ih =>
    intro x hx
    unfold unionAppend
    simp only [List.foldl_cons]
    refine ih _ ?_
    split
    · exact hx
    · exact List.mem_append.mpr (Or.inl hx)

theorem unionAppend_right {l1 l2 : List Str} : ∀ x ∈ l2, x ∈ unionAppend l1 l2 := by
  induction l2 generalizing l1 with
  | nil => intro x hx; exact absurd hx (List.not_mem_nil x)
  | cons s t ih =>
    intro x hx
    rcases List.mem_cons.mp hx with rfl | hx2
    · unfold unionAppend
      simp only [List.foldl_cons]
      refine unionAppend_left x ?_
      split
      · assumption
      · exact List.mem_append.mpr (Or.inr (List.mem_singleton.mpr rfl))
    · unfold unionAppend
      simp only [List.foldl_cons]
      exact ih x hx2

theorem mergeOne_spouses (b o : Person) :
    (mergeOne b o).spouses = unionAppend b.spouses o.spouses := by
  unfold mergeOne
  dsimp only
  split <;> split <;> split <;> rfl

theorem mergeOne_children (b o : Person) :
    (mergeOne b o).children = unionAppend b.children o.children := by
  unfold mergeOne
  dsimp only
  split <;> split <;> split <;> rfl

theorem mergeOthers_base_sub (grp : List (Key × Person)) (bk : Key) (b : Person) :
    (∀ s ∈ b.spouses, s ∈ (mergeOthers bk b grp).spouses) ∧
    (∀ s ∈ b.children, s ∈ (mergeOthers bk b grp).children) := by
  induction grp generalizing b with
  | nil => exact ⟨fun s hs => hs, fun s hs => hs⟩
  | cons hd t ih =>
    unfold mergeOthers
    simp only [List.foldl_cons]
    by_cases hk : hd.1 = bk
    · simp only [if_pos hk]
      exact ih b
    · simp only [if_neg hk]
      constructor
      · intro s hs
        exact (ih (mergeOne b hd.2)).1 s (by rw [mergeOne_spouses]; exact unionAppend_left s hs)
      · intro s hs
        exact (ih (mergeOne b hd.2)).2 s (by rw [mergeOne_children]; exact unionAppend_left s hs)

theorem mergeOthers_member_sub (grp : List (Key × Person)) (bk : Key) (b : Person)
    {kp : Key × Person} (hkp : kp ∈ grp) (hne : kp.1 ≠ bk) :
    (∀ s ∈ kp.2.spouses, s ∈ (mergeOthers bk b grp).spouses) ∧
    (∀ s ∈ kp.2.children, s ∈ (mergeOthers bk b grp).children) := by
  induction grp generalizing b with
  | nil => exact absurd hkp (List.not_mem_nil kp)
  | cons hd t ih =>
    unfold mergeOthers
    simp only [List.foldl_cons]
    rcases List.mem_cons.mp hkp with rfl | hmem
    · simp only [if_neg hne]
      constructor
      · intro s hs
        exact (mergeOthers_base_sub t bk _).1 s
          (by rw [mergeOne_spouses]; exact unionAppend_right s hs)
      · intro s hs
        exact (mergeOthers_base_sub t bk _).2 s
          (by rw [mergeOne_children]; exact unionAppend_right s hs)
    · split
      · exact ih b hmem
      · exact ih (mergeOne b hd.2) hmem

/-- Membership in the groups is preserved: bindings with a different key
are untouched by `alUpd`. -/
theorem mem_alUpd_preserve {κ ν : Type} [DecidableEq κ] {l : List (κ × ν)} {a : κ}
    {f : ν → ν} {k : κ} {v : ν} (h : (k, v) ∈ l) (hne : k ≠ a) : (k, v) ∈ alUpd l a f := by
  induction l with
  | nil => exact absurd h (List.not_mem_nil _)
  | cons hd t ih =>
    obtain ⟨k0, w⟩ := hd
    rcases List.mem_cons.mp h with heq | hmem
    · unfold alUpd
      split
      · next hk0 =>
        exfalso
        have hk0k : k0 = k := (congrArg Prod.fst heq).symm
        exact hne (hk0k ▸ hk0)
      · exact heq ▸ List.mem_cons_self _ _
    · unfold alUpd
      split
      · exact List.mem_cons_of_mem _ hmem
      · exact List.mem_cons_of_mem _ (ih hmem)

theorem mem_alSet_preserve {κ ν : Type} [DecidableEq κ] {l : List (κ × ν)} {a : κ}
    {v0 : ν} {k : κ} {v : ν} (h : (k, v) ∈ l) (hne : k ≠ a) : (k, v) ∈ alSet l a v0 := by
  unfold alSet
  split
  · exact mem_alUpd_preserve h hne
  · exact List.mem_append.mpr (Or.inl h)

theorem mem_alSet_self {κ ν : Type} [DecidableEq κ] (l : List (κ × ν)) (a : κ) (v : ν) :
    (a, v) ∈ alSet l a v := by
  unfold alSet
  split
  · next hc =>
    unfold alContains at hc
    induction l with
    | nil => simp [alGet] at hc
    | cons hd t ih =>
      obtain ⟨k0, w⟩ := hd
      by_cases hk : k0 = a
      · subst hk
        simp [alUpd]
      · simp only [alGet, if_neg hk] at hc
        simp only [alUpd, if_neg hk]
        exact List.mem_cons_of_mem _ (ih hc)
  · exact List.mem_append.mpr (Or.inr (List.mem_singleton.mpr rfl))

/-- All members of a `groupByName` group carry the group's normalized name. -/
theorem groupByName_norm (reg : Registry) :
    ∀ g ∈ groupByName reg, ∀ kp ∈ g.2, kp.1.1 = g.1 := by
  unfold groupByName
  suffices h : ∀ (l : Registry) (acc : List (Str × List (Key × Person))),
      (∀ g ∈ acc, ∀ kp ∈ g.2, kp.1.1 = g.1) →
      ∀ g ∈ l.foldl addToGroup acc, ∀ kp ∈ g.2, kp.1.1 = g.1 by
    exact h reg [] (by intro g hg; exact absurd hg (List.not_mem_nil g))
  intro l
  induction l with
  | nil => intro acc hacc; exact hacc
  | cons hd t ih =>
    intro acc hacc
    simp only [List.foldl_cons]
    refine ih _ ?_
    intro g hg kp hkp
    unfold addToGroup at hg
    split at hg
    · rcases mem_alUpd hg with hin | ⟨v, hv, hg2⟩
      · exact hacc g hin kp hkp
      · rw [hg2] at hkp ⊢
        rcases List.mem_append.mp hkp with hm | hm
        · exact hacc _ (alGet_mem hv) kp hm
        · have : kp = hd := by simpa using hm
          subst this
          rfl
    · rcases List.mem_append.mp hg with hm | hm
      · exact hacc g hm kp hkp
      · have : g = (hd.1.1, [hd]) := by simpa using hm
        subst this
        have : kp = hd := by simpa using hkp
        subst this
        rfl

/-- Every group of `groupByName reg` is a sublist of `reg`. -/
theorem groupByName_sublist (reg : Registry) :
    ∀ g ∈ groupByName reg, g.2.Sublist reg := by
  unfold groupByName
  suffices h : ∀ (l : Registry) (acc : List (Str × List (Key × Person))) (done : Registry),
      (∀ g ∈ acc, g.2.Sublist done) →
      ∀ g ∈ l.foldl addToGroup acc, g.2.Sublist (done ++ l) by
    have hbase : ∀ g ∈ ([] : List (Str × List (Key × Person))), g.2.Sublist ([] : Registry) :=
      fun g hg => absurd hg (List.not_mem_nil g)
    intro g hg
    have h3 := h reg [] [] hbase g hg
    rwa [List.nil_append] at h3
  intro l
  induction l with
  | nil =>
    intro acc done hacc g hg
    simpa using hacc g hg
  | cons hd t ih =>
    intro acc done hacc
    simp only [List.foldl_cons]
    intro g hg
    have step : ∀ g2 ∈ addToGroup acc hd, g2.2.Sublist (done ++ [hd]) := by
      intro g2 hg2
      unfold addToGroup at hg2
      split at hg2
      · rcases mem_alUpd hg2 with hin | ⟨v, hv, hg3⟩
        · exact (hacc g2 hin).trans (List.sublist_append_left _ _)
        · rw [hg3]
          exact List.Sublist.append (hacc _ (alGet_mem hv)) (List.Sublist.refl _)
      · rcases List.mem_append.mp hg2 with hm | hm
        · exact (hacc g2 hm).trans (List.sublist_append_left _ _)
        · have : g2 = (hd.1.1, [hd]) := by simpa using hm
          subst this
          exact List.Sublist.append (List.nil_sublist _) (List.Sublist.refl _)
    have h3 := ih (addToGroup acc hd) (done ++ [hd]) step g hg
    simpa using h3

theorem alGet_of_mem_nodup {κ ν : Type} [DecidableEq κ] {l : List (κ × ν)} {a : κ} {v : ν}
    (hnd : (l.map Prod.fst).Nodup) (h : (a, v) ∈ l) : alGet l a = some v := by
  induction l with
  | nil => exact absurd h (List.not_mem_nil _)
  | cons hd t ih =>
    obtain ⟨k, w⟩ := hd
    simp only [List.map_cons, List.nodup_cons] at hnd
    rcases List.mem_cons.mp h with heq | hmem
    · obtain ⟨h1, h2⟩ := Prod.mk.injEq a v k w ▸ heq
      subst h1; subst h2
      simp [alGet]
    · have hka : k ≠ a := by
        intro hk
        subst hk
        exact hnd.1 (List.mem_map.mpr ⟨(k, v), hmem, rfl⟩)
      simp only [alGet, if_neg hka]
      exact ih hnd.2 hmem

theorem alGet_upd_mem {κ ν : Type} [DecidableEq κ] {l : List (κ × ν)} {a : κ} {v : ν}
    (f : ν → ν) (h : alGet l a = some v) : (a, f v) ∈ alUpd l a f := by
  induction l with
  | nil => simp [alGet] at h
  | cons hd t ih =>
    obtain ⟨k, w⟩ := hd
    by_cases hk : k = a
    · subst hk
      have hw : w = v := by simpa [alGet] using h
      subst hw
      simp [alUpd]
    · simp only [alGet, if_neg hk] at h
      simp only [alUpd, if_neg hk]
      exact List.mem_cons_of_mem _ (ih h)

theorem mem_contains {κ ν : Type} [DecidableEq κ] {l : List (κ × ν)} {a : κ} {v : ν}
    (h : (a, v) ∈ l) : alContains l a = true := by
  induction l with
  | nil => exact absurd h (List.not_mem_nil _)
  | cons hd t ih =>
    obtain ⟨k, w⟩ := hd
    rcases List.mem_cons.mp h with heq | hmem
    · have hka : k = a := (congrArg Prod.fst heq).symm
      simp [alContains, alGet, hka]
    · by_cases hk : k = a
      · simp [alContains, alGet, hk]
      · simpa [alContains, alGet, hk] using ih hmem

theorem addToGroup_keys_nodup {acc : List (Str × List (Key × Person))} {kp : Key × Person}
    (h : (acc.map Prod.fst).Nodup) : ((addToGroup acc kp).map Prod.fst).Nodup := by
  unfold addToGroup
  split
  · simpa [alUpd_map_fst]
  · next hc =>
    have hnone : alGet acc kp.1.1 = none := by
      cases hg : alGet acc kp.1.1
      · rfl
      · rw [alContains, hg] at hc
        simp at hc
    have hnm := not_mem_of_alGet_eq_none acc kp.1.1 hnone
    simp only [List.map_append, List.map_cons, List.map_nil]
    refine List.Nodup.append h (List.nodup_singleton _) ?_
    intro b hb hb2
    simp only [List.mem_singleton] at hb2
    exact hnm (hb2 ▸ hb)

theorem groupByName_keys_nodup (reg : Registry) :
    ((groupByName reg).map Prod.fst).Nodup := by
  unfold groupByName
  suffices h : ∀ (l : Registry) (acc : List (Str × List (Key × Person))),
      (acc.map Prod.fst).Nodup → ((l.foldl addToGroup acc).map Prod.fst).Nodup by
    exact h reg [] (by simp)
  intro l
  induction l with
  | nil => intro acc h; exact h
  | cons hd t ih =>
    intro acc h
    simp only [List.foldl_cons]
    exact ih _ (addToGroup_keys_nodup h)

/-- Once a record sits in the group of norm `n`, it stays in that group
through further `addToGroup` steps. -/
theorem groups_preserve (l : Registry) (acc : List (Str × List (Key × Person)))
    (hnd : (acc.map Prod.fst).Nodup) {n : Str} {grp : List (Key × Person)}
    {kp : Key × Person} (hbind : (n, grp) ∈ acc) (hmem : kp ∈ grp) :
    ∃ grp2, (n, grp2) ∈ l.foldl addToGroup acc ∧ kp ∈ grp2 := by
  induction l generalizing acc grp with
  | nil => exact ⟨grp, hbind, hmem⟩
  | cons hd t ih =>
    simp only [List.foldl_cons]
    by_cases hn : hd.1.1 = n
    · subst hn
      have hget : alGet acc hd.1.1 = some grp := alGet_of_mem_nodup hnd hbind
      have hc : alContains acc hd.1.1 = true := by simp [alContains, hget]
      have hstep : (hd.1.1, grp ++ [hd]) ∈ addToGroup acc hd := by
        unfold addToGroup
        rw [if_pos hc]
        exact alGet_upd_mem _ hget
      exact ih (addToGroup acc hd) (addToGroup_keys_nodup hnd) hstep
        (List.mem_append.mpr (Or.inl hmem))
    · have hstep : (n, grp) ∈ addToGroup acc hd := by
        unfold addToGroup
        split
        · exact mem_alUpd_preserve hbind (fun h => hn h.symm)
        · exact List.mem_append.mpr (Or.inl hbind)
      exact ih (addToGroup acc hd) (addToGroup_keys_nodup hnd) hstep hmem

/-- Every record of the registry lies in the group of its normalized name. -/
theorem groupByName_own (reg : Registry) :
    ∀ kp ∈ reg, ∃ grp, (kp.1.1, grp) ∈ groupByName reg ∧ kp ∈ grp := by
  unfold groupByName
  suffices h : ∀ (l : Registry) (acc : List (Str × List (Key × Person))),
      (acc.map Prod.fst).Nodup →
      ∀ kp ∈ l, ∃ grp, (kp.1.1, grp) ∈ l.foldl addToGroup acc ∧ kp ∈ grp by
    exact h reg [] (by simp)
  intro l
  induction l with
  | nil => intro acc _ kp hkp; exact absurd hkp (List.not_mem_nil kp)
  | cons hd t ih =>
    intro acc hnd kp hkp
    simp only [List.foldl_cons]
    rcases List.mem_cons.mp hkp with rfl | hmem
    · -- the new element lands in its own group
      have hstep : ∃ grp, (kp.1.1, grp) ∈ addToGroup acc kp ∧ kp ∈ grp := by
        unfold addToGroup
        split
        · next hc =>
          obtain ⟨g0, hg0⟩ : ∃ g0, alGet acc kp.1.1 = some g0 := by
            cases hg : alGet acc kp.1.1
            · rw [alContains, hg] at hc; simp at hc
            · exact ⟨_, rfl⟩
          exact ⟨g0 ++ [kp], alGet_upd_mem _ hg0,
            List.mem_append.mpr (Or.inr (List.mem_singleton.mpr rfl))⟩
        · exact ⟨[kp], List.mem_append.mpr (Or.inr (List.mem_singleton.mpr rfl)),
            List.mem_singleton.mpr rfl⟩
      obtain ⟨grp, hbind, hmem2⟩ := hstep
      exact groups_preserve t _ (addToGroup_keys_nodup hnd) hbind hmem2
    · exact ih _ (addToGroup_keys_nodup hnd) kp hmem

theorem pickBase_isSome {grp : List (Key × Person)} (h : grp ≠ []) :
    ∃ kb, pickBase grp = some kb := by
  unfold pickBase
  split
  · exact ⟨_, rfl⟩
  · cases grp with
    | nil => exact absurd rfl h
    | cons x t => exact ⟨x, rfl⟩

/-- A `mergeGroupInto` step for a group of a different norm does not
disturb an existing binding of norm `n`. -/
theorem mergeGroupInto_preserve {m : Registry} {grp : List (Key × Person)}
    {kq : Key × Person} (hkq : kq ∈ m) {n2 : Str}
    (hgrp : ∀ kp2 ∈ grp, kp2.1.1 = n2) (hne : kq.1.1 ≠ n2) :
    kq ∈ mergeGroupInto m grp := by
  obtain ⟨k, v⟩ := kq
  unfold mergeGroupInto
  split
  · next kp0 =>
    refine mem_alSet_preserve hkq ?_
    intro hk
    have h2 : kp0.1.1 = n2 := hgrp kp0 (List.mem_cons_self _ _)
    exact hne (by rw [hk]; exact h2)
  · split
    · next bk b heq =>
      refine mem_alSet_preserve hkq ?_
      intro hk
      have h2 : bk.1 = n2 := hgrp (bk, b) (pickBase_mem heq)
      exact hne (by rw [hk]; exact h2)
    · exact hkq

theorem mergeFold_preserve (gs : List (Str × List (Key × Person))) (acc : Registry)
    {kq : Key × Person} (hkq : kq ∈ acc)
    (hco : ∀ g ∈ gs, ∀ kp2 ∈ g.2, kp2.1.1 = g.1)
    (hne : ∀ g ∈ gs, kq.1.1 ≠ g.1) :
    kq ∈ gs.foldl (fun m g => mergeGroupInto m g.2) acc := by
  induction gs generalizing acc with
  | nil => exact hkq
  | cons g t ih =>
    simp only [List.foldl_cons]
    refine ih _ ?_ (fun g2 hg2 => hco g2 (List.mem_cons_of_mem _ hg2))
      (fun g2 hg2 => hne g2 (List.mem_cons_of_mem _ hg2))
    exact mergeGroupInto_preserve hkq (hco g (List.mem_cons_self _ _))
      (hne g (List.mem_cons_self _ _))

/-- Uniqueness of list members with equal keys under nodup keys. -/
theorem mem_unique_of_keys_nodup {l : List (Key × Person)} (hnd : (l.map Prod.fst).Nodup)
    {kp kq : Key × Person} (hp : kp ∈ l) (hq : kq ∈ l) (hk : kp.1 = kq.1) : kp = kq := by
  induction l with
  | nil => exact absurd hp (List.not_mem_nil _)
  | cons hd t ih =>
    simp only [List.map_cons, List.nodup_cons] at hnd
    rcases List.mem_cons.mp hp with rfl | hp2
    · rcases List.mem_cons.mp hq with rfl | hq2
      · rfl
      · exact absurd (List.mem_map.mpr ⟨kq, hq2, hk.symm⟩) hnd.1
    · rcases List.mem_cons.mp hq with rfl | hq2
      · exact absurd (List.mem_map.mpr ⟨kp, hp2, hk⟩) hnd.1
      · exact ih hnd.2 hp2 hq2

theorem merged_of_group (gs : List (Str × List (Key × Person))) (acc : Registry)
    (hnd : (gs.map Prod.fst).Nodup)
    (hco : ∀ g ∈ gs, ∀ kp2 ∈ g.2, kp2.1.1 = g.1)
    (hgnd : ∀ g ∈ gs, (g.2.map Prod.fst).Nodup)
    {n : Str} {grp : List (Key × Person)} (hbind : (n, grp) ∈ gs)
    {kp : Key × Person} (hkp : kp ∈ grp) :
    ∃ kq ∈ gs.foldl (fun m g => mergeGroupInto m g.2) acc,
      kq.1.1 = n ∧ (∀ s ∈ kp.2.spouses, s ∈ kq.2.spouses) ∧
      (∀ s ∈ kp.2.children, s ∈ kq.2.children) := by
  induction gs generalizing acc with
  | nil => exact absurd hbind (List.not_mem_nil _)
  | cons g0 t ih =>
    simp only [List.map_cons, List.nodup_cons] at hnd
    rcases List.mem_cons.mp hbind with heq | hmem
    · -- our group is processed now
      subst heq
      have hnorm : ∀ kp2 ∈ grp, kp2.1.1 = n := hco (n, grp) (List.mem_cons_self _ _)
      have hgrpnd : (grp.map Prod.fst).Nodup := hgnd (n, grp) (List.mem_cons_self _ _)
      have hkq : ∃ kq, kq ∈ mergeGroupInto acc grp ∧ kq.1.1 = n ∧
          (∀ s ∈ kp.2.spouses, s ∈ kq.2.spouses) ∧
          (∀ s ∈ kp.2.children, s ∈ kq.2.children) := by
        unfold mergeGroupInto
        split
        · next kp0 =>
          have hk0 : kp = kp0 := List.mem_singleton.mp hkp
          refine ⟨(kp0.1, kp0.2), mem_alSet_self _ _ _, hnorm kp0 (List.mem_cons_self _ _),
            ?_, ?_⟩
          · intro s hs; rw [hk0] at hs; exact hs
          · intro s hs; rw [hk0] at hs; exact hs
        · have hne : grp ≠ [] := fun h => List.not_mem_nil kp (h ▸ hkp)
          obtain ⟨⟨bk, b⟩, hpb⟩ := pickBase_isSome hne
          rw [hpb]
          have hbkmem : (bk, b) ∈ grp := pickBase_mem hpb
          have hbkn : bk.1 = n := hnorm (bk, b) hbkmem
          refine ⟨(bk, mergeOthers bk b grp), mem_alSet_self _ _ _, hbkn, ?_, ?_⟩
          · intro s hs
            by_cases hkey : kp.1 = bk
            · have hkb : kp = (bk, b) := mem_unique_of_keys_nodup hgrpnd hkp hbkmem hkey
              rw [hkb] at hs
              exact (mergeOthers_base_sub grp bk b).1 s hs
            · exact (mergeOthers_member_sub grp bk b hkp hkey).1 s hs
          · intro s hs
            by_cases hkey : kp.1 = bk
            · have hkb : kp = (bk, b) := mem_unique_of_keys_nodup hgrpnd hkp hbkmem hkey
              rw [hkb] at hs
              exact (mergeOthers_base_sub grp bk b).2 s hs
            · exact (mergeOthers_member_sub grp bk b hkp hkey).2 s hs
      obtain ⟨kq, hin, hn2, hs2, hc2⟩ := hkq
      simp only [List.foldl_cons]
      refine ⟨kq, ?_, hn2, hs2, hc2⟩
      refine mergeFold_preserve t _ hin
        (fun g2 hg2 => hco g2 (List.mem_cons_of_mem _ hg2)) ?_
      intro g2 hg2
      rw [hn2]
      intro hcontra
      exact hnd.1 (hcontra ▸ List.mem_map.mpr ⟨g2, hg2, rfl⟩)
    · simp only [List.foldl_cons]
      exact ih _ hnd.2 (fun g hg => hco g (List.mem_cons_of_mem _ hg))
        (fun g hg => hgnd g (List.mem_cons_of_mem _ hg)) hmem

/-- C1 (amended): for a registry with distinct keys, `merge_duplicates`
never drops a SPOUSE or CHILDREN edge: the merged record of each group
carries every spouse and every child reference of every group member.
(Parent edges are not unioned and can be dropped; see the counterexample.) -/
theorem c1_merge_keeps_spouse_child_edges (reg : Registry)
    (hnd : (reg.map Prod.fst).Nodup) :
    ∀ kp ∈ reg, ∃ kq ∈ merge_duplicates reg, kq.1.1 = kp.1.1 ∧
      (∀ s ∈ kp.2.spouses, s ∈ kq.2.spouses) ∧
      (∀ s ∈ kp.2.children, s ∈ kq.2.children) := by
  intro kp hkp
  obtain ⟨grp, hbind, hmem⟩ := groupByName_own reg kp hkp
  unfold merge_duplicates
  refine merged_of_group (groupByName reg) [] (groupByName_keys_nodup reg)
    (groupByName_norm reg) ?_ hbind hmem
  intro g hg
  exact List.Nodup.sublist (List.Sublist.map Prod.fst (groupByName_sublist reg g hg)) hnd

/-- Witness for the amended C1 at a concrete registry. -/
theorem c1_merge_keeps_spouse_child_edges_witness :
    ∃ kq ∈ merge_duplicates
      [ (("carol".toList, some 1900),
         ({ name := "Carol".toList, birth_year := some 1900,
            spouses := ["Dan".toList] } : Person)),
        (("carol".toList, none),
         ({ name := "Carol".toList, spouses := ["Eli".toList],
            children := ["Fay".toList] } : Person)) ],
      kq.1.1 = "carol".toList ∧
      (∀ s ∈ ["Eli".toList], s ∈ kq.2.spouses) ∧
      (∀ s ∈ ["Fay".toList], s ∈ kq.2.children) :=
  c1_merge_keeps_spouse_child_edges
    [ (("carol".toList, some 1900),
       ({ name := "Carol".toList, birth_year := some 1900,
          spouses := ["Dan".toList] } : Person)),
      (("carol".toList, none),
       ({ name := "Carol".toList, spouses := ["Eli".toList],
          children := ["Fay".toList] } : Person)) ]
    (by decide)
    (("carol".toList, none),
     ({ name := "Carol".toList, spouses := ["Eli".toList],
        children := ["Fay".toList] } : Person))
    (by decide)

/-- Counterexample to C1 as stated: the claim requires the merged record's
combined edge set (parents, spouses and children together) to contain every
edge of every group member; but `merge_duplicates` takes the parents of the
base record when non-empty and drops the other member's parent edge. -/
theorem c1_counterexample :
    ¬ (∀ kp ∈
        ([ (("carol".toList, some 1900),
            ({ name := "Carol".toList, birth_year := some 1900,
               parents := ["Ann".toList] } : Person)),
           (("carol".toList, none),
            ({ name := "Carol".toList, parents := ["Beth".toList] } : Person)) ] : Registry),
        ∀ s ∈ kp.2.parents ++ kp.2.spouses ++ kp.2.children,
          ∃ kq ∈ merge_duplicates
            [ (("carol".toList, some 1900),
               ({ name := "Carol".toList, birth_year := some 1900,
                  parents := ["Ann".toList] } : Person)),
              (("carol".toList, none),
               ({ name := "Carol".toList, parents := ["Beth".toList] } : Person)) ],
            kq.1.1 = kp.1.1 ∧ s ∈ kq.2.parents ++ kq.2.spouses ++ kq.2.children) := by
  decide

end DxClan

namespace DxClan

/-! ## C4: year validation in extract_years -/

theorem validateYear_bound (o : Option Nat) (c : Bool) (y : Nat)
    (h : (validateYear o c).1 = some y) (hy : y ≠ 0) : 1650 ≤ y ∧ y ≤ 2025 := by
  cases o with
  | none => simp [validateYear] at h
  | some y0 =>
    simp only [validateYear] at h
    split at h
    · simp at h
    · next hcond =>
      have hyy : y0 = y := by simpa using h
      subst hyy
      constructor
      · by_contra h2
        exact hcond ⟨hy, Or.inl (by omega)⟩
      · by_contra h2
        exact hcond ⟨hy, Or.inr (by omega)⟩

theorem validateYear_reject (c : Bool) (y : Nat) (hy : y ≠ 0)
    (hb : y < 1650 ∨ y > 2025) : validateYear (some y) c = (none, false) := by
  simp only [validateYear]
  rw [if_pos ⟨hy, hb⟩]

theorem dropDeath_some (b d : Option Nat) (dc : Bool) (yd : Nat)
    (h : (dropDeathBeforeBirth b d dc).1 = some yd) : d = some yd := by
  cases b with
  | none => cases d <;> simpa [dropDeathBeforeBirth] using h
  | some yb =>
    cases d with
    | none => simpa [dropDeathBeforeBirth] using h
    | some yd0 =>
      simp only [dropDeathBeforeBirth] at h
      split at h
      · simp at h
      · simpa using h

theorem dropDeath_le (b d : Option Nat) (dc : Bool) (yb yd : Nat)
    (hb : b = some yb) (h : (dropDeathBeforeBirth b d dc).1 = some yd)
    (hyb : yb ≠ 0) (hyd : yd ≠ 0) : yb ≤ yd := by
  subst hb
  cases d with
  | none => simp [dropDeathBeforeBirth] at h
  | some yd0 =>
    simp only [dropDeathBeforeBirth] at h
    split at h
    · simp at h
    · next hcond =>
      have : yd0 = yd := by simpa using h
      subst this
      by_contra h2
      exact hcond ⟨hyb, hyd, by omega⟩

/-- C4 (amended): every nonzero year returned by `extract_years` lies in
the validation range 1650-2025 (hence inside the spec's 1600-2029 bound);
a nonzero raw year outside the bound is rejected with its circa flag
cleared; and when both returned years are nonzero the death year is not
before the birth year.  The year `0000` (int `0`) bypasses all validation
because `0` is falsy in Python — see the counterexample. -/
theorem c4_year_validation (text : Str) :
    (∀ y, (extract_years text).1 = some y → y ≠ 0 → 1650 ≤ y ∧ y ≤ 2025) ∧
    (∀ y, (extract_years text).2.2.1 = some y → y ≠ 0 → 1650 ≤ y ∧ y ≤ 2025) ∧
    (∀ yb yd, (extract_years text).1 = some yb → (extract_years text).2.2.1 = some yd →
      yb ≠ 0 → yd ≠ 0 → yb ≤ yd) ∧
    (∀ y, (extractYearsFallback text (extractYearsRaw text)).1 = some y → y ≠ 0 →
      (y < 1600 ∨ 2029 < y) →
      (extract_years text).1 = none ∧ (extract_years text).2.1 = false) ∧
    (∀ y, (extractYearsFallback text (extractYearsRaw text)).2 = some y → y ≠ 0 →
      (y < 1600 ∨ 2029 < y) →
      (extract_years text).2.2.1 = none ∧ (extract_years text).2.2.2 = false) := by
  unfold extract_years
  dsimp only
  refine ⟨?_, ?_, ?_, ?_, ?_⟩
  · intro y h hy
    exact validateYear_bound _ _ y h hy
  · intro y h hy
    have hd := dropDeath_some _ _ _ _ h
    exact validateYear_bound _ _ y hd hy
  · intro yb yd hb hd hyb hyd
    exact dropDeath_le _ _ _ yb yd hb hd hyb hyd
  · intro y h hy hout
    rw [h, validateYear_reject _ y hy (by omega)]
    exact ⟨rfl, rfl⟩
  · intro y h hy hout
    rw [h, validateYear_reject _ y hy (by omega)]
    cases hv : (validateYear (extractYearsFallback text (extractYearsRaw text)).1
        (circaFlag text (extractYearsFallback text (extractYearsRaw text)).1)).1 with
    | none => simp [dropDeathBeforeBirth]
    | some yb => simp [dropDeathBeforeBirth]

/-- Witness for C4 at a concrete input. -/
theorem c4_year_validation_witness : 1650 ≤ 1920 ∧ 1920 ≤ 2025 :=
  (c4_year_validation ("d. 1920".toList)).1 1920 (by decide) (by decide)

/-- Counterexample to C4 as stated: on `"1700 - 0000"` the year `0000`
parses to the falsy int `0`, which skips both the range validation and the
death-before-birth check: `extract_years` returns a death year `0` (outside
1600-2029, not `None`) together with a larger birth year `1700`. -/
theorem c4_counterexample :
    (extract_years ("1700 - 0000".toList)).2.2.1 = some 0 ∧ (0 : Nat) < 1600 ∧
    (extract_years ("1700 - 0000".toList)).1 = some 1700 ∧ (0 : Nat) < 1700 := by
  refine ⟨by decide, by decide, by decide, by decide⟩

/-! ## C10: a single bare year is always a birth year -/

/-- C10: when no year-range pattern matches, no full month-day-year date
matches, and exactly one bare year in the accepted range occurs, that year
becomes the birth year and the death year stays unset — whatever the rest
of the text (in particular a preceding `d.` marker). -/
theorem c10_single_bare_year (text : Str) (y : Nat)
    (h1 : searchRange text = none)
    (h2 : findDateYears text = [])
    (h3 : findYears text = [y])
    (h4 : 1650 ≤ y) (h5 : y ≤ 2025) :
    (extract_years text).1 = some y ∧ (extract_years text).2.2.1 = none := by
  have hraw : extractYearsRaw text = (none, none) := by
    unfold extractYearsRaw
    rw [h1, h2]
  have hfb : extractYearsFallback text (extractYearsRaw text) = (some y, none) := by
    rw [hraw]
    unfold extractYearsFallback
    rw [h3]
  unfold extract_years
  dsimp only
  rw [hfb]
  have hv : validateYear (some y) (circaFlag text (some y, (none : Option Nat)).1) =
      (some y, circaFlag text (some y)) := by
    simp only [validateYear]
    rw [if_neg]
    intro hcond
    rcases hcond.2 with h | h <;> omega
  rw [hv]
  simp [validateYear, dropDeathBeforeBirth]

/-- Witness for C10: text `"d. 1920"` has a death marker but only a bare
year; it is classified as a birth year. -/
theorem c10_single_bare_year_witness :
    (extract_years ("d. 1920".toList)).1 = some 1920 ∧
    (extract_years ("d. 1920".toList)).2.2.1 = none :=
  c10_single_bare_year ("d. 1920".toList) 1920 (by decide) (by decide) (by decide)
    (by decide) (by decide)

end DxClan

namespace DxClan

/-! ## C9: generation handling in parse_line -/

/-- C9 (amended): every entry returned by `parse_line` carries a set
generation; a non-spouse line (including asterisk relistings) whose
generation cannot be extracted is always dropped; and a spouse-marker line
without an extractable generation digit is not rejected on generation
grounds — its generation defaults to 0 — though it can still be dropped by
the name-validation step. -/
theorem c9_generation_policy :
    (∀ line e, parse_line line = some e → e.generation.isSome = true) ∧
    (∀ line, (detectRole (stripStr line)).1 = false →
      (extractGenLine (detectRole (stripStr line)).2.2).1 = none →
      parse_line line = none) ∧
    (∀ line e, parse_line line = some e →
      (detectRole (stripStr line)).1 = true →
      (extractGenLine (detectRole (stripStr line)).2.2).1 = none →
      e.generation = some 0) := by
  refine ⟨?_, ?_, ?_⟩
  · intro line e h
    unfold parse_line at h
    dsimp only at h
    split at h
    · exact absurd h (by simp)
    · split at h
      · exact absurd h (by simp)
      · split at h
        · exact absurd h (by simp)
        · split at h
          · exact absurd h (by simp)
          · split at h
            · exact absurd h (by simp)
            · next g hgen =>
              split at h
              · have he : e = ⟨some g, _, _, _, _, _, _, _⟩ := (Option.some_inj.mp h).symm
                rw [he]
                rfl
              · exact absurd h (by simp)
  · intro line h1 h2
    unfold parse_line
    dsimp only
    split
    · rfl
    · split
      · rfl
      · split
        · rfl
        · split
          · rfl
          · rw [h1, h2]
            simp
  · intro line e h h1 h2
    unfold parse_line at h
    dsimp only at h
    split at h
    · exact absurd h (by simp)
    · split at h
      · exact absurd h (by simp)
      · split at h
        · exact absurd h (by simp)
        · split at h
          · exact absurd h (by simp)
          · rw [h1, h2] at h
            have hred : (if ((true = true) ∧ ((none : Option Nat) = none)) then
                (some 0 : Option Nat) else none) = some 0 := by simp
            rw [hred] at h
            dsimp only at h
            split at h
            · have he := Option.some_inj.mp h
              rw [← he]
            · exact absurd h (by simp)

/-- Witness for C9 at a concrete accepted spouse line. -/
theorem c9_generation_policy_witness :
    (⟨some 0, true, false, "Abc".toList, none, false, none,
      false⟩ : ParsedEntry).generation.isSome = true :=
  c9_generation_policy.1 ("+Abc".toList) _ (by decide)

/-- Counterexample to C9 as stated: `"+z;"` begins with a spouse marker
and has no generation digit, but `parse_line` still returns `none` (the
cleaned name `"z"` fails name validation), so such a line is not always
accepted. -/
theorem c9_counterexample :
    (detectRole (stripStr ("+z;".toList))).1 = true ∧
    (extractGenLine (detectRole (stripStr ("+z;".toList))).2.2).1 = none ∧
    parse_line ("+z;".toList) = none := by
  refine ⟨by decide, by decide, by decide⟩

end DxClan

namespace DxClan

/-! ## C5: symmetry of references — aggregate-relation lemmas -/

theorem mem_alUpd_or {κ ν : Type} [DecidableEq κ] {l : List (κ × ν)} {a : κ} {f : ν → ν}
    {k : κ} {w : ν} (h : (k, w) ∈ l) :
    (k, w) ∈ alUpd l a f ∨ (alGet l a = some w ∧ k = a) := by
  induction l with
  | nil => exact absurd h (List.not_mem_nil _)
  | cons hd t ih =>
    obtain ⟨k0, v0⟩ := hd
    by_cases hk0 : k0 = a
    · subst hk0
      simp only [alUpd, if_pos rfl]
      rcases List.mem_cons.mp h with heq | hmem
      · right
        have h1 : k = k0 := (congrArg Prod.fst heq)
        have h2 : w = v0 := (congrArg Prod.snd heq)
        subst h1; subst h2
        exact ⟨by simp [alGet], rfl⟩
      · exact Or.inl (List.mem_cons_of_mem _ hmem)
    · simp only [alUpd, if_neg hk0]
      rcases List.mem_cons.mp h with heq | hmem
      · exact Or.inl (heq ▸ List.mem_cons_self _ _)
      · rcases ih hmem with h1 | ⟨h1, h2⟩
        · exact Or.inl (List.mem_cons_of_mem _ h1)
        · subst h2
          exact Or.inr ⟨by simpa [alGet, hk0] using h1, rfl⟩

/-- `FieldRel` is untouched by an `alUpd` whose function preserves the
field. -/
theorem fieldRel_alUpd_eq {g : Person → List Str} {l : Registry} {a : Key}
    {f : Person → Person} (hf : ∀ v, g (f v) = g v) (m n : Str) :
    FieldRel g (alUpd l a f) m n ↔ FieldRel g l m n := by
  constructor
  · rintro ⟨kp, hkp, hm, hn⟩
    rcases mem_alUpd hkp with hin | ⟨v, hv, heq⟩
    · exact ⟨kp, hin, hm, hn⟩
    · refine ⟨(a, v), alGet_mem hv, ?_, ?_⟩
      · rw [heq] at hm; exact hm
      · rw [heq] at hn; simpa [hf v] using hn
  · rintro ⟨⟨k, w⟩, hkp, hm, hn⟩
    rcases mem_alUpd_or (f := f) hkp with hin | ⟨hget, hka⟩
    · exact ⟨(k, w), hin, hm, hn⟩
    · subst hka
      refine ⟨(k, f w), alGet_upd_mem f hget, hm, ?_⟩
      simpa [hf w] using hn

/-- `FieldRel` is untouched by appending a record whose field is empty. -/
theorem fieldRel_append_empty {g : Person → List Str} {l : Registry} {k : Key}
    {p0 : Person} (hp : g p0 = []) (m n : Str) :
    FieldRel g (l ++ [(k, p0)]) m n ↔ FieldRel g l m n := by
  constructor
  · rintro ⟨kp, hkp, hm, hn⟩
    rcases List.mem_append.mp hkp with hin | hin
    · exact ⟨kp, hin, hm, hn⟩
    · have : kp = (k, p0) := by simpa using hin
      rw [this] at hn
      simp [hp, normsOf] at hn
  · rintro ⟨kp, hkp, hm, hn⟩
    exact ⟨kp, List.mem_append.mpr (Or.inl hkp), hm, hn⟩

/-- Characterization of `FieldRel` after a guarded name append at
binding `a`. -/
theorem fieldRel_addName {g : Person → List Str} {l : Registry} {a : Key}
    {f : Person → Person} {nm : Str}
    (hf : ∀ v, (g (f v) = g v ∧ nm ∈ g v) ∨ g (f v) = g v ++ [nm]) (m n : Str) :
    FieldRel g (alUpd l a f) m n ↔
      FieldRel g l m n ∨ (alContains l a = true ∧ m = a.1 ∧ n = lowerStr nm) := by
  constructor
  · rintro ⟨kp, hkp, hm, hn⟩
    rcases mem_alUpd hkp with hin | ⟨v, hv, heq⟩
    · exact Or.inl ⟨kp, hin, hm, hn⟩
    · rw [heq] at hm hn
      rcases hf v with ⟨he, _⟩ | he
      · exact Or.inl ⟨(a, v), alGet_mem hv, hm, by simpa [he] using hn⟩
      · rw [he] at hn
        simp only [normsOf, List.map_append, List.map_cons, List.map_nil,
          List.mem_append, List.mem_singleton] at hn
        rcases hn with hn | hn
        · exact Or.inl ⟨(a, v), alGet_mem hv, hm, hn⟩
        · exact Or.inr ⟨by simp [alContains, hv], hm.symm, hn⟩
  · rintro (⟨⟨k, w⟩, hkp, hm, hn⟩ | ⟨hc, hm, hn⟩)
    · rcases mem_alUpd_or (f := f) hkp with hin | ⟨hget, hka⟩
      · exact ⟨(k, w), hin, hm, hn⟩
      · subst hka
        refine ⟨(k, f w), alGet_upd_mem f hget, hm, ?_⟩
        rcases hf w with ⟨he, _⟩ | he
        · simpa [he] using hn
        · rw [he]
          simp only [normsOf, List.map_append, List.mem_append]
          exact Or.inl hn
    · obtain ⟨v, hv⟩ : ∃ v, alGet l a = some v := by
        cases hg : alGet l a
        · rw [alContains, hg] at hc; simp at hc
        · exact ⟨_, rfl⟩
      refine ⟨(a, f v), alGet_upd_mem f hv, hm.symm, ?_⟩
      subst hn
      rcases hf v with ⟨he, hmem⟩ | he
      · rw [he]
        exact List.mem_map.mpr ⟨nm, hmem, rfl⟩
      · rw [he]
        simp [normsOf]

end DxClan

namespace DxClan

/-! ## C5: invariant preservation through build_persons_dict -/

theorem mem_keys_contains {κ ν : Type} [DecidableEq κ] {l : List (κ × ν)} {a : κ}
    (h : a ∈ l.map Prod.fst) : alContains l a = true := by
  obtain ⟨kv, hkv, hfst⟩ := List.mem_map.mp h
  obtain ⟨k, v⟩ := kv
  cases hfst
  exact mem_contains hkv

theorem keysNodup_alUpd (a : Key) (f : Person → Person) {l : Registry}
    (h : KeysNodup l) : KeysNodup (alUpd l a f) := by
  unfold KeysNodup at *
  rw [alUpd_map_fst]
  exact h

theorem keysNodup_append {l : Registry} {k : Key} (p : Person)
    (h : KeysNodup l) (hk : alContains l k = false) : KeysNodup (l ++ [(k, p)]) := by
  unfold KeysNodup at *
  rw [List.map_append]
  refine List.Nodup.append h (List.nodup_singleton _) ?_
  intro x hx hx2
  have hxk : x = k := by simpa using hx2
  subst hxk
  rw [mem_keys_contains hx] at hk
  exact absurd hk (by decide)

theorem keysNodup_of_map_fst_eq {l l' : Registry} (he : l'.map Prod.fst = l.map Prod.fst)
    (h : KeysNodup l) : KeysNodup l' := by
  unfold KeysNodup at *
  rw [he]
  exact h

theorem keyName_alUpd {l : Registry} {a : Key} {f : Person → Person}
    (hf : ∀ v, (f v).name = v.name) (h : KeyName l) : KeyName (alUpd l a f) := by
  intro kp hkp
  rcases mem_alUpd hkp with hin | ⟨v, hv, heq⟩
  · exact h kp hin
  · have h1 := h (a, v) (alGet_mem hv)
    rw [heq]
    dsimp only
    rw [hf v]
    exact h1

theorem keyName_append {l : Registry} {k : Key} {p : Person}
    (hp : lowerStr p.name = k.1) (h : KeyName l) : KeyName (l ++ [(k, p)]) := by
  intro kp hkp
  rcases List.mem_append.mp hkp with hin | hin
  · exact h kp hin
  · have hkp2 : kp = (k, p) := by simpa using hin
    rw [hkp2]
    exact hp

theorem aggSym_of_iff {l l' : Registry}
    (hs : ∀ m n, SpousesRel l' m n ↔ SpousesRel l m n)
    (hp : ∀ m n, ParentsRel l' m n ↔ ParentsRel l m n)
    (hc : ∀ m n, ChildrenRel l' m n ↔ ChildrenRel l m n)
    (h : AggSym l) : AggSym l' := by
  intro m n
  obtain ⟨h1, h2⟩ := h m n
  exact ⟨(hs m n).trans (h1.trans (hs n m).symm), (hp m n).trans (h2.trans (hc n m).symm)⟩

theorem aggSym_addPair {l l' : Registry} {x y : Str}
    (hs : ∀ m n, SpousesRel l' m n ↔
      SpousesRel l m n ∨ (m = x ∧ n = y) ∨ (m = y ∧ n = x))
    (hp : ∀ m n, ParentsRel l' m n ↔ ParentsRel l m n)
    (hc : ∀ m n, ChildrenRel l' m n ↔ ChildrenRel l m n)
    (h : AggSym l) : AggSym l' := by
  intro m n
  obtain ⟨h1, h2⟩ := h m n
  constructor
  · rw [hs m n, hs n m, h1]
    tauto
  · exact (hp m n).trans (h2.trans (hc n m).symm)

theorem aggSym_addPC {l l' : Registry} {x y : Str}
    (hs : ∀ m n, SpousesRel l' m n ↔ SpousesRel l m n)
    (hp : ∀ m n, ParentsRel l' m n ↔ ParentsRel l m n ∨ (m = x ∧ n = y))
    (hc : ∀ m n, ChildrenRel l' m n ↔ ChildrenRel l m n ∨ (m = y ∧ n = x))
    (h : AggSym l) : AggSym l' := by
  intro m n
  obtain ⟨h1, h2⟩ := h m n
  constructor
  · exact (hs m n).trans (h1.trans (hs n m).symm)
  · rw [hp m n, hc n m, h2]
    tauto

theorem guardAppend_spouses (nm : Str) (v : Person) :
    (Person.spouses (if nm ∈ v.spouses then v
        else { v with spouses := v.spouses ++ [nm] }) = Person.spouses v ∧
      nm ∈ Person.spouses v) ∨
    Person.spouses (if nm ∈ v.spouses then v
        else { v with spouses := v.spouses ++ [nm] }) = Person.spouses v ++ [nm] := by
  by_cases hm : nm ∈ v.spouses
  · exact Or.inl ⟨by simp [hm], hm⟩
  · exact Or.inr (by simp [hm])

theorem guardAppend_spouses_keeps (nm : Str) (v : Person) :
    Person.parents (if nm ∈ v.spouses then v
        else { v with spouses := v.spouses ++ [nm] }) = Person.parents v ∧
    Person.children (if nm ∈ v.spouses then v
        else { v with spouses := v.spouses ++ [nm] }) = Person.children v ∧
    Person.name (if nm ∈ v.spouses then v
        else { v with spouses := v.spouses ++ [nm] }) = Person.name v := by
  by_cases hm : nm ∈ v.spouses <;> simp [hm]

theorem guardAppend_children (nm : Str) (v : Person) :
    (Person.children (if nm ∈ v.children then v
        else { v with children := v.children ++ [nm] }) = Person.children v ∧
      nm ∈ Person.children v) ∨
    Person.children (if nm ∈ v.children then v
        else { v with children := v.children ++ [nm] }) = Person.children v ++ [nm] := by
  by_cases hm : nm ∈ v.children
  · exact Or.inl ⟨by simp [hm], hm⟩
  · exact Or.inr (by simp [hm])

theorem guardAppend_children_keeps (nm : Str) (v : Person) :
    Person.parents (if nm ∈ v.children then v
        else { v with children := v.children ++ [nm] }) = Person.parents v ∧
    Person.spouses (if nm ∈ v.children then v
        else { v with children := v.children ++ [nm] }) = Person.spouses v ∧
    Person.name (if nm ∈ v.children then v
        else { v with children := v.children ++ [nm] }) = Person.name v := by
  by_cases hm : nm ∈ v.children <;> simp [hm]

theorem guardAppend_parents (nm : Str) (v : Person) :
    (Person.parents (if nm ∈ v.parents then v
        else { v with parents := v.parents ++ [nm] }) = Person.parents v ∧
      nm ∈ Person.parents v) ∨
    Person.parents (if nm ∈ v.parents then v
        else { v with parents := v.parents ++ [nm] }) = Person.parents v ++ [nm] := by
  by_cases hm : nm ∈ v.parents
  · exact Or.inl ⟨by simp [hm], hm⟩
  · exact Or.inr (by simp [hm])

theorem guardAppend_parents_keeps (nm : Str) (v : Person) :
    Person.children (if nm ∈ v.parents then v
        else { v with parents := v.parents ++ [nm] }) = Person.children v ∧
    Person.spouses (if nm ∈ v.parents then v
        else { v with parents := v.parents ++ [nm] }) = Person.spouses v ∧
    Person.name (if nm ∈ v.parents then v
        else { v with parents := v.parents ++ [nm] }) = Person.name v := by
  by_cases hm : nm ∈ v.parents <;> simp [hm]

theorem fieldRel_addName_twice {g : Person → List Str} {l : Registry} {a b : Key}
    {f1 f2 : Person → Person} {nm1 nm2 : Str}
    (h1 : ∀ v, (g (f1 v) = g v ∧ nm1 ∈ g v) ∨ g (f1 v) = g v ++ [nm1])
    (h2 : ∀ v, (g (f2 v) = g v ∧ nm2 ∈ g v) ∨ g (f2 v) = g v ++ [nm2])
    (ha : alContains l a = true) (hb : alContains l b = true) (m n : Str) :
    FieldRel g (alUpd (alUpd l a f1) b f2) m n ↔
      FieldRel g l m n ∨ (m = a.1 ∧ n = lowerStr nm1) ∨ (m = b.1 ∧ n = lowerStr nm2) := by
  rw [fieldRel_addName h2, fieldRel_addName h1, alContains_alUpd, hb, ha]
  tauto

theorem fieldRel_alUpd_eq_twice {g : Person → List Str} {l : Registry} {a b : Key}
    {f1 f2 : Person → Person}
    (h1 : ∀ v, g (f1 v) = g v) (h2 : ∀ v, g (f2 v) = g v) (m n : Str) :
    FieldRel g (alUpd (alUpd l a f1) b f2) m n ↔ FieldRel g l m n := by
  rw [fieldRel_alUpd_eq h2, fieldRel_alUpd_eq h1]

end DxClan

namespace DxClan

theorem spouseUpdate_map_fst (ps : Registry) (ck key : Key) (nm : Str) :
    (spouseUpdate ps ck key nm).map Prod.fst = ps.map Prod.fst := by
  unfold spouseUpdate
  split
  · rfl
  · simp only [alUpd_map_fst]

theorem spouseUpdate_keyName {ps : Registry} (ck key : Key) (nm : Str)
    (h : KeyName ps) : KeyName (spouseUpdate ps ck key nm) := by
  unfold spouseUpdate
  split
  · exact h
  · exact keyName_alUpd (fun v => (guardAppend_spouses_keeps _ v).2.2)
      (keyName_alUpd (fun v => (guardAppend_spouses_keeps _ v).2.2) h)

theorem spouseUpdate_spousesRel {ps : Registry} {ck key : Key} {nm : Str} {curr : Person}
    (hg : alGet ps ck = some curr) (hkey : alContains ps key = true) (m n : Str) :
    SpousesRel (spouseUpdate ps ck key nm) m n ↔
      SpousesRel ps m n ∨ (m = ck.1 ∧ n = lowerStr nm) ∨
        (m = key.1 ∧ n = lowerStr curr.name) := by
  unfold spouseUpdate
  rw [hg]
  exact fieldRel_addName_twice (fun v => guardAppend_spouses nm v)
    (fun v => guardAppend_spouses curr.name v) (by rw [alContains, hg]; rfl) hkey m n

theorem spouseUpdate_parentsRel {ps : Registry} {ck key : Key} {nm : Str} {curr : Person}
    (hg : alGet ps ck = some curr) (m n : Str) :
    ParentsRel (spouseUpdate ps ck key nm) m n ↔ ParentsRel ps m n := by
  unfold spouseUpdate
  rw [hg]
  exact fieldRel_alUpd_eq_twice (fun v => (guardAppend_spouses_keeps nm v).1)
    (fun v => (guardAppend_spouses_keeps curr.name v).1) m n

theorem spouseUpdate_childrenRel {ps : Registry} {ck key : Key} {nm : Str} {curr : Person}
    (hg : alGet ps ck = some curr) (m n : Str) :
    ChildrenRel (spouseUpdate ps ck key nm) m n ↔ ChildrenRel ps m n := by
  unfold spouseUpdate
  rw [hg]
  exact fieldRel_alUpd_eq_twice (fun v => (guardAppend_spouses_keeps nm v).2.1)
    (fun v => (guardAppend_spouses_keeps curr.name v).2.1) m n

theorem spouseUpdate_aggSym {ps : Registry} {ck key : Key} {nm : Str}
    (hkn : KeyName ps) (hkey : alContains ps key = true) (hnm : lowerStr nm = key.1)
    (h : AggSym ps) : AggSym (spouseUpdate ps ck key nm) := by
  cases hg : alGet ps ck with
  | none =>
    unfold spouseUpdate
    rw [hg]
    exact h
  | some curr =>
    have hck : lowerStr curr.name = ck.1 := hkn (ck, curr) (alGet_mem hg)
    refine @aggSym_addPair ps _ ck.1 key.1 ?_ ?_ ?_ h
    · intro m n
      rw [spouseUpdate_spousesRel hg hkey m n, hnm, hck]
    · intro m n
      exact spouseUpdate_parentsRel hg m n
    · intro m n
      exact spouseUpdate_childrenRel hg m n

theorem findParentKey_mem {ps : Registry} {pn : Str} {pk : Key} {parent : Person}
    (h : findParentKey ps pn = some (pk, parent)) :
    (pk, parent) ∈ ps ∧ pk.1 = lowerStr pn := by
  unfold findParentKey at h
  refine ⟨List.mem_of_find?_eq_some h, ?_⟩
  have h2 := List.find?_some h
  simpa using h2

theorem parentUpdate_map_fst (ps : Registry) (key : Key) (nm pn : Str) :
    (parentUpdate ps key nm pn).map Prod.fst = ps.map Prod.fst := by
  unfold parentUpdate
  split
  · rfl
  · simp only [alUpd_map_fst]

theorem parentUpdate_keyName {ps : Registry} (key : Key) (nm pn : Str)
    (h : KeyName ps) : KeyName (parentUpdate ps key nm pn) := by
  unfold parentUpdate
  split
  · exact h
  · exact keyName_alUpd (fun v => (guardAppend_parents_keeps _ v).2.2)
      (keyName_alUpd (fun v => (guardAppend_children_keeps _ v).2.2) h)

theorem parentUpdate_aggSym {ps : Registry} {key : Key} {nm pn : Str}
    (hkn : KeyName ps) (hkey : alContains ps key = true) (hnm : lowerStr nm = key.1)
    (h : AggSym ps) : AggSym (parentUpdate ps key nm pn) := by
  cases hf : findParentKey ps pn with
  | none =>
    unfold parentUpdate
    rw [hf]
    exact h
  | some kq =>
    obtain ⟨pk, parent⟩ := kq
    obtain ⟨hmem, _⟩ := findParentKey_mem hf
    have hcontpk : alContains ps pk = true := mem_contains hmem
    have hpar : lowerStr parent.name = pk.1 := hkn (pk, parent) hmem
    unfold parentUpdate
    rw [hf]
    refine @aggSym_addPC ps _ key.1 pk.1 ?_ ?_ ?_ h
    · intro m n
      exact fieldRel_alUpd_eq_twice (fun v => (guardAppend_children_keeps nm v).2.1)
        (fun v => (guardAppend_parents_keeps parent.name v).2.1) m n
    · intro m n
      simp only [ParentsRel]
      rw [fieldRel_addName (fun v => guardAppend_parents parent.name v) m n]
      rw [fieldRel_alUpd_eq (fun v => (guardAppend_children_keeps nm v).1) m n]
      rw [alContains_alUpd, hkey, hpar]
      tauto
    · intro m n
      simp only [ChildrenRel]
      rw [fieldRel_alUpd_eq (fun v => (guardAppend_parents_keeps parent.name v).1) m n]
      rw [fieldRel_addName (fun v => guardAppend_children nm v) m n]
      rw [hcontpk, hnm]
      tauto

end DxClan

namespace DxClan

theorem buildStep_inv (st : BuildState) (ec : EntryCtx)
    (h1 : KeysNodup st.persons) (h2 : KeyName st.persons) (h3 : AggSym st.persons) :
    KeysNodup (buildStep st ec).persons ∧ KeyName (buildStep st ec).persons ∧
      AggSym (buildStep st ec).persons := by
  obtain ⟨e, parentName⟩ := ec
  unfold buildStep
  dsimp only
  have c1 : alContains (if alContains st.persons (keyOf e) then st.persons
      else st.persons ++ [(keyOf e, mkPerson e)]) (keyOf e) = true := by
    split
    · next hc => exact hc
    · exact alContains_append_one _ _ _
  have n1 : KeysNodup (if alContains st.persons (keyOf e) then st.persons
      else st.persons ++ [(keyOf e, mkPerson e)]) := by
    split
    · exact h1
    · next hc => exact keysNodup_append _ h1 (by simpa using hc)
  have k1 : KeyName (if alContains st.persons (keyOf e) then st.persons
      else st.persons ++ [(keyOf e, mkPerson e)]) := by
    split
    · exact h2
    · exact keyName_append rfl h2
  have a1 : AggSym (if alContains st.persons (keyOf e) then st.persons
      else st.persons ++ [(keyOf e, mkPerson e)]) := by
    split
    · exact h3
    · refine aggSym_of_iff ?_ ?_ ?_ h3
      · intro m n
        exact @fieldRel_append_empty Person.spouses _ _ _ rfl m n
      · intro m n
        exact @fieldRel_append_empty Person.parents _ _ _ rfl m n
      · intro m n
        exact @fieldRel_append_empty Person.children _ _ _ rfl m n
  have c2 : alContains (alUpd (if alContains st.persons (keyOf e) then st.persons
      else st.persons ++ [(keyOf e, mkPerson e)]) (keyOf e) (fillPerson e))
      (keyOf e) = true := by
    rw [alContains_alUpd]
    exact c1
  have n2 : KeysNodup (alUpd (if alContains st.persons (keyOf e) then st.persons
      else st.persons ++ [(keyOf e, mkPerson e)]) (keyOf e) (fillPerson e)) :=
    keysNodup_alUpd _ _ n1
  have k2 : KeyName (alUpd (if alContains st.persons (keyOf e) then st.persons
      else st.persons ++ [(keyOf e, mkPerson e)]) (keyOf e) (fillPerson e)) :=
    keyName_alUpd (fun v => (fillPerson_fields e v).2.2.2) k1
  have a2 : AggSym (alUpd (if alContains st.persons (keyOf e) then st.persons
      else st.persons ++ [(keyOf e, mkPerson e)]) (keyOf e) (fillPerson e)) := by
    refine aggSym_of_iff ?_ ?_ ?_ a1
    · intro m n
      exact fieldRel_alUpd_eq (fun v => (fillPerson_fields e v).2.2.1) m n
    · intro m n
      exact fieldRel_alUpd_eq (fun v => (fillPerson_fields e v).1) m n
    · intro m n
      exact fieldRel_alUpd_eq (fun v => (fillPerson_fields e v).2.1) m n
  split
  · split
    · refine ⟨?_, ?_, ?_⟩
      · exact keysNodup_of_map_fst_eq (spouseUpdate_map_fst _ _ _ _) n2
      · exact spouseUpdate_keyName _ _ _ k2
      · exact spouseUpdate_aggSym k2 c2 rfl a2
    · exact ⟨n2, k2, a2⟩
  · split
    · split
      · refine ⟨?_, ?_, ?_⟩
        · exact keysNodup_of_map_fst_eq (parentUpdate_map_fst _ _ _ _) n2
        · exact parentUpdate_keyName _ _ _ k2
        · exact parentUpdate_aggSym k2 c2 rfl a2
      · exact ⟨n2, k2, a2⟩
    · exact ⟨n2, k2, a2⟩

theorem buildRun_inv (entries : List EntryCtx) (st : BuildState)
    (h1 : KeysNodup st.persons) (h2 : KeyName st.persons) (h3 : AggSym st.persons) :
    KeysNodup (buildRun st entries).persons ∧ KeyName (buildRun st entries).persons ∧
      AggSym (buildRun st entries).persons := by
  induction entries generalizing st with
  | nil => exact ⟨h1, h2, h3⟩
  | cons hd tl ih =>
    obtain ⟨g1, g2, g3⟩ := buildStep_inv st hd h1 h2 h3
    exact ih (buildStep st hd) g1 g2 g3

theorem aggSym_nil : AggSym ([] : Registry) := by
  intro m n
  constructor
  · constructor <;> (rintro ⟨kp, hkp, -⟩; exact absurd hkp (List.not_mem_nil _))
  · constructor <;> (rintro ⟨kp, hkp, -⟩; exact absurd hkp (List.not_mem_nil _))

theorem build_inv (entries : List EntryCtx) :
    KeysNodup (build_persons_dict entries) ∧ KeyName (build_persons_dict entries) ∧
      AggSym (build_persons_dict entries) := by
  have h := buildRun_inv entries initBuildState List.nodup_nil
    (fun kp hkp => absurd hkp (List.not_mem_nil _)) aggSym_nil
  exact h

end DxClan

namespace DxClan

/-! ## C5: merge_duplicates is the identity on registries with unique norms -/

theorem keysNodup_of_uniqueNorms {reg : Registry} (h : UniqueNorms reg) :
    KeysNodup reg := by
  unfold KeysNodup
  have h2 : ((reg.map Prod.fst).map (fun k => k.1)).Nodup := by
    rw [List.map_map]
    exact h
  exact List.Nodup.of_map _ h2

theorem alContains_append_of_ne {κ ν : Type} [DecidableEq κ] (l : List (κ × ν)) {a k : κ}
    (v : ν) (hne : k ≠ a) : alContains (l ++ [(a, v)]) k = alContains l k := by
  induction l with
  | nil => simp [alContains, alGet, Ne.symm hne]
  | cons hd t ih =>
    obtain ⟨k0, w⟩ := hd
    by_cases hk : k0 = k <;> simp [alContains, alGet, hk] at * <;> exact ih

theorem groupAux_fresh (l : List (Key × Person)) (acc : List (Str × List (Key × Person)))
    (hfresh : ∀ kp ∈ l, alContains acc kp.1.1 = false)
    (hnd : (l.map (fun kp => kp.1.1)).Nodup) :
    l.foldl addToGroup acc = acc ++ l.map (fun kp => (kp.1.1, [kp])) := by
  induction l generalizing acc with
  | nil => simp
  | cons hd tl ih =>
    simp only [List.map_cons, List.nodup_cons] at hnd
    have hhd : alContains acc hd.1.1 = false := hfresh hd (List.mem_cons_self _ _)
    have hstep : addToGroup acc hd = acc ++ [(hd.1.1, [hd])] := by
      unfold addToGroup
      rw [hhd]
      simp
    rw [List.foldl_cons, hstep, ih (acc ++ [(hd.1.1, [hd])]) ?_ hnd.2]
    · simp
    · intro kp hkp
      have hne : kp.1.1 ≠ hd.1.1 := by
        intro he
        exact hnd.1 (List.mem_map.mpr ⟨kp, hkp, he⟩)
      rw [alContains_append_of_ne _ _ hne]
      exact hfresh kp (List.mem_cons_of_mem _ hkp)

theorem groupByName_of_unique (reg : Registry) (h : UniqueNorms reg) :
    groupByName reg = reg.map (fun kp => (kp.1.1, [kp])) := by
  unfold groupByName
  rw [groupAux_fresh reg [] (fun kp _ => rfl) h]
  simp

theorem setFold_fresh (l : List (Key × Person)) (acc : Registry)
    (hfresh : ∀ kp ∈ l, alContains acc kp.1 = false)
    (hnd : (l.map Prod.fst).Nodup) :
    l.foldl (fun m kp => alSet m kp.1 kp.2) acc = acc ++ l := by
  induction l generalizing acc with
  | nil => simp
  | cons hd tl ih =>
    simp only [List.map_cons, List.nodup_cons] at hnd
    have hhd : alContains acc hd.1 = false := hfresh hd (List.mem_cons_self _ _)
    have hstep : alSet acc hd.1 hd.2 = acc ++ [hd] := by
      unfold alSet
      rw [hhd]
      simp
    rw [List.foldl_cons, hstep, ih (acc ++ [hd]) ?_ hnd.2]
    · simp
    · intro kp hkp
      have hne : kp.1 ≠ hd.1 := by
        intro he
        exact hnd.1 (List.mem_map.mpr ⟨kp, hkp, he⟩)
      rw [alContains_append_of_ne _ _ hne]
      exact hfresh kp (List.mem_cons_of_mem _ hkp)

theorem groupFold_singletons (l : List (Key × Person)) (acc : Registry) :
    (l.map (fun kp => (kp.1.1, [kp]))).foldl (fun merged g => mergeGroupInto merged g.2) acc
      = l.foldl (fun m kp => alSet m kp.1 kp.2) acc := by
  induction l generalizing acc with
  | nil => rfl
  | cons hd tl ih => exact ih (alSet acc hd.1 hd.2)

theorem merge_duplicates_of_unique (reg : Registry) (h : UniqueNorms reg) :
    merge_duplicates reg = reg := by
  unfold merge_duplicates
  rw [groupByName_of_unique reg h, groupFold_singletons reg []]
  rw [setFold_fresh reg [] (fun kp _ => rfl) (keysNodup_of_uniqueNorms h)]
  simp

end DxClan

namespace DxClan

/-! ## C5: the by_name alias table of share_children_between_spouses -/

theorem alContains_alSet_self {κ ν : Type} [DecidableEq κ] (l : List (κ × ν)) (a : κ)
    (v : ν) : alContains (alSet l a v) a = true :=
  mem_contains (mem_alSet_self l a v)

theorem alContains_alSet_mono {κ ν : Type} [DecidableEq κ] (l : List (κ × ν)) (a k : κ)
    (v : ν) (h : alContains l k = true) : alContains (alSet l a v) k = true := by
  unfold alSet
  split
  · rw [alContains_alUpd]
    exact h
  · exact alContains_append_mono _ _ _ h

theorem byNameLastAux_inv (l : List (Key × Person)) (ks : List Key) :
    ∀ (acc : List (Str × Key)), (∀ kp ∈ l, kp.1 ∈ ks) →
      (∀ x ∈ acc, x.2.1 = x.1 ∧ x.2 ∈ ks) →
      ∀ x ∈ l.foldl (fun acc kp => alSet acc kp.1.1 kp.1) acc,
        x.2.1 = x.1 ∧ x.2 ∈ ks := by
  induction l with
  | nil => exact fun acc _ hacc => hacc
  | cons hd tl ih =>
    intro acc hl hacc
    refine ih _ (fun kp hkp => hl kp (List.mem_cons_of_mem _ hkp)) ?_
    intro x hx
    rcases mem_alSet hx with hin | heq
    · exact hacc x hin
    · rw [heq]
      exact ⟨rfl, hl hd (List.mem_cons_self _ _)⟩

theorem byNameLastAux_mono (l : List (Key × Person)) (acc : List (Str × Key)) {n : Str}
    (h : alContains acc n = true) :
    alContains (l.foldl (fun acc kp => alSet acc kp.1.1 kp.1) acc) n = true := by
  induction l generalizing acc with
  | nil => exact h
  | cons hd tl ih => exact ih _ (alContains_alSet_mono _ _ _ _ h)

theorem byNameLastAux_covers (l : List (Key × Person)) (acc : List (Str × Key)) {n : Str}
    (h : n ∈ l.map (fun kp => kp.1.1)) :
    alContains (l.foldl (fun acc kp => alSet acc kp.1.1 kp.1) acc) n = true := by
  induction l generalizing acc with
  | nil => exact absurd h (List.not_mem_nil _)
  | cons hd tl ih =>
    rcases List.mem_cons.mp h with heq | hmem
    · subst heq
      exact byNameLastAux_mono tl (alSet acc hd.1.1 hd.1)
        (alContains_alSet_self acc hd.1.1 hd.1)
    · exact ih _ hmem

theorem byNameLast_sound (ps : Registry) {n : Str} {k : Key}
    (h : alGet (byNameLast ps) n = some k) : k.1 = n ∧ k ∈ ps.map Prod.fst := by
  have hmem := alGet_mem h
  have h2 := byNameLastAux_inv ps (ps.map Prod.fst) []
    (fun kp hkp => List.mem_map.mpr ⟨kp, hkp, rfl⟩)
    (fun x hx => absurd hx (List.not_mem_nil _)) (n, k) hmem
  exact h2

theorem byNameLast_covers (ps : Registry) {n : Str}
    (h : n ∈ ps.map (fun kp => kp.1.1)) : alContains (byNameLast ps) n = true :=
  byNameLastAux_covers ps [] h

end DxClan

namespace DxClan

theorem shareStep_map_fst (byn : List (Str × Key)) (reg : Registry) (key : Key) :
    (shareStep byn reg key).map Prod.fst = reg.map Prod.fst := by
  unfold shareStep
  repeat' split
  all_goals simp only [alUpd_map_fst]

theorem shareStep_keyName (byn : List (Str × Key)) {reg : Registry} (key : Key)
    (h : KeyName reg) : KeyName (shareStep byn reg key) := by
  unfold shareStep
  repeat' split
  all_goals
    first
      | exact h
      | exact keyName_alUpd (fun v => rfl) h
      | exact keyName_alUpd (fun v => (guardAppend_children_keeps _ v).2.2)
          (keyName_alUpd (fun v => rfl) h)

theorem shareStep_aggSym {byn : List (Str × Key)} {reg : Registry} {key : Key}
    (hsound : ∀ n k, alGet byn n = some k → k.1 = n ∧ k ∈ reg.map Prod.fst)
    (hcovers : ∀ k : Key, k ∈ reg.map Prod.fst → alContains byn k.1 = true)
    (hkn : KeyName reg) (h : AggSym reg) : AggSym (shareStep byn reg key) := by
  unfold shareStep
  split
  · exact h
  next person h1 =>
    split
    · exact h
    · split
      · exact h
      next parentName h3 =>
        split
        · exact h
        next pk h4 =>
          split
          · exact h
          next parent h5 =>
            split
            · exact h
            next spouseName h6 =>
              have hmemp : (pk, parent) ∈ reg := alGet_mem h5
              have hsp : spouseName ∈ parent.spouses := List.mem_of_find?_eq_some h6
              split
              · next h7 =>
                exfalso
                have hrel : SpousesRel reg pk.1 (lowerStr spouseName) :=
                  ⟨(pk, parent), hmemp, rfl, List.mem_map.mpr ⟨spouseName, hsp, rfl⟩⟩
                have hrel2 := ((h pk.1 (lowerStr spouseName)).1).mp hrel
                obtain ⟨kq, hkq, hkqn, -⟩ := hrel2
                have hc := hcovers kq.1 (List.mem_map.mpr ⟨kq, hkq, rfl⟩)
                rw [hkqn] at hc
                rw [alContains, h7] at hc
                exact absurd hc (by decide)
              next sk h7 =>
                have hmemk : (key, person) ∈ reg := alGet_mem h1
                have hck : alContains reg key = true := by rw [alContains, h1]; rfl
                have hperson : lowerStr person.name = key.1 := hkn _ hmemk
                obtain ⟨hsk1, hskmem⟩ := hsound _ _ h7
                have hsk_cont : alContains (alUpd reg key (fun p =>
                    { p with parents := p.parents ++ [spouseName] })) sk = true := by
                  apply mem_keys_contains
                  rw [alUpd_map_fst]
                  exact hskmem
                refine @aggSym_addPC reg _ key.1 sk.1 ?_ ?_ ?_ h
                · intro m n
                  simp only [SpousesRel]
                  rw [fieldRel_alUpd_eq
                    (fun v => (guardAppend_children_keeps person.name v).2.1) m n]
                  rw [@fieldRel_alUpd_eq Person.spouses reg key
                    (fun p => { p with parents := p.parents ++ [spouseName] })
                    (fun v => rfl) m n]
                · intro m n
                  simp only [ParentsRel]
                  rw [fieldRel_alUpd_eq
                    (fun v => (guardAppend_children_keeps person.name v).1) m n]
                  rw [fieldRel_addName (fun v => Or.inr rfl) m n]
                  rw [hck, ← hsk1]
                  tauto
                · intro m n
                  simp only [ChildrenRel]
                  rw [fieldRel_addName (fun v => guardAppend_children person.name v) m n]
                  rw [@fieldRel_alUpd_eq Person.children reg key
                    (fun p => { p with parents := p.parents ++ [spouseName] })
                    (fun v => rfl) m n]
                  rw [hsk_cont, hperson]
                  tauto

end DxClan

namespace DxClan

theorem shareFold_inv (byn : List (Str × Key)) (ks0 : List Key) (keys : List Key) :
    ∀ (reg : Registry),
      (∀ n k, alGet byn n = some k → k.1 = n ∧ k ∈ ks0) →
      (∀ k : Key, k ∈ ks0 → alContains byn k.1 = true) →
      reg.map Prod.fst = ks0 → KeyName reg → AggSym reg →
      (keys.foldl (shareStep byn) reg).map Prod.fst = ks0 ∧
        KeyName (keys.foldl (shareStep byn) reg) ∧
        AggSym (keys.foldl (shareStep byn) reg) := by
  induction keys with
  | nil => exact fun reg _ _ hfst hkn h => ⟨hfst, hkn, h⟩
  | cons hd tl ih =>
    intro reg hsound hcovers hfst hkn h
    refine ih (shareStep byn reg hd) hsound hcovers ?_ (shareStep_keyName _ _ hkn) ?_
    · rw [shareStep_map_fst]
      exact hfst
    · refine shareStep_aggSym ?_ ?_ hkn h
      · intro n k hk
        rw [hfst]
        exact hsound n k hk
      · intro k hk
        rw [hfst] at hk
        exact hcovers k hk

theorem share_inv (reg : Registry) (hkn : KeyName reg) (h : AggSym reg) :
    (share_children_between_spouses reg).map Prod.fst = reg.map Prod.fst ∧
      KeyName (share_children_between_spouses reg) ∧
      AggSym (share_children_between_spouses reg) := by
  unfold share_children_between_spouses
  refine shareFold_inv (byNameLast reg) (reg.map Prod.fst) (reg.map (·.1)) reg
    ?_ ?_ rfl hkn h
  · intro n k hk
    exact byNameLast_sound reg hk
  · intro k hk
    obtain ⟨kp, hkp, hke⟩ := List.mem_map.mp hk
    refine byNameLast_covers reg ?_
    rw [← hke]
    exact List.mem_map.mpr ⟨kp, hkp, rfl⟩

/-- The member-level symmetry statement follows from aggregate symmetry on a
registry whose normalized names are unique. -/
theorem normSym_of_aggSym {reg : Registry} (hu : UniqueNorms reg) (hkn : KeyName reg)
    (h : AggSym reg) : NormSym reg := by
  intro kA hA kB hB
  have hAn : lowerStr kA.2.name = kA.1.1 := hkn kA hA
  have hBn : lowerStr kB.2.name = kB.1.1 := hkn kB hB
  have huniq : ∀ kp ∈ reg, ∀ kq ∈ reg, kp.1.1 = kq.1.1 → kp = kq := by
    intro kp hp kq hq he
    have : ∀ {l : List (Key × Person)}, (l.map (fun x => x.1.1)).Nodup →
        ∀ {a b : Key × Person}, a ∈ l → b ∈ l → a.1.1 = b.1.1 → a = b := by
      intro l hl a b ha hb hab
      induction l with
      | nil => exact absurd ha (List.not_mem_nil _)
      | cons hd tl ih =>
        simp only [List.map_cons, List.nodup_cons] at hl
        rcases List.mem_cons.mp ha with rfl | ha2
        · rcases List.mem_cons.mp hb with rfl | hb2
          · rfl
          · exact absurd (List.mem_map.mpr ⟨b, hb2, hab.symm⟩) hl.1
        · rcases List.mem_cons.mp hb with rfl | hb2
          · exact absurd (List.mem_map.mpr ⟨a, ha2, hab⟩) hl.1
          · exact ih hl.2 ha2 hb2
    exact this hu hp hq he
  constructor
  · rw [hAn, hBn]
    constructor
    · intro hmem
      have hr : SpousesRel reg kA.1.1 kB.1.1 := ⟨kA, hA, rfl, hmem⟩
      obtain ⟨kq, hq, hq1, hq2⟩ := ((h kA.1.1 kB.1.1).1).mp hr
      have : kq = kB := huniq kq hq kB hB hq1
      rw [← this]
      exact hq2
    · intro hmem
      have hr : SpousesRel reg kB.1.1 kA.1.1 := ⟨kB, hB, rfl, hmem⟩
      obtain ⟨kq, hq, hq1, hq2⟩ := ((h kA.1.1 kB.1.1).1).mpr hr
      have : kq = kA := huniq kq hq kA hA hq1
      rw [← this]
      exact hq2
  · rw [hAn, hBn]
    constructor
    · intro hmem
      have hr : ParentsRel reg kA.1.1 kB.1.1 := ⟨kA, hA, rfl, hmem⟩
      obtain ⟨kq, hq, hq1, hq2⟩ := ((h kA.1.1 kB.1.1).2).mp hr
      have : kq = kB := huniq kq hq kB hB hq1
      rw [← this]
      exact hq2
    · intro hmem
      have hr : ChildrenRel reg kB.1.1 kA.1.1 := ⟨kB, hB, rfl, hmem⟩
      obtain ⟨kq, hq, hq1, hq2⟩ := ((h kA.1.1 kB.1.1).2).mpr hr
      have : kq = kA := huniq kq hq kA hA hq1
      rw [← this]
      exact hq2

end DxClan

namespace DxClan

/-! ## C5: the claim theorems -/

/-- C5 (corrected): reference symmetry holds at every pipeline stage when
names are compared after lowercasing (the code keys records by lowercased
name but stores raw-cased names in the reference lists), and provided the
built registry has pairwise-distinct normalized names, so that
merge_duplicates does not collapse groups.  Then for any two records A and
B: B's normalized name is among A's normalized spouses iff A's normalized
name is among B's normalized spouses, and B's normalized name is among A's
normalized parents iff A's normalized name is among B's normalized
children — after build_persons_dict, after merge_duplicates, and after
share_children_between_spouses. -/
theorem c5_reference_symmetry (entries : List EntryCtx)
    (hu : UniqueNorms (build_persons_dict entries)) :
    NormSym (build_persons_dict entries) ∧
      NormSym (merge_duplicates (build_persons_dict entries)) ∧
      NormSym (exportPipeline entries) := by
  obtain ⟨hnd, hkn, hagg⟩ := build_inv entries
  have hme : merge_duplicates (build_persons_dict entries) = build_persons_dict entries :=
    merge_duplicates_of_unique _ hu
  have h1 : NormSym (build_persons_dict entries) := normSym_of_aggSym hu hkn hagg
  have h2 : NormSym (merge_duplicates (build_persons_dict entries)) := by
    rw [hme]
    exact h1
  obtain ⟨hfst, hkn3, hagg3⟩ := share_inv (merge_duplicates (build_persons_dict entries))
    (by rw [hme]; exact hkn) (by rw [hme]; exact hagg)
  have e1 : ∀ (r : Registry), r.map (fun kp => kp.1.1) = (r.map Prod.fst).map (fun k => k.1) := by
    intro r
    rw [List.map_map]
    rfl
  have hu3 : UniqueNorms (share_children_between_spouses
      (merge_duplicates (build_persons_dict entries))) := by
    have heq : (share_children_between_spouses
        (merge_duplicates (build_persons_dict entries))).map (fun kp => kp.1.1) =
        (build_persons_dict entries).map (fun kp => kp.1.1) := by
      rw [e1, hfst, hme, ← e1]
    unfold UniqueNorms
    rw [heq]
    exact hu
  exact ⟨h1, h2, normSym_of_aggSym hu3 hkn3 hagg3⟩

/-- C5 counterexample to the claim as stated (raw-name symmetry): the OCR
case variants BOB and Bob share the registry key ("bob", None), so after
build_persons_dict the single record named "BOB" lists "Carol" as a spouse
while Carol's record lists only "Bob" — "BOB" itself appears in nobody's
spouse list, breaking the literal-name iff. -/
theorem c5_counterexample :
    ∃ kA ∈ build_persons_dict
      [ (⟨some 1, false, false, "Alice".toList, none, false, none, false⟩, none),
        (⟨some 0, true, false, "BOB".toList, none, false, none, false⟩, none),
        (⟨some 1, false, false, "Carol".toList, none, false, none, false⟩, none),
        (⟨some 0, true, false, "Bob".toList, none, false, none, false⟩, none) ],
      ∃ kB ∈ build_persons_dict
        [ (⟨some 1, false, false, "Alice".toList, none, false, none, false⟩, none),
          (⟨some 0, true, false, "BOB".toList, none, false, none, false⟩, none),
          (⟨some 1, false, false, "Carol".toList, none, false, none, false⟩, none),
          (⟨some 0, true, false, "Bob".toList, none, false, none, false⟩, none) ],
        kB.2.name ∈ kA.2.spouses ∧ kA.2.name ∉ kB.2.spouses := by
  decide

/-- C5 witness: the corrected symmetry theorem applied to a concrete run
(Ann with spouse Eve, their child Kim) whose built registry has unique
normalized names. -/
theorem c5_reference_symmetry_witness :
    NormSym (exportPipeline
      [ (⟨some 1, false, false, "Ann".toList, none, false, none, false⟩, none),
        (⟨some 0, true, false, "Eve".toList, none, false, none, false⟩, none),
        (⟨some 2, false, false, "Kim".toList, none, false, none, false⟩, some "Ann".toList),
        (⟨some 2, false, false, "Kim".toList, none, false, none, false⟩, some "Eve".toList) ]) :=
  (c5_reference_symmetry
    [ (⟨some 1, false, false, "Ann".toList, none, false, none, false⟩, none),
      (⟨some 0, true, false, "Eve".toList, none, false, none, false⟩, none),
      (⟨some 2, false, false, "Kim".toList, none, false, none, false⟩, some "Ann".toList),
      (⟨some 2, false, false, "Kim".toList, none, false, none, false⟩, some "Eve".toList) ]
    (by decide)).2.2

end DxClan

namespace DxClan

/-! ## C6: basic facts about the clean_line scanners -/

theorem months_shape : ∀ m ∈ months,
    m.map isUpperC = [true, false, false] ∧ m.map isLowerC = [false, true, true] := by
  decide

theorem months_upper {a b c : Char} (h : [a, b, c] ∈ months) :
    isUpperC a = true ∧ isLowerC b = true ∧ isLowerC c = true := by
  obtain ⟨h1, h2⟩ := months_shape _ h
  simp only [List.map_cons, List.map_nil, List.cons.injEq, and_true] at h1 h2
  exact ⟨h1.1, h2.2.1, h2.2.2⟩

theorem upper_not_lower {c : Char} (h : isUpperC c = true) : isLowerC c = false := by
  unfold isUpperC at h
  unfold isLowerC
  rw [decide_eq_true_iff] at h
  rw [decide_eq_false_iff_not]
  intro h2
  exact absurd (lt_of_le_of_lt h.2 (by decide : ('Z' : Char) < 'a')) (not_lt.mpr h2.1)

theorem upper_alpha {c : Char} (h : isUpperC c = true) : isAlphaC c = true := by
  unfold isUpperC at h
  unfold isAlphaC
  rw [decide_eq_true_iff] at h
  rw [decide_eq_true_iff]
  exact Or.inl h

theorem lower_alpha {c : Char} (h : isLowerC c = true) : isAlphaC c = true := by
  unfold isLowerC at h
  unfold isAlphaC
  rw [decide_eq_true_iff] at h
  rw [decide_eq_true_iff]
  exact Or.inr h

theorem lower_not_upper {c : Char} (h : isLowerC c = true) : isUpperC c = false := by
  unfold isLowerC at h
  unfold isUpperC
  rw [decide_eq_true_iff] at h
  rw [decide_eq_false_iff_not]
  intro h2
  exact absurd (lt_of_le_of_lt h2.2 (by decide : ('Z' : Char) < 'a')) (not_lt.mpr h.1)

theorem digit_not_upper {c : Char} (h : isDigitC c = true) : isUpperC c = false := by
  unfold isDigitC Char.isDigit at h
  unfold isUpperC
  rw [decide_eq_false_iff_not]
  intro h2
  simp only [Bool.and_eq_true, decide_eq_true_eq] at h
  exact absurd (lt_of_le_of_lt h.2 (by decide : ('9' : Char) < 'A')) (not_lt.mpr h2.1)

theorem digit_not_alpha {c : Char} (h : isDigitC c = true) : isAlphaC c = false := by
  unfold isDigitC Char.isDigit at h
  unfold isAlphaC
  rw [decide_eq_false_iff_not]
  simp only [Bool.and_eq_true, decide_eq_true_eq] at h
  rintro (h2 | h2)
  · exact absurd (lt_of_le_of_lt h.2 (by decide : ('9' : Char) < 'A')) (not_lt.mpr h2.1)
  · exact absurd (lt_of_le_of_lt h.2 (by decide : ('9' : Char) < 'a')) (not_lt.mpr h2.1)

theorem space_not_upper {c : Char} (h : isSpaceC c = true) : isUpperC c = false := by
  unfold isSpaceC at h
  rw [decide_eq_true_iff] at h
  rcases h with h | h | h | h | h | h <;> subst h <;> decide

theorem space_not_alpha {c : Char} (h : isSpaceC c = true) : isAlphaC c = false := by
  unfold isSpaceC at h
  rw [decide_eq_true_iff] at h
  rcases h with h | h | h | h | h | h <;> subst h <;> decide

theorem space_not_digit {c : Char} (h : isSpaceC c = true) : isDigitC c = false := by
  unfold isSpaceC at h
  rw [decide_eq_true_iff] at h
  rcases h with h | h | h | h | h | h <;> subst h <;> decide

theorem digit_not_space {c : Char} (h : isDigitC c = true) : isSpaceC c = false := by
  by_cases hs : isSpaceC c = true
  · rw [space_not_digit hs] at h
    exact absurd h (by decide)
  · exact Bool.eq_false_iff.mpr hs

theorem alpha_not_space {c : Char} (h : isAlphaC c = true) : isSpaceC c = false := by
  by_cases hs : isSpaceC c = true
  · rw [space_not_alpha hs] at h
    exact absurd h (by decide)
  · exact Bool.eq_false_iff.mpr hs

theorem digit_word {c : Char} (h : isDigitC c = true) : isWordChar c = true := by
  unfold isWordChar Char.isAlphanum
  unfold isDigitC at h
  rw [h]
  simp

theorem digit_ne_semi {c : Char} (h : isDigitC c = true) : c ≠ ';' := by
  intro he
  subst he
  exact absurd h (by decide)

theorem digit_ne_dot {c : Char} (h : isDigitC c = true) : c ≠ '.' := by
  intro he
  subst he
  exact absurd h (by decide)

theorem space_ne_semi {c : Char} (h : isSpaceC c = true) : c ≠ ';' := by
  intro he
  subst he
  exact absurd h (by decide)

theorem space_ne_dot {c : Char} (h : isSpaceC c = true) : c ≠ '.' := by
  intro he
  subst he
  exact absurd h (by decide)

theorem space_not_word {c : Char} (h : isSpaceC c = true) : isWordChar c = false := by
  unfold isSpaceC at h
  rw [decide_eq_true_iff] at h
  rcases h with h | h | h | h | h | h <;> subst h <;> decide

end DxClan

namespace DxClan

theorem takeWhile_append_all {α : Type} {p : α → Bool} {w : List α} (t : List α)
    (hw : ∀ c ∈ w, p c = true) : (w ++ t).takeWhile p = w ++ t.takeWhile p := by
  induction w with
  | nil => rfl
  | cons c w' ih =>
    have hc := hw c (List.mem_cons_self _ _)
    have ih2 := ih (fun d hd => hw d (List.mem_cons_of_mem _ hd))
    simp [List.takeWhile_cons, hc, ih2]

theorem dropWhile_append_all {α : Type} {p : α → Bool} {w : List α} (t : List α)
    (hw : ∀ c ∈ w, p c = true) : (w ++ t).dropWhile p = t.dropWhile p := by
  induction w with
  | nil => rfl
  | cons c w' ih =>
    have hc := hw c (List.mem_cons_self _ _)
    have ih2 := ih (fun d hd => hw d (List.mem_cons_of_mem _ hd))
    simp [List.dropWhile_cons, hc, ih2]

theorem takeWhile_all {α : Type} {p : α → Bool} (l : List α) :
    ∀ c ∈ l.takeWhile p, p c = true := by
  intro c hc
  exact List.mem_takeWhile_imp hc

theorem span_decomp {α : Type} (p : α → Bool) (l : List α) :
    l = (l.span p).1 ++ (l.span p).2 := by
  rw [List.span_eq_take_drop]
  exact (List.takeWhile_append_dropWhile p l).symm

theorem monthAt_sound {s mon rest : Str} (h : monthAt s = some (mon, rest)) :
    s = mon ++ rest ∧ mon ∈ months ∧
      ∃ a b c, mon = [a, b, c] ∧ isUpperC a = true ∧ isLowerC b = true ∧
        isLowerC c = true := by
  cases s with
  | nil => simp [monthAt] at h
  | cons a t =>
  cases t with
  | nil => simp [monthAt] at h
  | cons b t2 =>
  cases t2 with
  | nil => simp [monthAt] at h
  | cons c r =>
  simp only [monthAt] at h
  by_cases hm : [a, b, c] ∈ months
  · rw [if_pos hm] at h
    have h0 := Option.some_inj.mp h
    have h1 : [a, b, c] = mon := congrArg Prod.fst h0
    have h2 : r = rest := congrArg Prod.snd h0
    subst h1
    subst h2
    obtain ⟨u1, u2, u3⟩ := months_upper hm
    exact ⟨rfl, hm, a, b, c, rfl, u1, u2, u3⟩
  · rw [if_neg hm] at h
    exact absurd h (by simp)

theorem monthAt_none_of_head {s : Str} (h : ∀ c cs, s = c :: cs → isUpperC c = false) :
    monthAt s = none := by
  cases s with
  | nil => rfl
  | cons a t =>
  cases t with
  | nil => rfl
  | cons b t2 =>
  cases t2 with
  | nil => rfl
  | cons c r =>
  have hnm : [a, b, c] ∉ months := by
    intro hm
    have hu := (months_upper hm).1
    rw [h a (b :: c :: r) rfl] at hu
    exact absurd hu (by decide)
  simp only [monthAt, if_neg hnm]

theorem tryP1_none_of_head {p : Option Char} {s : Str}
    (h : ∀ c cs, s = c :: cs → isUpperC c = false) : tryP1 p s = none := by
  unfold tryP1
  split
  · rfl
  · rw [monthAt_none_of_head h]

theorem tryP2_none_of_head {p : Option Char} {s : Str}
    (h : ∀ c cs, s = c :: cs → isUpperC c = false) : tryP2 p s = none := by
  unfold tryP2
  split
  · rfl
  · rw [monthAt_none_of_head h]

theorem tryP3_none_of_head {p : Option Char} {s : Str}
    (h : ∀ c cs, s = c :: cs → isUpperC c = false) : tryP3 p s = none := by
  unfold tryP3
  split
  · rfl
  · rw [monthAt_none_of_head h]

theorem tryP1_nil (p : Option Char) : tryP1 p [] = none :=
  tryP1_none_of_head (fun c cs hc => absurd hc (by simp))

theorem tryP2_nil (p : Option Char) : tryP2 p [] = none :=
  tryP2_none_of_head (fun c cs hc => absurd hc (by simp))

theorem tryP3_nil (p : Option Char) : tryP3 p [] = none :=
  tryP3_none_of_head (fun c cs hc => absurd hc (by simp))

end DxClan

namespace DxClan

theorem span_fst_all {α : Type} (p : α → Bool) (l : List α) :
    ∀ c ∈ (l.span p).1, p c = true := by
  rw [List.span_eq_take_drop]
  exact takeWhile_all l

theorem tailYear_sound {s yr rest : Str} (h : tailYear s = some (yr, rest)) :
    ∃ w2 w3, (∀ c ∈ w2, isSpaceC c = true) ∧ (∀ c ∈ w3, isSpaceC c = true) ∧
      yr.length = 4 ∧ (∀ c ∈ yr, isDigitC c = true) ∧
      s = w2 ++ ';' :: (w3 ++ (yr ++ rest)) := by
  unfold tailYear at h
  split at h
  · next s2 heq =>
    split at h
    · next d1 d2 d3 d4 rest2 heq2 =>
      split at h
      · next hdig =>
        simp only [Bool.and_eq_true] at hdig
        have h0 := Option.some_inj.mp h
        have hyr : [d1, d2, d3, d4] = yr := congrArg Prod.fst h0
        have hrest : rest2 = rest := congrArg Prod.snd h0
        subst hyr
        subst hrest
        refine ⟨(s.span isSpaceC).1, (s2.span isSpaceC).1,
          span_fst_all _ _, span_fst_all _ _, rfl, ?_, ?_⟩
        · intro c hc
          simp only [List.mem_cons, List.not_mem_nil, or_false] at hc
          rcases hc with rfl | rfl | rfl | rfl
          · exact hdig.1.1.1
          · exact hdig.1.1.2
          · exact hdig.1.2
          · exact hdig.2
        · have e1 := span_decomp isSpaceC s
          rw [heq] at e1
          have e2 := span_decomp isSpaceC s2
          rw [heq2] at e2
          conv_lhs => rw [e1, e2]
          simp
      · exact absurd h (by simp)
    · exact absurd h (by simp)
  · exact absurd h (by simp)

theorem dayYear_sound {s day yr rest : Str} (h : dayYear s = some (day, yr, rest)) :
    day ≠ [] ∧ day.length ≤ 2 ∧ (∀ c ∈ day, isDigitC c = true) ∧
      ∃ w2 w3, (∀ c ∈ w2, isSpaceC c = true) ∧ (∀ c ∈ w3, isSpaceC c = true) ∧
        yr.length = 4 ∧ (∀ c ∈ yr, isDigitC c = true) ∧
        s = day ++ (w2 ++ ';' :: (w3 ++ (yr ++ rest))) := by
  unfold dayYear at h
  split at h
  case _ d1 s1 =>
    split at h
    case isTrue hd1 =>
      split at h
      case _ d2 s2 =>
        split at h
        case isTrue hd2 =>
          split at h
          case _ yr2 rest2 hty =>
            have h0 := Option.some_inj.mp h
            have hday : [d1, d2] = day := congrArg Prod.fst h0
            have hyr : yr2 = yr := congrArg (fun x => x.2.1) h0
            have hrest : rest2 = rest := congrArg (fun x => x.2.2) h0
            subst hday
            subst hyr
            subst hrest
            obtain ⟨w2, w3, hw2, hw3, hl, hd, he⟩ := tailYear_sound hty
            refine ⟨by simp, by simp, ?_, w2, w3, hw2, hw3, hl, hd, ?_⟩
            · intro c hc
              simp only [List.mem_cons, List.not_mem_nil, or_false] at hc
              rcases hc with rfl | rfl
              · exact hd1
              · exact hd2
            · conv_lhs => rw [he]
              rfl
          case _ hty0 =>
            split at h
            case _ yr2 rest2 hty =>
              have h0 := Option.some_inj.mp h
              have hday : [d1] = day := congrArg Prod.fst h0
              have hyr : yr2 = yr := congrArg (fun x => x.2.1) h0
              have hrest : rest2 = rest := congrArg (fun x => x.2.2) h0
              subst hday
              subst hyr
              subst hrest
              obtain ⟨w2, w3, hw2, hw3, hl, hd, he⟩ := tailYear_sound hty
              refine ⟨by simp, by simp, ?_, w2, w3, hw2, hw3, hl, hd, ?_⟩
              · intro c hc
                simp only [List.mem_cons, List.not_mem_nil, or_false] at hc
                rcases hc with rfl
                exact hd1
              · conv_lhs => rw [he]
                rfl
            case _ => exact absurd h (by simp)
        case isFalse hd2 =>
          split at h
          case _ yr2 rest2 hty =>
            have h0 := Option.some_inj.mp h
            have hday : [d1] = day := congrArg Prod.fst h0
            have hyr : yr2 = yr := congrArg (fun x => x.2.1) h0
            have hrest : rest2 = rest := congrArg (fun x => x.2.2) h0
            subst hday
            subst hyr
            subst hrest
            obtain ⟨w2, w3, hw2, hw3, hl, hd, he⟩ := tailYear_sound hty
            refine ⟨by simp, by simp, ?_, w2, w3, hw2, hw3, hl, hd, ?_⟩
            · intro c hc
              simp only [List.mem_cons, List.not_mem_nil, or_false] at hc
              rcases hc with rfl
              exact hd1
            · conv_lhs => rw [he]
              rfl
          case _ => exact absurd h (by simp)
      case _ => exact absurd h (by simp)
    case isFalse => exact absurd h (by simp)
  case _ => exact absurd h (by simp)

end DxClan

namespace DxClan

theorem optDot_sound (s : Str) :
    ((optDot s).1 = [] ∨ (optDot s).1 = ['.']) ∧ s = (optDot s).1 ++ (optDot s).2 := by
  cases s with
  | nil => exact ⟨Or.inl rfl, rfl⟩
  | cons c t =>
    by_cases hc : c = '.'
    · subst hc
      exact ⟨Or.inr rfl, rfl⟩
    · have hne : optDot (c :: t) = ([], c :: t) := by
        unfold optDot
        split
        · next rest heq =>
          have : c = '.' := by
            have := congrArg (fun l => l.head?) heq
            simpa using this
          exact absurd this hc
        · rfl
      rw [hne]
      exact ⟨Or.inl rfl, rfl⟩

theorem tryP1_sound {p : Option Char} {s r : Str} {lst : Char} {rest : Str}
    (h : tryP1 p s = some (r, lst, rest)) :
    ∃ mon dot w1 day w2 w3 yr,
      mon ∈ months ∧ (dot = [] ∨ dot = ['.']) ∧ (∀ c ∈ w1, isSpaceC c = true) ∧
      (dot = ['.'] ∨ w1 ≠ []) ∧
      day ≠ [] ∧ day.length ≤ 2 ∧ (∀ c ∈ day, isDigitC c = true) ∧
      (∀ c ∈ w2, isSpaceC c = true) ∧ (∀ c ∈ w3, isSpaceC c = true) ∧
      yr.length = 4 ∧ (∀ c ∈ yr, isDigitC c = true) ∧
      s = mon ++ (dot ++ (w1 ++ (day ++ (w2 ++ ';' :: (w3 ++ (yr ++ rest)))))) ∧
      r = mon ++ (dot ++ (w1 ++ (day ++ ',' :: ' ' :: yr))) ∧
      lst = yr.getLastD '0' := by
  unfold tryP1 at h
  split at h
  · exact absurd h (by simp)
  · split at h
    · exact absurd h (by simp)
    · next mon s1 heqm =>
      split at h
      · exact absurd h (by simp)
      · next hhw =>
        split at h
        next dot s2 heqd =>
        split at h
        next w1 s3 heqw =>
        split at h
        · next day yr rest2 heqdy =>
          have h0 := Option.some_inj.mp h
          have hr : mon ++ (dot ++ (w1 ++ (day ++ ',' :: ' ' :: yr))) = r := by
            have := congrArg Prod.fst h0
            simpa using this
          have hlst : yr.getLastD '0' = lst := congrArg (fun x => x.2.1) h0
          have hrest : rest2 = rest := congrArg (fun x => x.2.2) h0
          subst hrest
          obtain ⟨hs1, hmm, _⟩ := monthAt_sound heqm
          obtain ⟨hdotor, hdots⟩ := optDot_sound s1
          rw [heqd] at hdotor hdots
          have hw1 : ∀ c ∈ w1, isSpaceC c = true := by
            have := span_fst_all isSpaceC s2
            rw [heqw] at this
            exact this
          have hs2 : s2 = w1 ++ s3 := by
            have := span_decomp isSpaceC s2
            rw [heqw] at this
            exact this
          obtain ⟨hdne, hdlen, hddig, w2, w3, hw2, hw3, hyl, hyd, hs3⟩ :=
            dayYear_sound heqdy
          have hbd : dot = ['.'] ∨ w1 ≠ [] := by
            rcases hdotor with hd0 | hd0
            · by_cases hw0 : w1 = []
              · exfalso
                apply hhw
                subst hd0
                subst hw0
                rw [List.nil_append] at hdots
                rw [List.nil_append] at hs2
                rw [hdots, hs2, hs3]
                cases day with
                | nil => exact absurd rfl hdne
                | cons d dt =>
                  show headWord (d :: _) = true
                  unfold headWord
                  exact digit_word (hddig d (List.mem_cons_self _ _))
              · exact Or.inr hw0
            · exact Or.inl hd0
          refine ⟨mon, dot, w1, day, w2, w3, yr, hmm, hdotor, hw1, hbd, hdne, hdlen,
            hddig, hw2, hw3, hyl, hyd, ?_, hr.symm, hlst.symm⟩
          rw [hs1, hdots, hs2, hs3]
        · exact absurd h (by simp)

theorem tryP2_sound {p : Option Char} {s r : Str} {lst : Char} {rest : Str}
    (h : tryP2 p s = some (r, lst, rest)) :
    ∃ mon dot w2 w3 yr,
      mon ∈ months ∧ (dot = [] ∨ dot = ['.']) ∧
      (∀ c ∈ w2, isSpaceC c = true) ∧ (∀ c ∈ w3, isSpaceC c = true) ∧
      yr.length = 4 ∧ (∀ c ∈ yr, isDigitC c = true) ∧
      s = mon ++ (dot ++ (w2 ++ ';' :: (w3 ++ (yr ++ rest)))) ∧
      r = mon ++ (dot ++ ' ' :: yr) ∧
      lst = yr.getLastD '0' := by
  unfold tryP2 at h
  split at h
  · exact absurd h (by simp)
  · split at h
    · exact absurd h (by simp)
    · next mon s1 heqm =>
      split at h
      · exact absurd h (by simp)
      · next hhw =>
        split at h
        next dot s2 heqd =>
        split at h
        · next yr rest2 heqty =>
          have h0 := Option.some_inj.mp h
          have hr : mon ++ (dot ++ ' ' :: yr) = r := by
            have := congrArg Prod.fst h0
            simpa using this
          have hlst : yr.getLastD '0' = lst := congrArg (fun x => x.2.1) h0
          have hrest : rest2 = rest := congrArg (fun x => x.2.2) h0
          subst hrest
          obtain ⟨hs1, hmm, _⟩ := monthAt_sound heqm
          obtain ⟨hdotor, hdots⟩ := optDot_sound s1
          rw [heqd] at hdotor hdots
          obtain ⟨w2, w3, hw2, hw3, hyl, hyd, hs2⟩ := tailYear_sound heqty
          refine ⟨mon, dot, w2, w3, yr, hmm, hdotor, hw2, hw3, hyl, hyd, ?_,
            hr.symm, hlst.symm⟩
          rw [hs1, hdots, hs2]
        · exact absurd h (by simp)

end DxClan

namespace DxClan

theorem tailEnd_sound {s : Str} (h : tailEnd s = true) :
    ∃ w2 w3, (∀ c ∈ w2, isSpaceC c = true) ∧ (∀ c ∈ w3, isSpaceC c = true) ∧
      s = w2 ++ ';' :: w3 := by
  unfold tailEnd at h
  split at h
  · next s2 heq =>
    refine ⟨(s.span isSpaceC).1, s2, span_fst_all _ _, ?_, ?_⟩
    · intro c hc
      exact List.all_eq_true.mp h c hc
    · have e1 := span_decomp isSpaceC s
      rw [heq] at e1
      exact e1
  · exact absurd h (by simp)

theorem dayEnd_sound {s day : Str} (h : dayEnd s = some day) :
    day ≠ [] ∧ day.length ≤ 2 ∧ (∀ c ∈ day, isDigitC c = true) ∧
      ∃ w2 w3, (∀ c ∈ w2, isSpaceC c = true) ∧ (∀ c ∈ w3, isSpaceC c = true) ∧
        s = day ++ (w2 ++ ';' :: w3) := by
  unfold dayEnd at h
  split at h
  case _ d1 s1 =>
    split at h
    case isTrue hd1 =>
      split at h
      case _ d2 s2 =>
        split at h
        case isTrue hd2 =>
          split at h
          case isTrue hte =>
            have hday : [d1, d2] = day := Option.some_inj.mp h
            subst hday
            obtain ⟨w2, w3, hw2, hw3, he⟩ := tailEnd_sound hte
            refine ⟨by simp, by simp, ?_, w2, w3, hw2, hw3, ?_⟩
            · intro c hc
              simp only [List.mem_cons, List.not_mem_nil, or_false] at hc
              rcases hc with rfl | rfl
              · exact hd1
              · exact hd2
            · conv_lhs => rw [he]
              rfl
          case isFalse hte =>
            split at h
            case isTrue hte1 =>
              have hday : [d1] = day := Option.some_inj.mp h
              subst hday
              obtain ⟨w2, w3, hw2, hw3, he⟩ := tailEnd_sound hte1
              refine ⟨by simp, by simp, ?_, w2, w3, hw2, hw3, ?_⟩
              · intro c hc
                simp only [List.mem_cons, List.not_mem_nil, or_false] at hc
                rcases hc with rfl
                exact hd1
              · conv_lhs => rw [he]
                rfl
            case isFalse => exact absurd h (by simp)
        case isFalse hd2 =>
          split at h
          case isTrue hte1 =>
            have hday : [d1] = day := Option.some_inj.mp h
            subst hday
            obtain ⟨w2, w3, hw2, hw3, he⟩ := tailEnd_sound hte1
            refine ⟨by simp, by simp, ?_, w2, w3, hw2, hw3, ?_⟩
            · intro c hc
              simp only [List.mem_cons, List.not_mem_nil, or_false] at hc
              rcases hc with rfl
              exact hd1
            · conv_lhs => rw [he]
              rfl
          case isFalse => exact absurd h (by simp)
      case _ => exact absurd h (by simp)
    case isFalse => exact absurd h (by simp)
  case _ => exact absurd h (by simp)

theorem tryP3_sound {p : Option Char} {s r : Str} {lst : Char} {rest : Str}
    (h : tryP3 p s = some (r, lst, rest)) :
    rest = [] ∧ lst = ',' ∧
    ∃ mon dot w1 day w2 w3,
      mon ∈ months ∧ (dot = [] ∨ dot = ['.']) ∧ (∀ c ∈ w1, isSpaceC c = true) ∧
      (dot = ['.'] ∨ w1 ≠ []) ∧
      day ≠ [] ∧ day.length ≤ 2 ∧ (∀ c ∈ day, isDigitC c = true) ∧
      (∀ c ∈ w2, isSpaceC c = true) ∧ (∀ c ∈ w3, isSpaceC c = true) ∧
      s = mon ++ (dot ++ (w1 ++ (day ++ (w2 ++ ';' :: w3)))) ∧
      r = mon ++ (dot ++ (w1 ++ (day ++ [',']))) := by
  unfold tryP3 at h
  split at h
  · exact absurd h (by simp)
  · split at h
    · exact absurd h (by simp)
    · next mon s1 heqm =>
      split at h
      · exact absurd h (by simp)
      · next hhw =>
        split at h
        next dot s2 heqd =>
        split at h
        next w1 s3 heqw =>
        split at h
        · next day heqde =>
          have h0 := Option.some_inj.mp h
          have hr : mon ++ (dot ++ (w1 ++ (day ++ [',']))) = r := by
            have := congrArg Prod.fst h0
            simpa using this
          have hrest : ([] : Str) = rest := congrArg (fun x => x.2.2) h0
          have hlstc : ',' = lst := congrArg (fun x => x.2.1) h0
          obtain ⟨hs1, hmm, _⟩ := monthAt_sound heqm
          obtain ⟨hdotor, hdots⟩ := optDot_sound s1
          rw [heqd] at hdotor hdots
          have hw1 : ∀ c ∈ w1, isSpaceC c = true := by
            have := span_fst_all isSpaceC s2
            rw [heqw] at this
            exact this
          have hs2 : s2 = w1 ++ s3 := by
            have := span_decomp isSpaceC s2
            rw [heqw] at this
            exact this
          obtain ⟨hdne, hdlen, hddig, w2, w3, hw2, hw3, hs3⟩ := dayEnd_sound heqde
          have hbd : dot = ['.'] ∨ w1 ≠ [] := by
            rcases hdotor with hd0 | hd0
            · by_cases hw0 : w1 = []
              · exfalso
                apply hhw
                subst hd0
                subst hw0
                rw [List.nil_append] at hdots
                rw [List.nil_append] at hs2
                rw [hdots, hs2, hs3]
                cases day with
                | nil => exact absurd rfl hdne
                | cons d dt =>
                  show headWord (d :: _) = true
                  unfold headWord
                  exact digit_word (hddig d (List.mem_cons_self _ _))
              · exact Or.inr hw0
            · exact Or.inl hd0
          refine ⟨hrest.symm, hlstc.symm, mon, dot, w1, day, w2, w3, hmm, hdotor, hw1,
            hbd, hdne, hdlen, hddig, hw2, hw3, ?_, hr.symm⟩
          rw [hs1, hdots, hs2, hs3]
        · exact absurd h (by simp)

end DxClan

namespace DxClan

/-! ## C6: pattern-freeness infrastructure -/

theorem prevO_nil (p : Option Char) : prevO p [] = p := rfl

theorem prevO_cons (p : Option Char) (c : Char) (a : Str) :
    prevO p (c :: a) = prevO (some c) a := by
  cases a with
  | nil => rfl
  | cons d t =>
    unfold prevO
    rw [List.getLast?_cons_cons]
    cases hx : (d :: t).getLast? with
    | none =>
      rw [List.getLast?_eq_none_iff] at hx
      exact absurd hx (by simp)
    | some x => rfl

theorem prevO_append (p : Option Char) (u a : Str) :
    prevO p (u ++ a) = prevO (prevO p u) a := by
  induction u generalizing p with
  | nil => rfl
  | cons c t ih =>
    rw [List.cons_append, prevO_cons, prevO_cons]
    exact ih (some c)

theorem pfree_cons {tf : Option Char → Str → Option (Str × Char × Str)}
    {p : Option Char} {c : Char} {s : Str} (h0 : tf p (c :: s) = none)
    (h1 : PFree tf (some c) s) : PFree tf p (c :: s) := by
  intro a b hab
  cases a with
  | nil =>
    rw [prevO_nil]
    rw [List.nil_append] at hab
    rw [← hab]
    exact h0
  | cons d t =>
    rw [List.cons_append] at hab
    injection hab with hd ht
    subst hd
    rw [prevO_cons]
    exact h1 t b ht

theorem pfree_suffix {tf : Option Char → Str → Option (Str × Char × Str)}
    {p : Option Char} {u w : Str} (h : PFree tf p (u ++ w)) :
    PFree tf (prevO p u) w := by
  intro a b hab
  rw [← prevO_append]
  exact h (u ++ a) b (by rw [hab, List.append_assoc])

theorem pfree_head {tf : Option Char → Str → Option (Str × Char × Str)}
    {p : Option Char} {s : Str} (h : PFree tf p s) : tf p s = none := by
  have := h [] s rfl
  rwa [prevO_nil] at this

theorem subScan_id {tf : Option Char → Str → Option (Str × Char × Str)} :
    ∀ (fuel : Nat) (p : Option Char) (s : Str), PFree tf p s →
      subScan tf fuel p s = s := by
  intro fuel
  induction fuel with
  | zero => intro p s _; rfl
  | succ n ih =>
    intro p s hf
    cases s with
    | nil => rfl
    | cons c rest =>
      unfold subScan
      rw [pfree_head hf]
      rw [ih (some c) rest (by
        have := pfree_suffix (u := [c]) (w := rest) hf
        simpa [prevO_cons, prevO_nil] using this)]

end DxClan

namespace DxClan

theorem span_stops {w t : Str} (hw : ∀ c ∈ w, isSpaceC c = true)
    (ht : ∀ c t2, t = c :: t2 → isSpaceC c = false) :
    (w ++ t).span isSpaceC = (w, t) := by
  rw [List.span_eq_take_drop, takeWhile_append_all t hw, dropWhile_append_all t hw]
  have h1 : t.takeWhile isSpaceC = [] := by
    cases t with
    | nil => rfl
    | cons c t2 => simp [List.takeWhile_cons, ht c t2 rfl]
  have h2 : t.dropWhile isSpaceC = t := by
    cases t with
    | nil => rfl
    | cons c t2 => simp [List.dropWhile_cons, ht c t2 rfl]
  rw [h1, h2, List.append_nil]

theorem len4_shape {l : Str} (h : l.length = 4) : ∃ d1 d2 d3 d4, l = [d1, d2, d3, d4] := by
  match l, h with
  | [d1, d2, d3, d4], _ => exact ⟨d1, d2, d3, d4, rfl⟩

theorem monthAt_complete {mon : Str} (hmm : mon ∈ months) (t : Str) :
    monthAt (mon ++ t) = some (mon, t) := by
  have hlen : mon.length = 3 := by
    have := (months_shape mon hmm).1
    have h2 := congrArg List.length this
    simpa using h2
  obtain ⟨a, b, c, hm⟩ : ∃ a b c, mon = [a, b, c] := by
    match mon, hlen with
    | [a, b, c], _ => exact ⟨a, b, c, rfl⟩
  subst hm
  show monthAt (a :: b :: c :: t) = some ([a, b, c], t)
  simp only [monthAt, if_pos hmm]

theorem tailYear_complete {w2 w3 yr rest : Str}
    (hw2 : ∀ c ∈ w2, isSpaceC c = true) (hw3 : ∀ c ∈ w3, isSpaceC c = true)
    (hyl : yr.length = 4) (hyd : ∀ c ∈ yr, isDigitC c = true) :
    tailYear (w2 ++ ';' :: (w3 ++ (yr ++ rest))) = some (yr, rest) := by
  obtain ⟨d1, d2, d3, d4, hyr⟩ := len4_shape hyl
  subst hyr
  have hd1 := hyd d1 (by simp)
  have hd2 := hyd d2 (by simp)
  have hd3 := hyd d3 (by simp)
  have hd4 := hyd d4 (by simp)
  have hs1 : ((w2 ++ ';' :: (w3 ++ (d1 :: d2 :: d3 :: d4 :: rest))).span isSpaceC).2
      = ';' :: (w3 ++ (d1 :: d2 :: d3 :: d4 :: rest)) := by
    rw [span_stops hw2 ?_]
    intro c t2 he
    injection he with h1 _
    rw [← h1]
    decide
  have hs3 : ((w3 ++ (d1 :: d2 :: d3 :: d4 :: rest)).span isSpaceC).2
      = d1 :: d2 :: d3 :: d4 :: rest := by
    rw [span_stops hw3 ?_]
    intro c t2 he
    injection he with h1 _
    rw [← h1]
    exact digit_not_space hd1
  show tailYear (w2 ++ ';' :: (w3 ++ (d1 :: d2 :: d3 :: d4 :: rest))) =
    some ([d1, d2, d3, d4], rest)
  unfold tailYear
  rw [hs1]
  show (match (w3 ++ (d1 :: d2 :: d3 :: d4 :: rest)).span isSpaceC |>.2 with
    | d1 :: d2 :: d3 :: d4 :: rest =>
      if isDigitC d1 && isDigitC d2 && isDigitC d3 && isDigitC d4 then
        some ([d1, d2, d3, d4], rest)
      else none
    | _ => none) = some ([d1, d2, d3, d4], rest)
  rw [hs3]
  show (if isDigitC d1 && isDigitC d2 && isDigitC d3 && isDigitC d4 then
    some ([d1, d2, d3, d4], rest) else none) = some ([d1, d2, d3, d4], rest)
  rw [if_pos (by simp [hd1, hd2, hd3, hd4])]

end DxClan

namespace DxClan

theorem day_shape {day : Str} (hne : day ≠ []) (hlen : day.length ≤ 2) :
    (∃ d1, day = [d1]) ∨ (∃ d1 d2, day = [d1, d2]) := by
  match day, hne, hlen with
  | [d1], _, _ => exact Or.inl ⟨d1, rfl⟩
  | [d1, d2], _, _ => exact Or.inr ⟨d1, d2, rfl⟩

theorem tailYear_none_head {c : Char} {t : Str} (hs : isSpaceC c = false)
    (hc : c ≠ ';') : tailYear (c :: t) = none := by
  have hsp : ((c :: t).span isSpaceC).2 = c :: t := by
    have := span_stops (w := []) (t := c :: t) (fun d hd => absurd hd (List.not_mem_nil _))
      (fun d t2 he => by injection he with h1 _; rw [← h1]; exact hs)
    rw [List.nil_append] at this
    rw [this]
  unfold tailYear
  rw [hsp]
  split
  · next s2 heq =>
    injection heq with h1 _
    exact absurd h1 hc
  · rfl

theorem dayYear_complete {day w2 w3 yr rest : Str}
    (hdne : day ≠ []) (hdlen : day.length ≤ 2) (hdd : ∀ c ∈ day, isDigitC c = true)
    (hw2 : ∀ c ∈ w2, isSpaceC c = true) (hw3 : ∀ c ∈ w3, isSpaceC c = true)
    (hyl : yr.length = 4) (hyd : ∀ c ∈ yr, isDigitC c = true) :
    dayYear (day ++ (w2 ++ ';' :: (w3 ++ (yr ++ rest)))) = some (day, yr, rest) := by
  have hty := @tailYear_complete w2 w3 yr rest hw2 hw3 hyl hyd
  have hmid : ∀ c t2, w2 ++ ';' :: (w3 ++ (yr ++ rest)) = c :: t2 → isDigitC c = false := by
    intro c t2 he
    cases w2 with
    | nil =>
      rw [List.nil_append] at he
      injection he with h1 _
      rw [← h1]
      decide
    | cons e w2' =>
      rw [List.cons_append] at he
      injection he with h1 _
      rw [← h1]
      exact space_not_digit (hw2 e (List.mem_cons_self _ _))
  rcases day_shape hdne hdlen with ⟨d1, hd⟩ | ⟨d1, d2, hd⟩
  · subst hd
    have hd1 := hdd d1 (by simp)
    unfold dayYear
    split
    · next e1 t1 heq =>
      injection heq with h1 h2
      subst h1
      subst h2
      rw [if_pos hd1]
      split
      · next e2 s2 heq2 =>
        have hnd2 : isDigitC e2 = false := hmid e2 s2 heq2
        rw [if_neg (by simp [hnd2])]
        rw [show tailYear ([].append (w2 ++ ';' :: (w3 ++ (yr ++ rest)))) =
          some (yr, rest) from hty]
      · next heq2 =>
        exfalso
        rcases List.append_eq_nil.mp heq2 with ⟨-, h2⟩
        exact absurd h2 (by simp)
    · next heq =>
      exfalso
      exact absurd heq (by simp)
  · subst hd
    have hd1 := hdd d1 (by simp)
    have hd2 := hdd d2 (by simp)
    unfold dayYear
    split
    · next e1 t1 heq =>
      injection heq with h1 h2
      subst h1
      subst h2
      rw [if_pos hd1]
      split
      · next e2 s2 heq2 =>
        injection heq2 with h3 h4
        subst h3
        subst h4
        rw [if_pos hd2]
        rw [show tailYear ([].append (w2 ++ ';' :: (w3 ++ (yr ++ rest)))) =
          some (yr, rest) from hty]
      · next heq2 =>
        exfalso
        exact absurd heq2 (by simp)
    · next heq =>
      exfalso
      exact absurd heq (by simp)

end DxClan

namespace DxClan

theorem optDot_dot (t : Str) : optDot ('.' :: t) = (['.'], t) := rfl

theorem optDot_not_dot {c : Char} (hc : c ≠ '.') (t : Str) :
    optDot (c :: t) = ([], c :: t) := by
  unfold optDot
  split
  · next rest heq =>
    have : c = '.' := by
      have := congrArg (fun l => l.head?) heq
      simpa using this
    exact absurd this hc
  · rfl

theorem tryP1_complete {p : Option Char} {mon dot w1 day w2 w3 yr rest : Str}
    (hp : isWordO p = false) (hmm : mon ∈ months) (hdot : dot = [] ∨ dot = ['.'])
    (hw1 : ∀ c ∈ w1, isSpaceC c = true) (hbd : dot = ['.'] ∨ w1 ≠ [])
    (hdne : day ≠ []) (hdlen : day.length ≤ 2) (hdd : ∀ c ∈ day, isDigitC c = true)
    (hw2 : ∀ c ∈ w2, isSpaceC c = true) (hw3 : ∀ c ∈ w3, isSpaceC c = true)
    (hyl : yr.length = 4) (hyd : ∀ c ∈ yr, isDigitC c = true) :
    tryP1 p (mon ++ (dot ++ (w1 ++ (day ++ (w2 ++ ';' :: (w3 ++ (yr ++ rest))))))) =
      some (mon ++ (dot ++ (w1 ++ (day ++ ',' :: ' ' :: yr))), yr.getLastD '0', rest) := by
  obtain ⟨dh, dt, hdayc⟩ : ∃ dh dt, day = dh :: dt := by
    cases day with
    | nil => exact absurd rfl hdne
    | cons dh dt => exact ⟨dh, dt, rfl⟩
  have hdh : isDigitC dh = true := by
    rw [hdayc] at hdd
    exact hdd dh (List.mem_cons_self _ _)
  have hm := monthAt_complete hmm (dot ++ (w1 ++ (day ++ (w2 ++ ';' :: (w3 ++ (yr ++ rest))))))
  have hhw : headWord (dot ++ (w1 ++ (day ++ (w2 ++ ';' :: (w3 ++ (yr ++ rest)))))) = false := by
    rcases hdot with hd0 | hd0
    · subst hd0
      rw [List.nil_append]
      rcases hbd with hb | hb
      · exact absurd hb (by simp)
      · obtain ⟨wc, wt, hw⟩ : ∃ wc wt, w1 = wc :: wt := by
          cases w1 with
          | nil => exact absurd rfl hb
          | cons wc wt => exact ⟨wc, wt, rfl⟩
        rw [hw, List.cons_append]
        unfold headWord
        exact space_not_word (by rw [hw] at hw1; exact hw1 wc (List.mem_cons_self _ _))
    · subst hd0
      show isWordChar '.' = false
      decide
  have hod : optDot (dot ++ (w1 ++ (day ++ (w2 ++ ';' :: (w3 ++ (yr ++ rest)))))) =
      (dot, w1 ++ (day ++ (w2 ++ ';' :: (w3 ++ (yr ++ rest))))) := by
    rcases hdot with hd0 | hd0
    · subst hd0
      rw [List.nil_append]
      rcases hbd with hb | hb
      · exact absurd hb (by simp)
      · obtain ⟨wc, wt, hw⟩ : ∃ wc wt, w1 = wc :: wt := by
          cases w1 with
          | nil => exact absurd rfl hb
          | cons wc wt => exact ⟨wc, wt, rfl⟩
        rw [hw, List.cons_append]
        exact optDot_not_dot
          (space_ne_dot (by rw [hw] at hw1; exact hw1 wc (List.mem_cons_self _ _))) _
    · subst hd0
      rw [List.cons_append, List.nil_append]
      exact optDot_dot _
  have hspan : (w1 ++ (day ++ (w2 ++ ';' :: (w3 ++ (yr ++ rest))))).span isSpaceC =
      (w1, day ++ (w2 ++ ';' :: (w3 ++ (yr ++ rest)))) := by
    refine span_stops hw1 ?_
    intro c t2 he
    rw [hdayc, List.cons_append] at he
    injection he with h1 _
    rw [← h1]
    exact digit_not_space hdh
  have hdy := @dayYear_complete day w2 w3 yr rest hdne hdlen hdd hw2 hw3 hyl hyd
  unfold tryP1
  rw [hp, if_neg (by decide)]
  rw [hm]
  split
  · next heq => exact absurd heq (by simp)
  · next mon2 s2 heq =>
    injection heq with h1
    injection h1 with h2 h3
    subst h2
    subst h3
    rw [hhw, if_neg (by decide)]
    rw [hod]
    split
    next dot2 s3 heq2 =>
    injection heq2 with h5 h6
    subst h5
    subst h6
    rw [hspan]
    split
    next w12 s4 heq3 =>
    injection heq3 with h8 h9
    subst h8
    subst h9
    rw [hdy]
    simp

end DxClan

namespace DxClan

theorem tryP2_complete {p : Option Char} {mon dot w2 w3 yr rest : Str}
    (hp : isWordO p = false) (hmm : mon ∈ months) (hdot : dot = [] ∨ dot = ['.'])
    (hw2 : ∀ c ∈ w2, isSpaceC c = true) (hw3 : ∀ c ∈ w3, isSpaceC c = true)
    (hyl : yr.length = 4) (hyd : ∀ c ∈ yr, isDigitC c = true) :
    tryP2 p (mon ++ (dot ++ (w2 ++ ';' :: (w3 ++ (yr ++ rest))))) =
      some (mon ++ (dot ++ ' ' :: yr), yr.getLastD '0', rest) := by
  have hm := monthAt_complete hmm (dot ++ (w2 ++ ';' :: (w3 ++ (yr ++ rest))))
  have hhw : headWord (dot ++ (w2 ++ ';' :: (w3 ++ (yr ++ rest)))) = false := by
    rcases hdot with hd0 | hd0
    · subst hd0
      rw [List.nil_append]
      cases w2 with
      | nil =>
        show isWordChar ';' = false
        decide
      | cons wc wt =>
        rw [List.cons_append]
        show isWordChar wc = false
        exact space_not_word (hw2 wc (List.mem_cons_self _ _))
    · subst hd0
      show isWordChar '.' = false
      decide
  have hod : optDot (dot ++ (w2 ++ ';' :: (w3 ++ (yr ++ rest)))) =
      (dot, w2 ++ ';' :: (w3 ++ (yr ++ rest))) := by
    rcases hdot with hd0 | hd0
    · subst hd0
      rw [List.nil_append]
      cases w2 with
      | nil => exact optDot_not_dot (by decide) _
      | cons wc wt =>
        rw [List.cons_append]
        exact optDot_not_dot (space_ne_dot (hw2 wc (List.mem_cons_self _ _))) _
    · subst hd0
      rw [List.cons_append, List.nil_append]
      exact optDot_dot _
  have hty := @tailYear_complete w2 w3 yr rest hw2 hw3 hyl hyd
  unfold tryP2
  rw [hp, if_neg (by decide)]
  rw [hm]
  split
  · next heq => exact absurd heq (by simp)
  · next mon2 s2 heq =>
    injection heq with h1
    injection h1 with h2 h3
    subst h2
    subst h3
    rw [hhw, if_neg (by decide)]
    rw [hod]
    split
    next dot2 s3 heq2 =>
    injection heq2 with h5 h6
    subst h5
    subst h6
    rw [hty]
    simp

theorem tailEnd_complete {w2 w3 : Str}
    (hw2 : ∀ c ∈ w2, isSpaceC c = true) (hw3 : ∀ c ∈ w3, isSpaceC c = true) :
    tailEnd (w2 ++ ';' :: w3) = true := by
  have hs1 : ((w2 ++ ';' :: w3).span isSpaceC).2 = ';' :: w3 := by
    rw [span_stops hw2 ?_]
    intro c t2 he
    injection he with h1 _
    rw [← h1]
    decide
  unfold tailEnd
  rw [hs1]
  show w3.all isSpaceC = true
  exact List.all_eq_true.mpr hw3

theorem dayEnd_complete {day w2 w3 : Str}
    (hdne : day ≠ []) (hdlen : day.length ≤ 2) (hdd : ∀ c ∈ day, isDigitC c = true)
    (hw2 : ∀ c ∈ w2, isSpaceC c = true) (hw3 : ∀ c ∈ w3, isSpaceC c = true) :
    dayEnd (day ++ (w2 ++ ';' :: w3)) = some day := by
  have hte := tailEnd_complete hw2 hw3
  have hmid : ∀ c t2, w2 ++ ';' :: w3 = c :: t2 → isDigitC c = false := by
    intro c t2 he
    cases w2 with
    | nil =>
      rw [List.nil_append] at he
      injection he with h1 _
      rw [← h1]
      decide
    | cons e w2' =>
      rw [List.cons_append] at he
      injection he with h1 _
      rw [← h1]
      exact space_not_digit (hw2 e (List.mem_cons_self _ _))
  rcases day_shape hdne hdlen with ⟨d1, hd⟩ | ⟨d1, d2, hd⟩
  · subst hd
    have hd1 := hdd d1 (by simp)
    unfold dayEnd
    split
    · next e1 t1 heq =>
      injection heq with h1 h2
      subst h1
      subst h2
      rw [if_pos hd1]
      split
      · next e2 s2 heq2 =>
        have hnd2 : isDigitC e2 = false := hmid e2 s2 heq2
        rw [if_neg (by simp [hnd2])]
        rw [show tailEnd ([].append (w2 ++ ';' :: w3)) = true from hte]
        rfl
      · next heq2 =>
        exfalso
        rcases List.append_eq_nil.mp heq2 with ⟨-, h2⟩
        exact absurd h2 (by simp)
    · next heq =>
      exfalso
      exact absurd heq (by simp)
  · subst hd
    have hd1 := hdd d1 (by simp)
    have hd2 := hdd d2 (by simp)
    unfold dayEnd
    split
    · next e1 t1 heq =>
      injection heq with h1 h2
      subst h1
      subst h2
      rw [if_pos hd1]
      split
      · next e2 s2 heq2 =>
        injection heq2 with h3 h4
        subst h3
        subst h4
        rw [if_pos hd2]
        rw [show tailEnd ([].append (w2 ++ ';' :: w3)) = true from hte]
        rfl
      · next heq2 =>
        exfalso
        exact absurd heq2 (by simp)
    · next heq =>
      exfalso
      exact absurd heq (by simp)

theorem tryP3_complete {p : Option Char} {mon dot w1 day w2 w3 : Str}
    (hp : isWordO p = false) (hmm : mon ∈ months) (hdot : dot = [] ∨ dot = ['.'])
    (hw1 : ∀ c ∈ w1, isSpaceC c = true) (hbd : dot = ['.'] ∨ w1 ≠ [])
    (hdne : day ≠ []) (hdlen : day.length ≤ 2) (hdd : ∀ c ∈ day, isDigitC c = true)
    (hw2 : ∀ c ∈ w2, isSpaceC c = true) (hw3 : ∀ c ∈ w3, isSpaceC c = true) :
    tryP3 p (mon ++ (dot ++ (w1 ++ (day ++ (w2 ++ ';' :: w3))))) =
      some (mon ++ (dot ++ (w1 ++ (day ++ [',']))), ',', []) := by
  obtain ⟨dh, dt, hdayc⟩ : ∃ dh dt, day = dh :: dt := by
    cases day with
    | nil => exact absurd rfl hdne
    | cons dh dt => exact ⟨dh, dt, rfl⟩
  have hdh : isDigitC dh = true := by
    rw [hdayc] at hdd
    exact hdd dh (List.mem_cons_self _ _)
  have hm := monthAt_complete hmm (dot ++ (w1 ++ (day ++ (w2 ++ ';' :: w3))))
  have hhw : headWord (dot ++ (w1 ++ (day ++ (w2 ++ ';' :: w3)))) = false := by
    rcases hdot with hd0 | hd0
    · subst hd0
      rw [List.nil_append]
      rcases hbd with hb | hb
      · exact absurd hb (by simp)
      · obtain ⟨wc, wt, hw⟩ : ∃ wc wt, w1 = wc :: wt := by
          cases w1 with
          | nil => exact absurd rfl hb
          | cons wc wt => exact ⟨wc, wt, rfl⟩
        rw [hw, List.cons_append]
        show isWordChar wc = false
        exact space_not_word (by rw [hw] at hw1; exact hw1 wc (List.mem_cons_self _ _))
    · subst hd0
      show isWordChar '.' = false
      decide
  have hod : optDot (dot ++ (w1 ++ (day ++ (w2 ++ ';' :: w3)))) =
      (dot, w1 ++ (day ++ (w2 ++ ';' :: w3))) := by
    rcases hdot with hd0 | hd0
    · subst hd0
      rw [List.nil_append]
      rcases hbd with hb | hb
      · exact absurd hb (by simp)
      · obtain ⟨wc, wt, hw⟩ : ∃ wc wt, w1 = wc :: wt := by
          cases w1 with
          | nil => exact absurd rfl hb
          | cons wc wt => exact ⟨wc, wt, rfl⟩
        rw [hw, List.cons_append]
        exact optDot_not_dot
          (space_ne_dot (by rw [hw] at hw1; exact hw1 wc (List.mem_cons_self _ _))) _
    · subst hd0
      rw [List.cons_append, List.nil_append]
      exact optDot_dot _
  have hspan : (w1 ++ (day ++ (w2 ++ ';' :: w3))).span isSpaceC =
      (w1, day ++ (w2 ++ ';' :: w3)) := by
    refine span_stops hw1 ?_
    intro c t2 he
    rw [hdayc, List.cons_append] at he
    injection he with h1 _
    rw [← h1]
    exact digit_not_space hdh
  have hde := dayEnd_complete hdne hdlen hdd hw2 hw3
  unfold tryP3
  rw [hp, if_neg (by decide)]
  rw [hm]
  split
  · next heq => exact absurd heq (by simp)
  · next mon2 s2 heq =>
    injection heq with h1
    injection h1 with h2 h3
    subst h2
    subst h3
    rw [hhw, if_neg (by decide)]
    rw [hod]
    split
    next dot2 s3 heq2 =>
    injection heq2 with h5 h6
    subst h5
    subst h6
    rw [hspan]
    split
    next w12 s4 heq3 =>
    injection heq3 with h8 h9
    subst h8
    subst h9
    rw [hde]
    simp

end DxClan

namespace DxClan

theorem months_len {mon : Str} (hmm : mon ∈ months) : mon.length = 3 := by
  have := (months_shape mon hmm).1
  have h2 := congrArg List.length this
  simpa using h2

theorem tryP_some_prev {tf : Option Char → Str → Option (Str × Char × Str)}
    {p : Option Char} {v : Str} {x : Str × Char × Str}
    (hshape : ∀ s, isWordO p = true → tf p s = none)
    (hv : tf p v = some x) : isWordO p = false := by
  by_cases hw : isWordO p = true
  · rw [hshape v hw] at hv
    exact absurd hv (by simp)
  · exact Bool.eq_false_iff.mpr hw

theorem tryP1_prev {p : Option Char} (s : Str) (hw : isWordO p = true) :
    tryP1 p s = none := by
  unfold tryP1
  rw [hw]
  simp

theorem tryP2_prev {p : Option Char} (s : Str) (hw : isWordO p = true) :
    tryP2 p s = none := by
  unfold tryP2
  rw [hw]
  simp

theorem tryP3_prev {p : Option Char} (s : Str) (hw : isWordO p = true) :
    tryP3 p s = none := by
  unfold tryP3
  rw [hw]
  simp

theorem not_alpha_of_parts {dot w1 day w2 w3 yr : Str}
    (hdot : dot = [] ∨ dot = ['.']) (hw1 : ∀ c ∈ w1, isSpaceC c = true)
    (hdd : ∀ c ∈ day, isDigitC c = true) (hw2 : ∀ c ∈ w2, isSpaceC c = true)
    (hw3 : ∀ c ∈ w3, isSpaceC c = true) (hyd : ∀ c ∈ yr, isDigitC c = true) :
    ∀ c ∈ dot ++ (w1 ++ (day ++ (w2 ++ ';' :: (w3 ++ yr)))), (!isAlphaC c) = true := by
  intro c hc
  rw [Bool.not_eq_true']
  simp only [List.mem_append, List.mem_cons] at hc
  rcases hc with hc | hc | hc | hc | hc | hc | hc
  · rcases hdot with hd | hd
    · rw [hd] at hc
      exact absurd hc (List.not_mem_nil _)
    · rw [hd] at hc
      have : c = '.' := by simpa using hc
      rw [this]
      decide
  · exact space_not_alpha (hw1 c hc)
  · exact digit_not_alpha (hdd c hc)
  · exact space_not_alpha (hw2 c hc)
  · rw [hc]
    decide
  · exact space_not_alpha (hw3 c hc)
  · exact digit_not_alpha (hyd c hc)

theorem tryP1_transfer {p : Option Char} {u v : Str}
    (h3 : u.take 3 = v.take 3) (hnl : nlTake (u.drop 3) = nlTake (v.drop 3))
    (hnone : tryP1 p u = none) : tryP1 p v = none := by
  cases hv : tryP1 p v with
  | none => rfl
  | some x =>
    exfalso
    obtain ⟨r, lst, rest⟩ := x
    have hp : isWordO p = false := tryP_some_prev (fun s hw => tryP1_prev s hw) hv
    obtain ⟨mon, dot, w1, day, w2, w3, yr, hmm, hdot, hw1, hbd, hdne, hdlen, hdd,
      hw2, hw3, hyl, hyd, hsv, hr, hlst⟩ := tryP1_sound hv
    have hmlen := months_len hmm
    have hvtake : v.take 3 = mon := by
      rw [hsv, ← hmlen, List.take_left]
    have hvdrop : v.drop 3 = dot ++ (w1 ++ (day ++ (w2 ++ ';' :: (w3 ++ (yr ++ rest))))) := by
      rw [hsv, ← hmlen, List.drop_left]
    have hassoc : dot ++ (w1 ++ (day ++ (w2 ++ ';' :: (w3 ++ (yr ++ rest))))) =
        (dot ++ (w1 ++ (day ++ (w2 ++ ';' :: (w3 ++ yr))))) ++ rest := by
      simp [List.append_assoc]
    have hnlv : nlTake (v.drop 3) =
        (dot ++ (w1 ++ (day ++ (w2 ++ ';' :: (w3 ++ yr))))) ++ nlTake rest := by
      rw [hvdrop, hassoc]
      exact takeWhile_append_all _ (not_alpha_of_parts hdot hw1 hdd hw2 hw3 hyd)
    have hpref : (dot ++ (w1 ++ (day ++ (w2 ++ ';' :: (w3 ++ yr))))) <+: u.drop 3 := by
      refine @List.IsPrefix.trans Char _ (nlTake (u.drop 3)) (u.drop 3) ?_ ?_
      · exact ⟨nlTake rest, by rw [hnl, hnlv]⟩
      · exact List.takeWhile_prefix _
    obtain ⟨restu, hrestu⟩ := hpref
    have hu : u = mon ++ ((dot ++ (w1 ++ (day ++ (w2 ++ ';' :: (w3 ++ yr))))) ++ restu) := by
      have h0 : u = u.take 3 ++ u.drop 3 := (List.take_append_drop 3 u).symm
      rw [h0, h3, hvtake, hrestu]
    have hassoc2 : (dot ++ (w1 ++ (day ++ (w2 ++ ';' :: (w3 ++ yr))))) ++ restu =
        dot ++ (w1 ++ (day ++ (w2 ++ ';' :: (w3 ++ (yr ++ restu))))) := by
      simp [List.append_assoc]
    rw [hassoc2] at hu
    have hcomp := @tryP1_complete p mon dot w1 day w2 w3 yr restu hp hmm hdot hw1 hbd hdne
      hdlen hdd hw2 hw3 hyl hyd
    rw [← hu] at hcomp
    rw [hcomp] at hnone
    exact absurd hnone (by simp)

theorem tryP2_transfer {p : Option Char} {u v : Str}
    (h3 : u.take 3 = v.take 3) (hnl : nlTake (u.drop 3) = nlTake (v.drop 3))
    (hnone : tryP2 p u = none) : tryP2 p v = none := by
  cases hv : tryP2 p v with
  | none => rfl
  | some x =>
    exfalso
    obtain ⟨r, lst, rest⟩ := x
    have hp : isWordO p = false := tryP_some_prev (fun s hw => tryP2_prev s hw) hv
    obtain ⟨mon, dot, w2, w3, yr, hmm, hdot, hw2, hw3, hyl, hyd, hsv, hr, hlst⟩ :=
      tryP2_sound hv
    have hmlen := months_len hmm
    have hvtake : v.take 3 = mon := by
      rw [hsv, ← hmlen, List.take_left]
    have hvdrop : v.drop 3 = dot ++ (w2 ++ ';' :: (w3 ++ (yr ++ rest))) := by
      rw [hsv, ← hmlen, List.drop_left]
    have hassoc : dot ++ (w2 ++ ';' :: (w3 ++ (yr ++ rest))) =
        (dot ++ (w2 ++ ';' :: (w3 ++ yr))) ++ rest := by
      simp [List.append_assoc]
    have hnlv : nlTake (v.drop 3) = (dot ++ (w2 ++ ';' :: (w3 ++ yr))) ++ nlTake rest := by
      rw [hvdrop, hassoc]
      refine takeWhile_append_all _ ?_
      have := @not_alpha_of_parts dot [] [] w2 w3 yr hdot (by simp) (by simp) hw2 hw3 hyd
      simpa using this
    have hpref : (dot ++ (w2 ++ ';' :: (w3 ++ yr))) <+: u.drop 3 := by
      refine @List.IsPrefix.trans Char _ (nlTake (u.drop 3)) (u.drop 3) ?_ ?_
      · exact ⟨nlTake rest, by rw [hnl, hnlv]⟩
      · exact List.takeWhile_prefix _
    obtain ⟨restu, hrestu⟩ := hpref
    have hu : u = mon ++ ((dot ++ (w2 ++ ';' :: (w3 ++ yr))) ++ restu) := by
      have h0 : u = u.take 3 ++ u.drop 3 := (List.take_append_drop 3 u).symm
      rw [h0, h3, hvtake, hrestu]
    have hassoc2 : (dot ++ (w2 ++ ';' :: (w3 ++ yr))) ++ restu =
        dot ++ (w2 ++ ';' :: (w3 ++ (yr ++ restu))) := by
      simp [List.append_assoc]
    rw [hassoc2] at hu
    have hcomp := @tryP2_complete p mon dot w2 w3 yr restu hp hmm hdot hw2 hw3 hyl hyd
    rw [← hu] at hcomp
    rw [hcomp] at hnone
    exact absurd hnone (by simp)

end DxClan

namespace DxClan

theorem nlTake_cons_alpha {c : Char} (h : isAlphaC c = true) (t : Str) :
    nlTake (c :: t) = [] := by
  unfold nlTake
  simp [List.takeWhile_cons, h]

theorem nlTake_cons_not {c : Char} (h : isAlphaC c = false) (t : Str) :
    nlTake (c :: t) = c :: nlTake t := by
  unfold nlTake
  simp [List.takeWhile_cons, h]

theorem subScan_cons_none {tf : Option Char → Str → Option (Str × Char × Str)}
    {n : Nat} {p : Option Char} {c : Char} {rest : Str} (h : tf p (c :: rest) = none) :
    subScan tf (n + 1) p (c :: rest) = c :: subScan tf n (some c) rest := by
  conv_lhs => unfold subScan
  rw [h]

theorem subScan_cons_some {tf : Option Char → Str → Option (Str × Char × Str)}
    {n : Nat} {p : Option Char} {c : Char} {rest r : Str} {lst : Char} {rest2 : Str}
    (h : tf p (c :: rest) = some (r, lst, rest2)) :
    subScan tf (n + 1) p (c :: rest) = r ++ subScan tf n (some lst) rest2 := by
  conv_lhs => unfold subScan
  rw [h]

theorem subScan_pres {tf : Option Char → Str → Option (Str × Char × Str)}
    (hshape : ∀ p s r lst rest2, tf p s = some (r, lst, rest2) →
      ∃ a b c s4 r4, s = a :: b :: c :: s4 ∧ r = a :: b :: c :: r4 ∧
        isAlphaC a = true ∧ isAlphaC b = true ∧ isAlphaC c = true) :
    ∀ (fuel : Nat) (p : Option Char) (s : Str),
      ((subScan tf fuel p s).take 1 = s.take 1) ∧
      ((subScan tf fuel p s).take 2 = s.take 2) ∧
      (nlTake (subScan tf fuel p s) = nlTake s) ∧
      (nlTake ((subScan tf fuel p s).drop 1) = nlTake (s.drop 1)) ∧
      (nlTake ((subScan tf fuel p s).drop 2) = nlTake (s.drop 2)) := by
  intro fuel
  induction fuel with
  | zero => exact fun p s => ⟨rfl, rfl, rfl, rfl, rfl⟩
  | succ n ih =>
    intro p s
    cases s with
    | nil => exact ⟨rfl, rfl, rfl, rfl, rfl⟩
    | cons c rest =>
      cases htf : tf p (c :: rest) with
      | some x =>
        obtain ⟨r, lst, rest2⟩ := x
        obtain ⟨a, b, c2, s4, r4, hs, hrr, ha, hb, hc⟩ := hshape p _ r lst rest2 htf
        rw [subScan_cons_some htf]
        rw [hs, hrr]
        rw [List.cons_append, List.cons_append, List.cons_append]
        refine ⟨rfl, rfl, ?_, ?_, ?_⟩
        · rw [nlTake_cons_alpha ha, nlTake_cons_alpha ha]
        · show nlTake (b :: (c2 :: (r4 ++ subScan tf n (some lst) rest2))) = nlTake (b :: c2 :: s4)
          rw [nlTake_cons_alpha hb, nlTake_cons_alpha hb]
        · show nlTake (c2 :: (r4 ++ subScan tf n (some lst) rest2)) = nlTake (c2 :: s4)
          rw [nlTake_cons_alpha hc, nlTake_cons_alpha hc]
      | none =>
        obtain ⟨ih1, ih2, ih3, ih4, ih5⟩ := ih (some c) rest
        rw [subScan_cons_none htf]
        refine ⟨rfl, ?_, ?_, ?_, ?_⟩
        · show c :: (subScan tf n (some c) rest).take 1 = c :: rest.take 1
          rw [ih1]
        · by_cases hca : isAlphaC c = true
          · rw [nlTake_cons_alpha hca, nlTake_cons_alpha hca]
          · have hcf : isAlphaC c = false := Bool.eq_false_iff.mpr hca
            rw [nlTake_cons_not hcf, nlTake_cons_not hcf, ih3]
        · exact ih3
        · exact ih4

end DxClan

namespace DxClan

theorem pfree_nil {tf : Option Char → Str → Option (Str × Char × Str)}
    (h : ∀ q, tf q [] = none) (p : Option Char) : PFree tf p [] := by
  intro a b hab
  rcases List.append_eq_nil.mp hab.symm with ⟨-, hb⟩
  rw [hb]
  exact h _

theorem drop_one_append {a2 y : Str} (ha : a2 ≠ []) :
    (a2 ++ y).drop 1 = a2.drop 1 ++ y := by
  cases a2 with
  | nil => exact absurd rfl ha
  | cons c t => rfl

theorem prevO_of_ne_nil {p : Option Char} {r : Str} {lst : Char}
    (hlast : r.getLast? = some lst) : prevO p r = some lst := by
  unfold prevO
  rw [hlast]
  rfl

theorem pfree_append {tf : Option Char → Str → Option (Str × Char × Str)}
    {p : Option Char} {r X : Str} {lst : Char}
    (hhead : ∀ (q : Option Char) (s : Str),
      (∀ c cs, s = c :: cs → isUpperC c = false) → tf q s = none)
    (h0 : ∀ q, tf q (r ++ X) = none)
    (hnu : ∀ x ∈ r.drop 1, isUpperC x = false)
    (hlast : r.getLast? = some lst)
    (hX : PFree tf (some lst) X) : PFree tf p (r ++ X) := by
  intro a b hab
  rcases List.append_eq_append_iff.mp hab.symm with ⟨a2, ha1, ha2⟩ | ⟨c2, hc1, hc2⟩
  · -- r = a ++ a2, b = a2 ++ X : split point inside (or at end of) r
    cases a with
    | nil =>
      rw [prevO_nil]
      rw [List.nil_append] at ha1
      rw [ha2, ← ha1]
      exact h0 p
    | cons a0 a' =>
      cases a2 with
      | nil =>
        rw [List.append_nil] at ha1
        rw [List.nil_append] at ha2
        rw [ha2, ← ha1, prevO_of_ne_nil hlast]
        exact hX [] X rfl
      | cons c b2 =>
        rw [ha2]
        refine hhead _ _ ?_
        intro c0 cs0 hcs0
        rw [List.cons_append] at hcs0
        injection hcs0 with h1 _
        rw [← h1]
        refine hnu c ?_
        rw [ha1, drop_one_append (by simp)]
        exact List.mem_append.mpr (Or.inr (List.mem_cons_self _ _))
  · -- a = r ++ c2, X = c2 ++ b : split point inside X
    rw [hc1, prevO_append, prevO_of_ne_nil hlast]
    exact hX c2 b hc2
end DxClan

namespace DxClan

theorem tailYear_none_after_spaces {w t : Str} {c : Char}
    (hw : ∀ x ∈ w, isSpaceC x = true) (hc : isSpaceC c = false) (hs : c ≠ ';') :
    tailYear (w ++ c :: t) = none := by
  have hsp : ((w ++ c :: t).span isSpaceC).2 = c :: t := by
    rw [span_stops hw (fun d t2 he => by injection he with h1 _; rw [← h1]; exact hc)]
  unfold tailYear
  rw [hsp]
  split
  · next s2 heq =>
    injection heq with h1 _
    exact absurd h1 hs
  · rfl

theorem dayYear_comma {day X : Str} (hdne : day ≠ []) (hdlen : day.length ≤ 2)
    (hdd : ∀ c ∈ day, isDigitC c = true) : dayYear (day ++ ',' :: X) = none := by
  rcases day_shape hdne hdlen with ⟨d1, hd⟩ | ⟨d1, d2, hd⟩
  · subst hd
    have hd1 := hdd d1 (by simp)
    unfold dayYear
    split
    · next e1 t1 heq =>
      injection heq with h1 h2
      subst h1
      subst h2
      rw [if_pos hd1]
      split
      · next e2 s2 heq2 =>
        have he2 : e2 = ',' := by
          have : ([] : Str) ++ ',' :: X = e2 :: s2 := heq2
          rw [List.nil_append] at this
          injection this with h3 _
          exact h3.symm
        rw [if_neg (by rw [he2]; decide)]
        rw [show tailYear ([].append (',' :: X)) = none from
          tailYear_none_head (by decide) (by decide)]
      · next heq2 =>
        exfalso
        rcases List.append_eq_nil.mp heq2 with ⟨-, h2⟩
        exact absurd h2 (by simp)
    · next heq =>
      exfalso
      exact absurd heq (by simp)
  · subst hd
    have hd1 := hdd d1 (by simp)
    have hd2 := hdd d2 (by simp)
    unfold dayYear
    split
    · next e1 t1 heq =>
      injection heq with h1 h2
      subst h1
      subst h2
      rw [if_pos hd1]
      split
      · next e2 s2 heq2 =>
        injection heq2 with h3 h4
        subst h3
        subst h4
        rw [if_pos hd2]
        rw [show tailYear ([].append (',' :: X)) = none from
          tailYear_none_head (by decide) (by decide)]
        rw [show tailYear ([d2].append (',' :: X)) = none from
          tailYear_none_head (digit_not_space hd2) (digit_ne_semi hd2)]
      · next heq2 =>
        exfalso
        exact absurd heq2 (by simp)
    · next heq =>
      exfalso
      exact absurd heq (by simp)

theorem dayYear_yr {y1 y2 y3 y4 : Char} {X : Str}
    (h1 : isDigitC y1 = true) (h2 : isDigitC y2 = true) (h3 : isDigitC y3 = true) :
    dayYear (y1 :: y2 :: y3 :: y4 :: X) = none := by
  unfold dayYear
  split
  · next e1 t1 heq =>
    injection heq with ha hb
    subst ha
    subst hb
    rw [if_pos h1]
    split
    · next e2 s2 heq2 =>
      injection heq2 with hc hd
      subst hc
      subst hd
      rw [if_pos h2]
      rw [show tailYear (y3 :: y4 :: X) = none from
        tailYear_none_head (digit_not_space h3) (digit_ne_semi h3)]
      rw [show tailYear (y2 :: y3 :: y4 :: X) = none from
        tailYear_none_head (digit_not_space h2) (digit_ne_semi h2)]
    · next heq2 =>
      exfalso
      exact absurd heq2 (by simp)
  · next heq =>
    exfalso
    exact absurd heq (by simp)

end DxClan

namespace DxClan

theorem block_p1_comma {q : Option Char} {mon dot w1 day X : Str}
    (hmm : mon ∈ months) (hdot : dot = [] ∨ dot = ['.'])
    (hw1 : ∀ c ∈ w1, isSpaceC c = true) (hbd : dot = ['.'] ∨ w1 ≠ [])
    (hdne : day ≠ []) (hdlen : day.length ≤ 2) (hdd : ∀ c ∈ day, isDigitC c = true) :
    tryP1 q (mon ++ (dot ++ (w1 ++ (day ++ ',' :: X)))) = none := by
  by_cases hq : isWordO q = true
  · exact tryP1_prev _ hq
  · have hp : isWordO q = false := Bool.eq_false_iff.mpr hq
    obtain ⟨dh, dt, hdayc⟩ : ∃ dh dt, day = dh :: dt := by
      cases day with
      | nil => exact absurd rfl hdne
      | cons dh dt => exact ⟨dh, dt, rfl⟩
    have hdh : isDigitC dh = true := by
      rw [hdayc] at hdd
      exact hdd dh (List.mem_cons_self _ _)
    have hm := monthAt_complete hmm (dot ++ (w1 ++ (day ++ ',' :: X)))
    have hhw : headWord (dot ++ (w1 ++ (day ++ ',' :: X))) = false := by
      rcases hdot with hd0 | hd0
      · subst hd0
        rw [List.nil_append]
        rcases hbd with hb | hb
        · exact absurd hb (by simp)
        · obtain ⟨wc, wt, hw⟩ : ∃ wc wt, w1 = wc :: wt := by
            cases w1 with
            | nil => exact absurd rfl hb
            | cons wc wt => exact ⟨wc, wt, rfl⟩
          rw [hw, List.cons_append]
          show isWordChar wc = false
          exact space_not_word (by rw [hw] at hw1; exact hw1 wc (List.mem_cons_self _ _))
      · subst hd0
        show isWordChar '.' = false
        decide
    have hod : optDot (dot ++ (w1 ++ (day ++ ',' :: X))) =
        (dot, w1 ++ (day ++ ',' :: X)) := by
      rcases hdot with hd0 | hd0
      · subst hd0
        rw [List.nil_append]
        rcases hbd with hb | hb
        · exact absurd hb (by simp)
        · obtain ⟨wc, wt, hw⟩ : ∃ wc wt, w1 = wc :: wt := by
            cases w1 with
            | nil => exact absurd rfl hb
            | cons wc wt => exact ⟨wc, wt, rfl⟩
          rw [hw, List.cons_append]
          exact optDot_not_dot
            (space_ne_dot (by rw [hw] at hw1; exact hw1 wc (List.mem_cons_self _ _))) _
      · subst hd0
        rw [List.cons_append, List.nil_append]
        exact optDot_dot _
    have hspan : (w1 ++ (day ++ ',' :: X)).span isSpaceC = (w1, day ++ ',' :: X) := by
      refine span_stops hw1 ?_
      intro c t2 he
      rw [hdayc, List.cons_append] at he
      injection he with h1 _
      rw [← h1]
      exact digit_not_space hdh
    have hdy := dayYear_comma (X := X) hdne hdlen hdd
    unfold tryP1
    rw [hp, if_neg (by decide)]
    rw [hm]
    split
    · next heq => rfl
    · next mon2 s2 heq =>
      injection heq with h1
      injection h1 with h2 h3
      subst h2
      subst h3
      rw [hhw, if_neg (by decide)]
      rw [hod]
      split
      next dot2 s3 heq2 =>
      injection heq2 with h5 h6
      subst h5
      subst h6
      rw [hspan]
      split
      next w12 s4 heq3 =>
      injection heq3 with h8 h9
      subst h8
      subst h9
      rw [hdy]

theorem block_p1_year {q : Option Char} {mon dot yr X : Str}
    (hmm : mon ∈ months) (hdot : dot = [] ∨ dot = ['.'])
    (hyl : yr.length = 4) (hyd : ∀ c ∈ yr, isDigitC c = true) :
    tryP1 q (mon ++ (dot ++ (' ' :: (yr ++ X)))) = none := by
  by_cases hq : isWordO q = true
  · exact tryP1_prev _ hq
  · have hp : isWordO q = false := Bool.eq_false_iff.mpr hq
    obtain ⟨y1, y2, y3, y4, hyr⟩ := len4_shape hyl
    subst hyr
    have hy1 := hyd y1 (by simp)
    have hy2 := hyd y2 (by simp)
    have hy3 := hyd y3 (by simp)
    have hm := monthAt_complete hmm (dot ++ (' ' :: ([y1, y2, y3, y4] ++ X)))
    have hhw : headWord (dot ++ (' ' :: ([y1, y2, y3, y4] ++ X))) = false := by
      rcases hdot with hd0 | hd0
      · subst hd0
        show isWordChar ' ' = false
        decide
      · subst hd0
        show isWordChar '.' = false
        decide
    have hod : optDot (dot ++ (' ' :: ([y1, y2, y3, y4] ++ X))) =
        (dot, ' ' :: ([y1, y2, y3, y4] ++ X)) := by
      rcases hdot with hd0 | hd0
      · subst hd0
        rw [List.nil_append]
        exact optDot_not_dot (by decide) _
      · subst hd0
        rw [List.cons_append, List.nil_append]
        exact optDot_dot _
    have hspan : (' ' :: ([y1, y2, y3, y4] ++ X)).span isSpaceC =
        ([' '], [y1, y2, y3, y4] ++ X) := by
      have := span_stops (w := [' ']) (t := [y1, y2, y3, y4] ++ X)
        (by intro c hc; simp at hc; rw [hc]; decide)
        (by intro c t2 he; rw [List.cons_append] at he; injection he with h1 _;
            rw [← h1]; exact digit_not_space hy1)
      simpa using this
    have hdy : dayYear ([y1, y2, y3, y4] ++ X) = none := by
      show dayYear (y1 :: y2 :: y3 :: y4 :: X) = none
      exact dayYear_yr hy1 hy2 hy3
    unfold tryP1
    rw [hp, if_neg (by decide)]
    rw [hm]
    split
    · next heq => rfl
    · next mon2 s2 heq =>
      injection heq with h1
      injection h1 with h2 h3
      subst h2
      subst h3
      rw [hhw, if_neg (by decide)]
      rw [hod]
      split
      next dot2 s3 heq2 =>
      injection heq2 with h5 h6
      subst h5
      subst h6
      rw [hspan]
      split
      next w12 s4 heq3 =>
      injection heq3 with h8 h9
      subst h8
      subst h9
      rw [hdy]

end DxClan

namespace DxClan

theorem block_p2_year {q : Option Char} {mon dot yr X : Str}
    (hmm : mon ∈ months) (hdot : dot = [] ∨ dot = ['.'])
    (hyl : yr.length = 4) (hyd : ∀ c ∈ yr, isDigitC c = true) :
    tryP2 q (mon ++ (dot ++ (' ' :: (yr ++ X)))) = none := by
  by_cases hq : isWordO q = true
  · exact tryP2_prev _ hq
  · have hp : isWordO q = false := Bool.eq_false_iff.mpr hq
    obtain ⟨y1, y2, y3, y4, hyr⟩ := len4_shape hyl
    subst hyr
    have hy1 := hyd y1 (by simp)
    have hm := monthAt_complete hmm (dot ++ (' ' :: ([y1, y2, y3, y4] ++ X)))
    have hhw : headWord (dot ++ (' ' :: ([y1, y2, y3, y4] ++ X))) = false := by
      rcases hdot with hd0 | hd0
      · subst hd0
        show isWordChar ' ' = false
        decide
      · subst hd0
        show isWordChar '.' = false
        decide
    have hod : optDot (dot ++ (' ' :: ([y1, y2, y3, y4] ++ X))) =
        (dot, ' ' :: ([y1, y2, y3, y4] ++ X)) := by
      rcases hdot with hd0 | hd0
      · subst hd0
        rw [List.nil_append]
        exact optDot_not_dot (by decide) _
      · subst hd0
        rw [List.cons_append, List.nil_append]
        exact optDot_dot _
    have hty : tailYear (' ' :: ([y1, y2, y3, y4] ++ X)) = none := by
      have := tailYear_none_after_spaces (w := [' ']) (t := [y2, y3, y4] ++ X)
        (c := y1) (by intro c hc; simp at hc; rw [hc]; decide)
        (digit_not_space hy1) (digit_ne_semi hy1)
      simpa using this
    unfold tryP2
    rw [hp, if_neg (by decide)]
    rw [hm]
    split
    · next heq => rfl
    · next mon2 s2 heq =>
      injection heq with h1
      injection h1 with h2 h3
      subst h2
      subst h3
      rw [hhw, if_neg (by decide)]
      rw [hod]
      split
      next dot2 s3 heq2 =>
      injection heq2 with h5 h6
      subst h5
      subst h6
      rw [hty]

theorem block_p2_comma {q : Option Char} {mon dot w1 day X : Str}
    (hmm : mon ∈ months) (hdot : dot = [] ∨ dot = ['.'])
    (hw1 : ∀ c ∈ w1, isSpaceC c = true) (hbd : dot = ['.'] ∨ w1 ≠ [])
    (hdne : day ≠ []) (hdd : ∀ c ∈ day, isDigitC c = true) :
    tryP2 q (mon ++ (dot ++ (w1 ++ (day ++ ',' :: X)))) = none := by
  by_cases hq : isWordO q = true
  · exact tryP2_prev _ hq
  · have hp : isWordO q = false := Bool.eq_false_iff.mpr hq
    obtain ⟨dh, dt, hdayc⟩ : ∃ dh dt, day = dh :: dt := by
      cases day with
      | nil => exact absurd rfl hdne
      | cons dh dt => exact ⟨dh, dt, rfl⟩
    have hdh : isDigitC dh = true := by
      rw [hdayc] at hdd
      exact hdd dh (List.mem_cons_self _ _)
    have hm := monthAt_complete hmm (dot ++ (w1 ++ (day ++ ',' :: X)))
    have hhw : headWord (dot ++ (w1 ++ (day ++ ',' :: X))) = false := by
      rcases hdot with hd0 | hd0
      · subst hd0
        rw [List.nil_append]
        rcases hbd with hb | hb
        · exact absurd hb (by simp)
        · obtain ⟨wc, wt, hw⟩ : ∃ wc wt, w1 = wc :: wt := by
            cases w1 with
            | nil => exact absurd rfl hb
            | cons wc wt => exact ⟨wc, wt, rfl⟩
          rw [hw, List.cons_append]
          show isWordChar wc = false
          exact space_not_word (by rw [hw] at hw1; exact hw1 wc (List.mem_cons_self _ _))
      · subst hd0
        show isWordChar '.' = false
        decide
    have hod : optDot (dot ++ (w1 ++ (day ++ ',' :: X))) =
        (dot, w1 ++ (day ++ ',' :: X)) := by
      rcases hdot with hd0 | hd0
      · subst hd0
        rw [List.nil_append]
        rcases hbd with hb | hb
        · exact absurd hb (by simp)
        · obtain ⟨wc, wt, hw⟩ : ∃ wc wt, w1 = wc :: wt := by
            cases w1 with
            | nil => exact absurd rfl hb
            | cons wc wt => exact ⟨wc, wt, rfl⟩
          rw [hw, List.cons_append]
          exact optDot_not_dot
            (space_ne_dot (by rw [hw] at hw1; exact hw1 wc (List.mem_cons_self _ _))) _
      · subst hd0
        rw [List.cons_append, List.nil_append]
        exact optDot_dot _
    have hty : tailYear (w1 ++ (day ++ ',' :: X)) = none := by
      rw [hdayc, List.cons_append]
      exact tailYear_none_after_spaces hw1 (digit_not_space hdh) (digit_ne_semi hdh)
    unfold tryP2
    rw [hp, if_neg (by decide)]
    rw [hm]
    split
    · next heq => rfl
    · next mon2 s2 heq =>
      injection heq with h1
      injection h1 with h2 h3
      subst h2
      subst h3
      rw [hhw, if_neg (by decide)]
      rw [hod]
      split
      next dot2 s3 heq2 =>
      injection heq2 with h5 h6
      subst h5
      subst h6
      rw [hty]

end DxClan

namespace DxClan

theorem month_shape3 {mon : Str} (hmm : mon ∈ months) :
    ∃ a b c, mon = [a, b, c] ∧ isUpperC a = true ∧ isLowerC b = true ∧
      isLowerC c = true := by
  obtain ⟨a, b, c, hm⟩ : ∃ a b c, mon = [a, b, c] := by
    match mon, months_len hmm with
    | [a, b, c], _ => exact ⟨a, b, c, rfl⟩
  subst hm
  obtain ⟨u1, u2, u3⟩ := months_upper hmm
  exact ⟨a, b, c, rfl, u1, u2, u3⟩

theorem tryP1_shape : ∀ (p : Option Char) (s r : Str) (lst : Char) (rest2 : Str),
    tryP1 p s = some (r, lst, rest2) →
    ∃ a b c s4 r4, s = a :: b :: c :: s4 ∧ r = a :: b :: c :: r4 ∧
      isAlphaC a = true ∧ isAlphaC b = true ∧ isAlphaC c = true := by
  intro p s r lst rest2 h
  obtain ⟨mon, dot, w1, day, w2, w3, yr, hmm, _, _, _, _, _, _, _, _, _, _,
    hsv, hr, _⟩ := tryP1_sound h
  obtain ⟨a, b, c, hm, u1, u2, u3⟩ := month_shape3 hmm
  subst hm
  exact ⟨a, b, c, _, _, by rw [hsv]; rfl, by rw [hr]; rfl,
    upper_alpha u1, lower_alpha u2, lower_alpha u3⟩

theorem tryP2_shape : ∀ (p : Option Char) (s r : Str) (lst : Char) (rest2 : Str),
    tryP2 p s = some (r, lst, rest2) →
    ∃ a b c s4 r4, s = a :: b :: c :: s4 ∧ r = a :: b :: c :: r4 ∧
      isAlphaC a = true ∧ isAlphaC b = true ∧ isAlphaC c = true := by
  intro p s r lst rest2 h
  obtain ⟨mon, dot, w2, w3, yr, hmm, _, _, _, _, _, hsv, hr, _⟩ := tryP2_sound h
  obtain ⟨a, b, c, hm, u1, u2, u3⟩ := month_shape3 hmm
  subst hm
  exact ⟨a, b, c, _, _, by rw [hsv]; rfl, by rw [hr]; rfl,
    upper_alpha u1, lower_alpha u2, lower_alpha u3⟩

theorem tryP3_shape : ∀ (p : Option Char) (s r : Str) (lst : Char) (rest2 : Str),
    tryP3 p s = some (r, lst, rest2) →
    ∃ a b c s4 r4, s = a :: b :: c :: s4 ∧ r = a :: b :: c :: r4 ∧
      isAlphaC a = true ∧ isAlphaC b = true ∧ isAlphaC c = true := by
  intro p s r lst rest2 h
  obtain ⟨-, -, mon, dot, w1, day, w2, w3, hmm, _, _, _, _, _, _, _, _, hsv, hr⟩ :=
    tryP3_sound h
  obtain ⟨a, b, c, hm, u1, u2, u3⟩ := month_shape3 hmm
  subst hm
  exact ⟨a, b, c, _, _, by rw [hsv]; rfl, by rw [hr]; rfl,
    upper_alpha u1, lower_alpha u2, lower_alpha u3⟩

theorem nonupper_parts {dot w1 day tail2 : Str}
    (hdot : dot = [] ∨ dot = ['.']) (hw1 : ∀ c ∈ w1, isSpaceC c = true)
    (hdd : ∀ c ∈ day, isDigitC c = true)
    (htail : ∀ x ∈ tail2, isUpperC x = false) :
    ∀ x ∈ dot ++ (w1 ++ (day ++ tail2)), isUpperC x = false := by
  intro x hx
  simp only [List.mem_append] at hx
  rcases hx with hx | hx | hx | hx
  · rcases hdot with hd | hd
    · rw [hd] at hx
      exact absurd hx (List.not_mem_nil _)
    · rw [hd] at hx
      have : x = '.' := by simpa using hx
      rw [this]
      decide
  · exact space_not_upper (hw1 x hx)
  · exact digit_not_upper (hdd x hx)
  · exact htail x hx

end DxClan

namespace DxClan

theorem getLast?_cons_append {c : Char} {l1 l2 : List Char} :
    (c :: (l1 ++ l2)).getLast? = (l2.getLast?).or ((c :: l1).getLast?) := by
  rw [show c :: (l1 ++ l2) = (c :: l1) ++ l2 by simp, List.getLast?_append]

/-- The first substitution pass leaves no first-pattern match anywhere. -/
theorem scan1_free : ∀ (fuel : Nat) (p : Option Char) (s : Str), s.length ≤ fuel →
    PFree tryP1 p (subScan tryP1 fuel p s) := by
  intro fuel
  induction fuel with
  | zero =>
    intro p s hlen
    have hs : s = [] := List.eq_nil_of_length_eq_zero (Nat.le_zero.mp hlen)
    subst hs
    exact pfree_nil (fun q => tryP1_nil q) p
  | succ n ih =>
    intro p s hlen
    cases s with
    | nil => exact pfree_nil (fun q => tryP1_nil q) p
    | cons c rest =>
      cases htf : tryP1 p (c :: rest) with
      | none =>
        rw [subScan_cons_none htf]
        have hlen2 : rest.length ≤ n := by
          simp only [List.length_cons] at hlen
          omega
        refine pfree_cons ?_ (ih (some c) rest hlen2)
        obtain ⟨pr1, pr2, pr3, pr4, pr5⟩ := subScan_pres tryP1_shape n (some c) rest
        refine tryP1_transfer (u := c :: rest) ?_ ?_ htf
        · rw [List.take_succ_cons, List.take_succ_cons, pr2]
        · rw [List.drop_succ_cons, List.drop_succ_cons, pr5]
      | some x =>
        obtain ⟨r, lst, rest2⟩ := x
        rw [subScan_cons_some htf]
        obtain ⟨mon, dot, w1, day, w2, w3, yr, hmm, hdot, hw1, hbd, hdne, hdlen, hdd,
          hw2, hw3, hyl, hyd, hsv, hr, hlst⟩ := tryP1_sound htf
        have hlen2 : rest2.length ≤ n := by
          have hle := congrArg List.length hsv
          simp only [List.length_cons, List.length_append] at hle
          simp only [List.length_cons] at hlen
          have h3 := months_len hmm
          omega
        subst hr
        refine pfree_append (fun q s0 h => tryP1_none_of_head h) ?_ ?_ ?_
          (ih (some lst) rest2 hlen2)
        · intro q
          have hassoc : (mon ++ (dot ++ (w1 ++ (day ++ ',' :: ' ' :: yr)))) ++
              subScan tryP1 n (some lst) rest2 =
              mon ++ (dot ++ (w1 ++ (day ++ ',' ::
                (' ' :: (yr ++ subScan tryP1 n (some lst) rest2))))) := by
            simp [List.append_assoc]
          rw [hassoc]
          exact block_p1_comma hmm hdot hw1 hbd hdne hdlen hdd
        · obtain ⟨a, b, c2, hm, u1, u2, u3⟩ := month_shape3 hmm
          subst hm
          have hdrop : (([a, b, c2] ++ (dot ++ (w1 ++ (day ++ ',' :: ' ' :: yr)))).drop 1)
              = b :: c2 :: (dot ++ (w1 ++ (day ++ ',' :: ' ' :: yr))) := rfl
          rw [hdrop]
          intro x hx
          rcases List.mem_cons.mp hx with rfl | hx2
          · exact lower_not_upper u2
          · rcases List.mem_cons.mp hx2 with rfl | hx3
            · exact lower_not_upper u3
            · refine nonupper_parts hdot hw1 hdd ?_ x hx3
              intro y hy
              rcases List.mem_cons.mp hy with rfl | hy2
              · decide
              · rcases List.mem_cons.mp hy2 with rfl | hy3
                · decide
                · exact digit_not_upper (hyd y hy3)
        · obtain ⟨d1, d2, d3, d4, hyr⟩ := len4_shape hyl
          subst hyr
          rw [hlst]
          simp [List.getLast?_append, getLast?_cons_append]

end DxClan

namespace DxClan

theorem subScan_nil (tf : Option Char → Str → Option (Str × Char × Str))
    (fuel : Nat) (p : Option Char) : subScan tf fuel p [] = [] := by
  cases fuel <;> rfl

/-- The second substitution pass preserves first-pattern freeness. -/
theorem scan2_keeps_p1 : ∀ (fuel : Nat) (p : Option Char) (s : Str), s.length ≤ fuel →
    PFree tryP1 p s → PFree tryP1 p (subScan tryP2 fuel p s) := by
  intro fuel
  induction fuel with
  | zero =>
    intro p s hlen hfree
    have hs : s = [] := List.eq_nil_of_length_eq_zero (Nat.le_zero.mp hlen)
    subst hs
    exact pfree_nil (fun q => tryP1_nil q) p
  | succ n ih =>
    intro p s hlen hfree
    cases s with
    | nil => exact pfree_nil (fun q => tryP1_nil q) p
    | cons c rest =>
      cases htf : tryP2 p (c :: rest) with
      | none =>
        rw [subScan_cons_none htf]
        have hlen2 : rest.length ≤ n := by
          simp only [List.length_cons] at hlen
          omega
        refine pfree_cons ?_ (ih (some c) rest hlen2
          (by simpa [prevO_cons, prevO_nil] using pfree_suffix (u := [c]) hfree))
        obtain ⟨pr1, pr2, pr3, pr4, pr5⟩ := subScan_pres tryP2_shape n (some c) rest
        refine tryP1_transfer (u := c :: rest) ?_ ?_ (pfree_head hfree)
        · rw [List.take_succ_cons, List.take_succ_cons, pr2]
        · rw [List.drop_succ_cons, List.drop_succ_cons, pr5]
      | some x =>
        obtain ⟨r, lst, rest2⟩ := x
        rw [subScan_cons_some htf]
        obtain ⟨mon, dot, w2, w3, yr, hmm, hdot, hw2, hw3, hyl, hyd, hsv, hr, hlst⟩ :=
          tryP2_sound htf
        have hlen2 : rest2.length ≤ n := by
          have hle := congrArg List.length hsv
          simp only [List.length_cons, List.length_append] at hle
          simp only [List.length_cons] at hlen
          have h3 := months_len hmm
          omega
        have hsplit : c :: rest = (mon ++ (dot ++ (w2 ++ ';' :: (w3 ++ yr)))) ++ rest2 := by
          rw [hsv]
          simp [List.append_assoc]
        obtain ⟨d1, d2, d3, d4, hyr⟩ := len4_shape hyl
        have hconslast : (mon ++ (dot ++ (w2 ++ ';' :: (w3 ++ yr)))).getLast? = some lst := by
          subst hyr
          rw [hlst]
          simp [List.getLast?_append, getLast?_cons_append]
        have hfree2 : PFree tryP1 (some lst) rest2 := by
          rw [hsplit] at hfree
          have h2 := pfree_suffix hfree
          rwa [prevO_of_ne_nil hconslast] at h2
        subst hr
        refine pfree_append (fun q s0 h => tryP1_none_of_head h) ?_ ?_ ?_
          (ih (some lst) rest2 hlen2 hfree2)
        · intro q
          have hassoc : (mon ++ (dot ++ ' ' :: yr)) ++ subScan tryP2 n (some lst) rest2 =
              mon ++ (dot ++ (' ' :: (yr ++ subScan tryP2 n (some lst) rest2))) := by
            simp [List.append_assoc]
          rw [hassoc]
          exact block_p1_year hmm hdot hyl hyd
        · obtain ⟨a, b, c2, hm, u1, u2, u3⟩ := month_shape3 hmm
          subst hm
          have hdrop : (([a, b, c2] ++ (dot ++ ' ' :: yr)).drop 1)
              = b :: c2 :: (dot ++ ' ' :: yr) := rfl
          rw [hdrop]
          intro x hx
          rcases List.mem_cons.mp hx with rfl | hx2
          · exact lower_not_upper u2
          · rcases List.mem_cons.mp hx2 with rfl | hx3
            · exact lower_not_upper u3
            · have := @nonupper_parts dot [] [] (' ' :: yr) hdot
                (by intro z hz; exact absurd hz (List.not_mem_nil _))
                (by intro z hz; exact absurd hz (List.not_mem_nil _)) ?_ x (by simpa using hx3)
              · exact this
              · intro y hy
                rcases List.mem_cons.mp hy with rfl | hy2
                · decide
                · exact digit_not_upper (hyd y hy2)
        · subst hyr
          rw [hlst]
          simp [List.getLast?_append, getLast?_cons_append]

end DxClan

namespace DxClan

/-- The third substitution pass preserves first-pattern freeness. -/
theorem scan3_keeps_p1 : ∀ (fuel : Nat) (p : Option Char) (s : Str), s.length ≤ fuel →
    PFree tryP1 p s → PFree tryP1 p (subScan tryP3 fuel p s) := by
  intro fuel
  induction fuel with
  | zero =>
    intro p s hlen hfree
    have hs : s = [] := List.eq_nil_of_length_eq_zero (Nat.le_zero.mp hlen)
    subst hs
    exact pfree_nil (fun q => tryP1_nil q) p
  | succ n ih =>
    intro p s hlen hfree
    cases s with
    | nil => exact pfree_nil (fun q => tryP1_nil q) p
    | cons c rest =>
      cases htf : tryP3 p (c :: rest) with
      | none =>
        rw [subScan_cons_none htf]
        have hlen2 : rest.length ≤ n := by
          simp only [List.length_cons] at hlen
          omega
        refine pfree_cons ?_ (ih (some c) rest hlen2
          (by simpa [prevO_cons, prevO_nil] using pfree_suffix (u := [c]) hfree))
        obtain ⟨pr1, pr2, pr3, pr4, pr5⟩ := subScan_pres tryP3_shape n (some c) rest
        refine tryP1_transfer (u := c :: rest) ?_ ?_ (pfree_head hfree)
        · rw [List.take_succ_cons, List.take_succ_cons, pr2]
        · rw [List.drop_succ_cons, List.drop_succ_cons, pr5]
      | some x =>
        obtain ⟨r, lst, rest2⟩ := x
        rw [subScan_cons_some htf]
        obtain ⟨hr0, hlst, mon, dot, w1, day, w2, w3, hmm, hdot, hw1, hbd, hdne, hdlen,
          hdd, hw2, hw3, hsv, hr⟩ := tryP3_sound htf
        subst hr0
        subst hr
        subst hlst
        refine @pfree_append tryP1 p _ _ ',' (fun q s0 h => tryP1_none_of_head h) ?_ ?_ ?_ ?_
        · intro q
          have hassoc : (mon ++ (dot ++ (w1 ++ (day ++ [','])))) ++
              subScan tryP3 n (some ',') [] =
              mon ++ (dot ++ (w1 ++ (day ++ ',' :: subScan tryP3 n (some ',') []))) := by
            simp [List.append_assoc]
          rw [hassoc]
          exact block_p1_comma hmm hdot hw1 hbd hdne hdlen hdd
        · obtain ⟨a, b, c2, hm, u1, u2, u3⟩ := month_shape3 hmm
          subst hm
          have hdrop : (([a, b, c2] ++ (dot ++ (w1 ++ (day ++ [','])))).drop 1)
              = b :: c2 :: (dot ++ (w1 ++ (day ++ [',']))) := rfl
          rw [hdrop]
          intro x hx
          rcases List.mem_cons.mp hx with rfl | hx2
          · exact lower_not_upper u2
          · rcases List.mem_cons.mp hx2 with rfl | hx3
            · exact lower_not_upper u3
            · refine nonupper_parts hdot hw1 hdd ?_ x hx3
              intro y hy
              have : y = ',' := by simpa using hy
              rw [this]
              decide
        · simp [List.getLast?_append, getLast?_cons_append]
        · rw [subScan_nil]
          exact pfree_nil (fun q => tryP1_nil q) _

/-- The second substitution pass leaves no second-pattern match anywhere. -/
theorem scan2_free : ∀ (fuel : Nat) (p : Option Char) (s : Str), s.length ≤ fuel →
    PFree tryP2 p (subScan tryP2 fuel p s) := by
  intro fuel
  induction fuel with
  | zero =>
    intro p s hlen
    have hs : s = [] := List.eq_nil_of_length_eq_zero (Nat.le_zero.mp hlen)
    subst hs
    exact pfree_nil (fun q => tryP2_nil q) p
  | succ n ih =>
    intro p s hlen
    cases s with
    | nil => exact pfree_nil (fun q => tryP2_nil q) p
    | cons c rest =>
      cases htf : tryP2 p (c :: rest) with
      | none =>
        rw [subScan_cons_none htf]
        have hlen2 : rest.length ≤ n := by
          simp only [List.length_cons] at hlen
          omega
        refine pfree_cons ?_ (ih (some c) rest hlen2)
        obtain ⟨pr1, pr2, pr3, pr4, pr5⟩ := subScan_pres tryP2_shape n (some c) rest
        refine tryP2_transfer (u := c :: rest) ?_ ?_ htf
        · rw [List.take_succ_cons, List.take_succ_cons, pr2]
        · rw [List.drop_succ_cons, List.drop_succ_cons, pr5]
      | some x =>
        obtain ⟨r, lst, rest2⟩ := x
        rw [subScan_cons_some htf]
        obtain ⟨mon, dot, w2, w3, yr, hmm, hdot, hw2, hw3, hyl, hyd, hsv, hr, hlst⟩ :=
          tryP2_sound htf
        have hlen2 : rest2.length ≤ n := by
          have hle := congrArg List.length hsv
          simp only [List.length_cons, List.length_append] at hle
          simp only [List.length_cons] at hlen
          have h3 := months_len hmm
          omega
        subst hr
        refine pfree_append (fun q s0 h => tryP2_none_of_head h) ?_ ?_ ?_
          (ih (some lst) rest2 hlen2)
        · intro q
          have hassoc : (mon ++ (dot ++ ' ' :: yr)) ++ subScan tryP2 n (some lst) rest2 =
              mon ++ (dot ++ (' ' :: (yr ++ subScan tryP2 n (some lst) rest2))) := by
            simp [List.append_assoc]
          rw [hassoc]
          exact block_p2_year hmm hdot hyl hyd
        · obtain ⟨a, b, c2, hm, u1, u2, u3⟩ := month_shape3 hmm
          subst hm
          have hdrop : (([a, b, c2] ++ (dot ++ ' ' :: yr)).drop 1)
              = b :: c2 :: (dot ++ ' ' :: yr) := rfl
          rw [hdrop]
          intro x hx
          rcases List.mem_cons.mp hx with rfl | hx2
          · exact lower_not_upper u2
          · rcases List.mem_cons.mp hx2 with rfl | hx3
            · exact lower_not_upper u3
            · have := @nonupper_parts dot [] [] (' ' :: yr) hdot
                (by intro z hz; exact absurd hz (List.not_mem_nil _))
                (by intro z hz; exact absurd hz (List.not_mem_nil _)) ?_ x (by simpa using hx3)
              · exact this
              · intro y hy
                rcases List.mem_cons.mp hy with rfl | hy2
                · decide
                · exact digit_not_upper (hyd y hy2)
        · obtain ⟨d1, d2, d3, d4, hyr⟩ := len4_shape hyl
          subst hyr
          rw [hlst]
          simp [List.getLast?_append, getLast?_cons_append]

/-- The third substitution pass preserves second-pattern freeness. -/
theorem scan3_keeps_p2 : ∀ (fuel : Nat) (p : Option Char) (s : Str), s.length ≤ fuel →
    PFree tryP2 p s → PFree tryP2 p (subScan tryP3 fuel p s) := by
  intro fuel
  induction fuel with
  | zero =>
    intro p s hlen hfree
    have hs : s = [] := List.eq_nil_of_length_eq_zero (Nat.le_zero.mp hlen)
    subst hs
    exact pfree_nil (fun q => tryP2_nil q) p
  | succ n ih =>
    intro p s hlen hfree
    cases s with
    | nil => exact pfree_nil (fun q => tryP2_nil q) p
    | cons c rest =>
      cases htf : tryP3 p (c :: rest) with
      | none =>
        rw [subScan_cons_none htf]
        have hlen2 : rest.length ≤ n := by
          simp only [List.length_cons] at hlen
          omega
        refine pfree_cons ?_ (ih (some c) rest hlen2
          (by simpa [prevO_cons, prevO_nil] using pfree_suffix (u := [c]) hfree))
        obtain ⟨pr1, pr2, pr3, pr4, pr5⟩ := subScan_pres tryP3_shape n (some c) rest
        refine tryP2_transfer (u := c :: rest) ?_ ?_ (pfree_head hfree)
        · rw [List.take_succ_cons, List.take_succ_cons, pr2]
        · rw [List.drop_succ_cons, List.drop_succ_cons, pr5]
      | some x =>
        obtain ⟨r, lst, rest2⟩ := x
        rw [subScan_cons_some htf]
        obtain ⟨hr0, hlst, mon, dot, w1, day, w2, w3, hmm, hdot, hw1, hbd, hdne, hdlen,
          hdd, hw2, hw3, hsv, hr⟩ := tryP3_sound htf
        subst hr0
        subst hr
        subst hlst
        refine @pfree_append tryP2 p _ _ ',' (fun q s0 h => tryP2_none_of_head h) ?_ ?_ ?_ ?_
        · intro q
          have hassoc : (mon ++ (dot ++ (w1 ++ (day ++ [','])))) ++
              subScan tryP3 n (some ',') [] =
              mon ++ (dot ++ (w1 ++ (day ++ ',' :: subScan tryP3 n (some ',') []))) := by
            simp [List.append_assoc]
          rw [hassoc]
          exact block_p2_comma hmm hdot hw1 hbd hdne hdd
        · obtain ⟨a, b, c2, hm, u1, u2, u3⟩ := month_shape3 hmm
          subst hm
          have hdrop : (([a, b, c2] ++ (dot ++ (w1 ++ (day ++ [','])))).drop 1)
              = b :: c2 :: (dot ++ (w1 ++ (day ++ [',']))) := rfl
          rw [hdrop]
          intro x hx
          rcases List.mem_cons.mp hx with rfl | hx2
          · exact lower_not_upper u2
          · rcases List.mem_cons.mp hx2 with rfl | hx3
            · exact lower_not_upper u3
            · refine nonupper_parts hdot hw1 hdd ?_ x hx3
              intro y hy
              have : y = ',' := by simpa using hy
              rw [this]
              decide
        · simp [List.getLast?_append, getLast?_cons_append]
        · rw [subScan_nil]
          exact pfree_nil (fun q => tryP2_nil q) _

end DxClan

namespace DxClan

theorem getLast?_append_some {u v : Str} {x : Char} (h : v.getLast? = some x) :
    (u ++ v).getLast? = some x := by
  rw [List.getLast?_append, h]
  rfl

theorem getLast?_cons_some {c : Char} {v : Str} {x : Char} (h : v.getLast? = some x) :
    (c :: v).getLast? = some x := by
  rw [show c :: v = [c] ++ v from rfl]
  exact getLast?_append_some h

/-- The third pass either leaves a match-free string unchanged or outputs a string
ending in a comma. -/
theorem scan3_struct : ∀ (fuel : Nat) (p : Option Char) (s : Str), s.length ≤ fuel →
    (subScan tryP3 fuel p s = s ∧ PFree tryP3 p s) ∨
    (subScan tryP3 fuel p s).getLast? = some ',' := by
  intro fuel
  induction fuel with
  | zero =>
    intro p s hlen
    have hs : s = [] := List.eq_nil_of_length_eq_zero (Nat.le_zero.mp hlen)
    subst hs
    exact Or.inl ⟨rfl, pfree_nil (fun q => tryP3_nil q) p⟩
  | succ n ih =>
    intro p s hlen
    cases s with
    | nil => exact Or.inl ⟨rfl, pfree_nil (fun q => tryP3_nil q) p⟩
    | cons c rest =>
      cases htf : tryP3 p (c :: rest) with
      | none =>
        have hlen2 : rest.length ≤ n := by
          simp only [List.length_cons] at hlen
          omega
        rcases ih (some c) rest hlen2 with ⟨heq, hfree⟩ | hlast
        · refine Or.inl ⟨?_, ?_⟩
          · rw [subScan_cons_none htf, heq]
          · exact pfree_cons htf hfree
        · refine Or.inr ?_
          rw [subScan_cons_none htf]
          exact getLast?_cons_some hlast
      | some x =>
        obtain ⟨r, lst, rest2⟩ := x
        rw [subScan_cons_some htf]
        obtain ⟨hr0, hlst, mon, dot, w1, day, w2, w3, hmm, hdot, hw1, hbd, hdne, hdlen,
          hdd, hw2, hw3, hsv, hr⟩ := tryP3_sound htf
        subst hr0
        subst hr
        refine Or.inr ?_
        rw [subScan_nil, List.append_nil]
        simp [List.getLast?_append, getLast?_cons_append]

/-- A string ending in a comma admits no third-pattern match at any position. -/
theorem p3free_of_last_comma {s : Str} (h : s.getLast? = some ',') (p : Option Char) :
    PFree tryP3 p s := by
  intro a b hab
  cases hb : tryP3 (prevO p a) b with
  | none => rfl
  | some x =>
    exfalso
    obtain ⟨r, lst, rest2⟩ := x
    obtain ⟨hr0, hlst, mon, dot, w1, day, w2, w3, hmm, hdot, hw1, hbd, hdne, hdlen,
      hdd, hw2, hw3, hsv, hr⟩ := tryP3_sound hb
    obtain ⟨y, hy, hyp⟩ : ∃ y, (';' :: w3).getLast? = some y ∧
        (y = ';' ∨ isSpaceC y = true) := by
      cases w3 with
      | nil => exact ⟨';', rfl, Or.inl rfl⟩
      | cons u us =>
        refine ⟨(u :: us).getLast (by simp), getLast?_cons_some ?_, Or.inr ?_⟩
        · exact List.getLast?_eq_getLast _ (by simp)
        · exact hw3 _ (List.getLast_mem _)
    have hbl : b.getLast? = some y := by
      rw [hsv]
      exact getLast?_append_some (getLast?_append_some (getLast?_append_some
        (getLast?_append_some (getLast?_append_some hy))))
    have hsl : s.getLast? = some y := by
      rw [hab]
      exact getLast?_append_some hbl
    rw [h] at hsl
    injection hsl with hsl2
    rcases hyp with hy2 | hy2
    · rw [← hsl2] at hy2
      exact absurd hy2 (by decide)
    · rw [← hsl2] at hy2
      exact absurd hy2 (by decide)

/-- The third substitution pass leaves no third-pattern match anywhere. -/
theorem scan3_free (fuel : Nat) (p : Option Char) (s : Str) (hlen : s.length ≤ fuel) :
    PFree tryP3 p (subScan tryP3 fuel p s) := by
  rcases scan3_struct fuel p s hlen with ⟨heq, hfree⟩ | hlast
  · rw [heq]
    exact hfree
  · exact p3free_of_last_comma hlast p

/-- Appending a newline cannot destroy a first-pattern match. -/
theorem tryP1_app_nl {q : Option Char} {b : Str}
    (h : tryP1 q (b ++ ['\n']) = none) : tryP1 q b = none := by
  cases hb : tryP1 q b with
  | none => rfl
  | some x =>
    exfalso
    obtain ⟨r, lst, rest⟩ := x
    have hq : isWordO q = false := tryP_some_prev (fun s hw => tryP1_prev s hw) hb
    obtain ⟨mon, dot, w1, day, w2, w3, yr, hmm, hdot, hw1, hbd, hdne, hdlen, hdd,
      hw2, hw3, hyl, hyd, hsv, hr, hlst⟩ := tryP1_sound hb
    have hcomp := @tryP1_complete q mon dot w1 day w2 w3 yr (rest ++ ['\n'])
      hq hmm hdot hw1 hbd hdne hdlen hdd hw2 hw3 hyl hyd
    have heq : b ++ ['\n'] =
        mon ++ (dot ++ (w1 ++ (day ++ (w2 ++ ';' :: (w3 ++ (yr ++ (rest ++ ['\n']))))))) := by
      rw [hsv]
      simp [List.append_assoc]
    rw [← heq] at hcomp
    rw [hcomp] at h
    exact absurd h (by simp)

/-- Appending a newline cannot destroy a second-pattern match. -/
theorem tryP2_app_nl {q : Option Char} {b : Str}
    (h : tryP2 q (b ++ ['\n']) = none) : tryP2 q b = none := by
  cases hb : tryP2 q b with
  | none => rfl
  | some x =>
    exfalso
    obtain ⟨r, lst, rest⟩ := x
    have hq : isWordO q = false := tryP_some_prev (fun s hw => tryP2_prev s hw) hb
    obtain ⟨mon, dot, w2, w3, yr, hmm, hdot, hw2, hw3, hyl, hyd, hsv, hr, hlst⟩ :=
      tryP2_sound hb
    have hcomp := @tryP2_complete q mon dot w2 w3 yr (rest ++ ['\n'])
      hq hmm hdot hw2 hw3 hyl hyd
    have heq : b ++ ['\n'] =
        mon ++ (dot ++ (w2 ++ ';' :: (w3 ++ (yr ++ (rest ++ ['\n']))))) := by
      rw [hsv]
      simp [List.append_assoc]
    rw [← heq] at hcomp
    rw [hcomp] at h
    exact absurd h (by simp)

/-- Appending a newline cannot destroy a third-pattern match: the trailing
whitespace run simply absorbs the newline. -/
theorem tryP3_app_nl {q : Option Char} {b : Str}
    (h : tryP3 q (b ++ ['\n']) = none) : tryP3 q b = none := by
  cases hb : tryP3 q b with
  | none => rfl
  | some x =>
    exfalso
    obtain ⟨r, lst, rest2⟩ := x
    have hq : isWordO q = false := tryP_some_prev (fun s hw => tryP3_prev s hw) hb
    obtain ⟨hr0, hlst, mon, dot, w1, day, w2, w3, hmm, hdot, hw1, hbd, hdne, hdlen,
      hdd, hw2, hw3, hsv, hr⟩ := tryP3_sound hb
    have hw3n : ∀ c ∈ w3 ++ ['\n'], isSpaceC c = true := by
      intro c hc
      rcases List.mem_append.mp hc with hc2 | hc2
      · exact hw3 c hc2
      · have : c = '\n' := by simpa using hc2
        rw [this]
        decide
    have hcomp := @tryP3_complete q mon dot w1 day w2 (w3 ++ ['\n'])
      hq hmm hdot hw1 hbd hdne hdlen hdd hw2 hw3n
    have heq : b ++ ['\n'] =
        mon ++ (dot ++ (w1 ++ (day ++ (w2 ++ ';' :: (w3 ++ ['\n']))))) := by
      rw [hsv]
      simp [List.append_assoc]
    rw [← heq] at hcomp
    rw [hcomp] at h
    exact absurd h (by simp)

/-- Freeness of a string followed by a newline gives freeness of the string itself. -/
theorem pfree_drop_nl {tf : Option Char → Str → Option (Str × Char × Str)}
    (hnl : ∀ (q : Option Char) (b : Str), tf q (b ++ ['\n']) = none → tf q b = none)
    {p : Option Char} {s : Str} (h : PFree tf p (s ++ ['\n'])) : PFree tf p s := by
  intro a b hab
  exact hnl _ _ (h a (b ++ ['\n']) (by rw [hab, List.append_assoc]))

end DxClan

namespace DxClan

theorem dotStarEnd_sound : ∀ {rest2 content : Str}, dotStarEnd rest2 = some content →
    ('\n' ∉ content) ∧ (rest2 = content ∨ rest2 = content ++ ['\n'])
  | [], content, h => by
    unfold dotStarEnd at h
    injection h with h1
    subst h1
    exact ⟨by simp, Or.inl rfl⟩
  | c :: rest, content, h => by
    unfold dotStarEnd at h
    by_cases hc : c = '\n'
    · rw [if_pos hc] at h
      by_cases hr : rest = []
      · rw [if_pos hr] at h
        injection h with h1
        subst h1
        subst hc
        subst hr
        exact ⟨by simp, Or.inr rfl⟩
      · rw [if_neg hr] at h
        exact absurd h (by simp)
    · rw [if_neg hc] at h
      cases hde : dotStarEnd rest with
      | none =>
        rw [hde] at h
        exact absurd h (by simp)
      | some t =>
        rw [hde] at h
        simp only [Option.map_some'] at h
        injection h with h1
        obtain ⟨hnc, hor⟩ := dotStarEnd_sound hde
        subst h1
        refine ⟨?_, ?_⟩
        · intro hmem
          rcases List.mem_cons.mp hmem with h2 | h2
          · exact hc h2.symm
          · exact hnc h2
        · rcases hor with h2 | h2
          · exact Or.inl (by rw [h2])
          · exact Or.inr (by rw [h2, List.cons_append])

theorem dotStarEnd_self : ∀ {content : Str}, ('\n' ∉ content) →
    dotStarEnd content = some content
  | [], _ => rfl
  | c :: rest, h => by
    have hc : ¬ (c = '\n') := fun hx => h (by rw [hx]; exact List.mem_cons_self _ _)
    have hrest : '\n' ∉ rest := fun hx => h (List.mem_cons_of_mem _ hx)
    unfold dotStarEnd
    rw [if_neg hc, dotStarEnd_self hrest]
    rfl

theorem span_all_stop {p : Char → Bool} {u v : Str} {m : Char}
    (hu : ∀ c ∈ u, p c = true) (hm : p m = false) :
    (u ++ m :: v).span p = (u, m :: v) := by
  rw [List.span_eq_take_drop, takeWhile_append_all (m :: v) hu,
    dropWhile_append_all (m :: v) hu]
  simp [List.takeWhile_cons, List.dropWhile_cons, hm]

theorem replicate_head_nonupper {k : Nat} {m : Char} {content : Str}
    (hm : isUpperC m = false) :
    ∀ c cs, List.replicate k '.' ++ m :: content = c :: cs → isUpperC c = false := by
  intro c cs hc
  cases k with
  | zero =>
    rw [show List.replicate 0 '.' = ([] : Str) from rfl, List.nil_append] at hc
    injection hc with h1 _
    rw [← h1]
    exact hm
  | succ k2 =>
    rw [show List.replicate (k2 + 1) '.' = '.' :: List.replicate k2 '.' from rfl,
      List.cons_append] at hc
    injection hc with h1 _
    rw [← h1]
    decide

/-- Prefix reconstruction preserves freeness of any matcher that rejects
non-uppercase heads and survives removal of a trailing newline. -/
theorem rebuild_pres {tf : Option Char → Str → Option (Str × Char × Str)}
    (hhead : ∀ (q : Option Char) (s : Str),
      (∀ c cs, s = c :: cs → isUpperC c = false) → tf q s = none)
    (hnl : ∀ (q : Option Char) (b : Str), tf q (b ++ ['\n']) = none → tf q b = none)
    {line : Str} (hfree : PFree tf none line) : PFree tf none (rebuildPrefix line) := by
  unfold rebuildPrefix
  split
  next pre m rest2 hsp =>
    split
    next hcond =>
      split
      next content hde =>
        have hline : line = (pre ++ [m]) ++ rest2 := by
          have h1 := span_decomp prefixClassC line
          rw [hsp] at h1
          rw [h1, List.append_cons]
        have hfree2 : PFree tf (some m) rest2 := by
          rw [hline] at hfree
          have h2 := pfree_suffix hfree
          rwa [prevO_of_ne_nil (getLast?_append_some (v := [m]) rfl)] at h2
        obtain ⟨hnc, hor⟩ := dotStarEnd_sound hde
        have hfreeC : PFree tf (some m) content := by
          rcases hor with h2 | h2
          · rwa [h2] at hfree2
          · rw [h2] at hfree2
            exact pfree_drop_nl hnl hfree2
        have hm : isUpperC m = false := by
          rcases hcond.1 with h2 | h2 <;> rw [h2] <;> decide
        rw [List.append_cons]
        refine @pfree_append tf none (List.replicate (pre.count '.') '.' ++ [m]) content m
          hhead ?_ ?_ ?_ hfreeC
        · intro q
          refine hhead q _ ?_
          intro c cs hc
          rw [← List.append_cons] at hc
          exact replicate_head_nonupper hm c cs hc
        · intro x hx
          have hx2 := List.mem_of_mem_drop hx
          rcases List.mem_append.mp hx2 with h2 | h2
          · rw [List.eq_of_mem_replicate h2]
            decide
          · have : x = m := by simpa using h2
            rw [this]
            exact hm
        · exact getLast?_append_some (v := [m]) rfl
      next hde => exact hfree
    next hcond => exact hfree
  next a b hsp => exact hfree

theorem rebuild_cases (line : Str) :
    rebuildPrefix line = line ∨
    ∃ k m content, (m = '+' ∨ m = '*') ∧ ('\n' ∉ content) ∧
      rebuildPrefix line = List.replicate k '.' ++ m :: content := by
  unfold rebuildPrefix
  split
  next pre m rest2 hsp =>
    split
    next hcond =>
      split
      next content hde =>
        exact Or.inr ⟨pre.count '.', m, content, hcond.1, (dotStarEnd_sound hde).1, rfl⟩
      next hde => exact Or.inl rfl
    next hcond => exact Or.inl rfl
  next a b hsp => exact Or.inl rfl

theorem rebuildPrefix_eq {line pre : Str} {m : Char} {rest2 : Str}
    (hsp : line.span prefixClassC = (pre, m :: rest2)) :
    rebuildPrefix line = if (m = '+' ∨ m = '*') ∧ pre ≠ [] then
      match dotStarEnd rest2 with
      | some content => List.replicate (pre.count '.') '.' ++ m :: content
      | none => line
    else line := by
  unfold rebuildPrefix
  rw [hsp]

/-- Prefix reconstruction is idempotent. -/
theorem rebuild_idem (line : Str) :
    rebuildPrefix (rebuildPrefix line) = rebuildPrefix line := by
  rcases rebuild_cases line with h | ⟨k, m, content, hm, hnc, h⟩
  · rw [h]
    exact h
  · rw [h]
    have hmp : prefixClassC m = false := by
      rcases hm with h2 | h2 <;> rw [h2] <;> decide
    cases k with
    | zero =>
      rw [show List.replicate 0 '.' = ([] : Str) from rfl, List.nil_append]
      have hsp0 : (m :: content).span prefixClassC = (([] : Str), m :: content) := by
        rw [show (m :: content) = ([] : Str) ++ m :: content from rfl]
        exact span_all_stop (by intro c hc; exact absurd hc (List.not_mem_nil _)) hmp
      rw [rebuildPrefix_eq hsp0, if_neg (by simp)]
    | succ k2 =>
      have hsp2 : (List.replicate (k2 + 1) '.' ++ m :: content).span prefixClassC =
          (List.replicate (k2 + 1) '.', m :: content) :=
        span_all_stop (by
          intro c hc
          rw [List.eq_of_mem_replicate hc]
          decide) hmp
      have hne : List.replicate (k2 + 1) '.' ≠ ([] : Str) := by simp
      rw [rebuildPrefix_eq hsp2, if_pos ⟨hm, hne⟩, dotStarEnd_self hnc]
      simp [List.count_replicate_self]

end DxClan

namespace DxClan

theorem cleanChar_eq_self {c : Char} (h1 : c ≠ '†') (h2 : c ≠ '•') (h3 : c ≠ '—')
    (h4 : c ≠ '–') : cleanChar c = c := by
  unfold cleanChar
  rw [if_neg h1, if_neg h2, if_neg h3, if_neg h4]

theorem clean_cleanChar (c : Char) : cleanChar (cleanChar c) = cleanChar c := by
  by_cases h1 : c = '†'
  · rw [h1]
    decide
  by_cases h2 : c = '•'
  · rw [h2]
    decide
  by_cases h3 : c = '—'
  · rw [h3]
    decide
  by_cases h4 : c = '–'
  · rw [h4]
    decide
  rw [cleanChar_eq_self h1 h2 h3 h4, cleanChar_eq_self h1 h2 h3 h4]

theorem tryP1_origin {p : Option Char} {s r : Str} {lst : Char} {rest2 : Str}
    (h : tryP1 p s = some (r, lst, rest2)) :
    (∀ c ∈ r, c ∈ s ∨ c = ',' ∨ c = ' ') ∧ (∀ c ∈ rest2, c ∈ s) := by
  obtain ⟨mon, dot, w1, day, w2, w3, yr, hmm, hdot, hw1, hbd, hdne, hdlen, hdd,
    hw2, hw3, hyl, hyd, hsv, hr, hlst⟩ := tryP1_sound h
  subst hsv
  subst hr
  constructor
  · intro c hc
    simp only [List.mem_append, List.mem_cons] at hc ⊢
    tauto
  · intro c hc
    simp only [List.mem_append, List.mem_cons]
    tauto

theorem tryP2_origin {p : Option Char} {s r : Str} {lst : Char} {rest2 : Str}
    (h : tryP2 p s = some (r, lst, rest2)) :
    (∀ c ∈ r, c ∈ s ∨ c = ',' ∨ c = ' ') ∧ (∀ c ∈ rest2, c ∈ s) := by
  obtain ⟨mon, dot, w2, w3, yr, hmm, hdot, hw2, hw3, hyl, hyd, hsv, hr, hlst⟩ :=
    tryP2_sound h
  subst hsv
  subst hr
  constructor
  · intro c hc
    simp only [List.mem_append, List.mem_cons] at hc ⊢
    tauto
  · intro c hc
    simp only [List.mem_append, List.mem_cons]
    tauto

theorem tryP3_origin {p : Option Char} {s r : Str} {lst : Char} {rest2 : Str}
    (h : tryP3 p s = some (r, lst, rest2)) :
    (∀ c ∈ r, c ∈ s ∨ c = ',' ∨ c = ' ') ∧ (∀ c ∈ rest2, c ∈ s) := by
  obtain ⟨hr0, hlst, mon, dot, w1, day, w2, w3, hmm, hdot, hw1, hbd, hdne, hdlen,
    hdd, hw2, hw3, hsv, hr⟩ := tryP3_sound h
  subst hr0
  subst hsv
  subst hr
  constructor
  · intro c hc
    simp only [List.mem_append, List.mem_cons] at hc ⊢
    tauto
  · intro c hc
    exact absurd hc (List.not_mem_nil c)

theorem subScan_mem {tf : Option Char → Str → Option (Str × Char × Str)}
    (horig : ∀ (p : Option Char) (s r : Str) (lst : Char) (rest2 : Str),
      tf p s = some (r, lst, rest2) →
      (∀ c ∈ r, c ∈ s ∨ c = ',' ∨ c = ' ') ∧ (∀ c ∈ rest2, c ∈ s)) :
    ∀ (fuel : Nat) (p : Option Char) (s : Str), ∀ c ∈ subScan tf fuel p s,
      c ∈ s ∨ c = ',' ∨ c = ' ' := by
  intro fuel
  induction fuel with
  | zero => intro p s c hc; exact Or.inl hc
  | succ n ih =>
    intro p s c hc
    cases s with
    | nil => exact absurd (by simpa [subScan_nil] using hc) (List.not_mem_nil c)
    | cons d rest =>
      cases htf : tf p (d :: rest) with
      | none =>
        rw [subScan_cons_none htf] at hc
        rcases List.mem_cons.mp hc with h2 | h2
        · exact Or.inl (h2 ▸ List.mem_cons_self d rest)
        · rcases ih (some d) rest c h2 with h3 | h3
          · exact Or.inl (List.mem_cons_of_mem d h3)
          · exact Or.inr h3
      | some x =>
        obtain ⟨r, lst, rest2⟩ := x
        rw [subScan_cons_some htf] at hc
        obtain ⟨ho1, ho2⟩ := horig p (d :: rest) r lst rest2 htf
        rcases List.mem_append.mp hc with h2 | h2
        · exact ho1 c h2
        · rcases ih (some lst) rest2 c h2 with h3 | h3
          · exact Or.inl (ho2 c h3)
          · exact Or.inr h3

theorem rebuild_mem (line : Str) : ∀ c ∈ rebuildPrefix line, c ∈ line ∨ c = '.' := by
  unfold rebuildPrefix
  split
  next pre m rest2 hsp =>
    split
    next hcond =>
      split
      next content hde =>
        intro c hc
        have hline : line = pre ++ m :: rest2 := by
          have h1 := span_decomp prefixClassC line
          rw [hsp] at h1
          exact h1
        rcases List.mem_append.mp hc with h2 | h2
        · exact Or.inr (List.eq_of_mem_replicate h2)
        · rcases List.mem_cons.mp h2 with h3 | h3
          · refine Or.inl ?_
            rw [hline, h3]
            simp
          · have hsub : c ∈ rest2 := by
              rcases (dotStarEnd_sound hde).2 with h4 | h4
              · rw [h4]
                exact h3
              · rw [h4]
                exact List.mem_append.mpr (Or.inl h3)
            refine Or.inl ?_
            rw [hline]
            simp [hsub]
      next hde => intro c hc; exact Or.inl hc
    next hcond => intro c hc; exact Or.inl hc
  next a b hsp => intro c hc; exact Or.inl hc

theorem map_self_of_clean : ∀ {l : Str}, (∀ c ∈ l, cleanChar c = c) →
    l.map cleanChar = l
  | [], _ => rfl
  | c :: rest, h => by
    rw [List.map_cons, h c (List.mem_cons_self c rest),
      map_self_of_clean (fun d hd => h d (List.mem_cons_of_mem c hd))]

/-- Every character of a cleaned line is a fixed point of the character map. -/
theorem clean_line_chars (x : Str) : ∀ c ∈ clean_line x, cleanChar c = c := by
  intro c hc
  unfold clean_line at hc
  have h1 : ∀ d ∈ x.map cleanChar, cleanChar d = d := by
    intro d hd
    obtain ⟨e, _, he⟩ := List.mem_map.mp hd
    rw [← he]
    exact clean_cleanChar e
  have h2 : ∀ d ∈ runSub tryP1 (x.map cleanChar), cleanChar d = d := by
    intro d hd
    rcases subScan_mem (fun p s r lst rest2 h => tryP1_origin h) _ _ _ d hd with h3 | h3 | h3
    · exact h1 d h3
    · rw [h3]; decide
    · rw [h3]; decide
  have h3 : ∀ d ∈ runSub tryP2 (runSub tryP1 (x.map cleanChar)), cleanChar d = d := by
    intro d hd
    rcases subScan_mem (fun p s r lst rest2 h => tryP2_origin h) _ _ _ d hd with h4 | h4 | h4
    · exact h2 d h4
    · rw [h4]; decide
    · rw [h4]; decide
  have h4 : ∀ d ∈ runSub tryP3 (runSub tryP2 (runSub tryP1 (x.map cleanChar))),
      cleanChar d = d := by
    intro d hd
    rcases subScan_mem (fun p s r lst rest2 h => tryP3_origin h) _ _ _ d hd with h5 | h5 | h5
    · exact h3 d h5
    · rw [h5]; decide
    · rw [h5]; decide
  rcases rebuild_mem _ c hc with h5 | h5
  · exact h4 c h5
  · rw [h5]; decide

end DxClan

namespace DxClan

/-- C6: the line normalizer clean_line is idempotent — for every input string,
applying the glyph substitutions, the three date-punctuation repairs, and the
marker-prefix reconstruction a second time changes nothing:
clean_line (clean_line x) = clean_line x. -/
theorem c6_clean_line_idempotent (x : Str) :
    clean_line (clean_line x) = clean_line x := by
  have f1 : PFree tryP1 none (runSub tryP1 (x.map cleanChar)) := by
    unfold runSub
    exact scan1_free _ none _ le_rfl
  have f2a : PFree tryP1 none (runSub tryP2 (runSub tryP1 (x.map cleanChar))) := by
    unfold runSub
    exact scan2_keeps_p1 _ none _ le_rfl f1
  have f2b : PFree tryP2 none (runSub tryP2 (runSub tryP1 (x.map cleanChar))) := by
    unfold runSub
    exact scan2_free _ none _ le_rfl
  have f3a : PFree tryP1 none
      (runSub tryP3 (runSub tryP2 (runSub tryP1 (x.map cleanChar)))) := by
    unfold runSub
    exact scan3_keeps_p1 _ none _ le_rfl f2a
  have f3b : PFree tryP2 none
      (runSub tryP3 (runSub tryP2 (runSub tryP1 (x.map cleanChar)))) := by
    unfold runSub
    exact scan3_keeps_p2 _ none _ le_rfl f2b
  have f3c : PFree tryP3 none
      (runSub tryP3 (runSub tryP2 (runSub tryP1 (x.map cleanChar)))) := by
    unfold runSub
    exact scan3_free _ none _ le_rfl
  have hP1 : PFree tryP1 none (clean_line x) :=
    @rebuild_pres tryP1 (fun q s h => tryP1_none_of_head h) (fun q b h => tryP1_app_nl h) _ f3a
  have hP2 : PFree tryP2 none (clean_line x) :=
    @rebuild_pres tryP2 (fun q s h => tryP2_none_of_head h) (fun q b h => tryP2_app_nl h) _ f3b
  have hP3 : PFree tryP3 none (clean_line x) :=
    @rebuild_pres tryP3 (fun q s h => tryP3_none_of_head h) (fun q b h => tryP3_app_nl h) _ f3c
  have hmap : (clean_line x).map cleanChar = clean_line x :=
    map_self_of_clean (clean_line_chars x)
  have hs1 : runSub tryP1 (clean_line x) = clean_line x := by
    unfold runSub
    exact subScan_id _ _ _ hP1
  have hs2 : runSub tryP2 (clean_line x) = clean_line x := by
    unfold runSub
    exact subScan_id _ _ _ hP2
  have hs3 : runSub tryP3 (clean_line x) = clean_line x := by
    unfold runSub
    exact subScan_id _ _ _ hP3
  have hreb : rebuildPrefix (clean_line x) = clean_line x :=
    rebuild_idem (runSub tryP3 (runSub tryP2 (runSub tryP1 (x.map cleanChar))))
  calc clean_line (clean_line x)
      = rebuildPrefix (runSub tryP3 (runSub tryP2 (runSub tryP1
          ((clean_line x).map cleanChar)))) := rfl
    _ = rebuildPrefix (runSub tryP3 (runSub tryP2 (runSub tryP1 (clean_line x)))) := by
          rw [hmap]
    _ = rebuildPrefix (runSub tryP3 (runSub tryP2 (clean_line x))) := by rw [hs1]
    _ = rebuildPrefix (runSub tryP3 (clean_line x)) := by rw [hs2]
    _ = rebuildPrefix (clean_line x) := by rw [hs3]
    _ = clean_line x := hreb

end DxClan
